import Mathlib

/-!
Sevens card game engine: rule predicate, round controller and their properties.

Shallow embedding of `src/code_skeleton/MyGameMapper.cpp`, `MyCardParser.cpp`,
`MyGameParser.cpp`, `StrategyLoader.cpp` and the four strategies.

* The `int` fields of a card are `Int`; the `uint64_t` keys of the table maps are
  `Nat`, and an `int` used as a key goes through `u64` (reduction modulo `2 ^ 64`).
* `std::unordered_map<uint64_t, V>` is a partial function `Nat → Option V`
  (`none` = key absent).
* Player indices and counts are `Nat`. The `int` variables `start_player` and
  `player` hold values below `nP`; every caller in the repository passes for `nP`
  an `int` or the number of loaded strategies, so `nP` is below `2 ^ 31` and these
  variables hold their values without wrap-around.
* The strategies are external code: every player below `nP` has a registered
  strategy, and the value returned by the `k`-th call of `selectCardToPlay` in a
  round is `sel k`, an arbitrary `Int`.
* The shuffled deck and the raw output of the random generator are inputs.
* A function whose loop is bounded by a fuel argument returns `none` when the fuel
  runs out; `none` also stands for an out-of-bounds vector access.
* `std::sort` is a parameter (`StdSort`): any function that returns a rearrangement
  of its input ordered by the comparator.
* In the tournament, the result of the call of `compute_game_progress` in round
  number `k` is `rounds k`; the totals are stored modulo `2 ^ 64` as in the code,
  the win counts and the round number, which grow by one per round, are `Nat`.
* The calls made to the strategies are listed as `Event`s. A strategy is identified
  with the key under which it is registered; `registered` lists the keys of the map
  `strategies` in its iteration order. A turn of a player without a registered
  strategy calls through a null pointer: the list of calls is then undefined
  (`none`).
* A callback may throw: the code has no handler, so an exception leaves the
  function that made the call (`Outcome.threw`).
* The dynamic loader (`dlopen`, `dlsym`, the factory) is an oracle
  (`DynamicLoader`); a symbol that resolves is the factory function, and what is
  read in the buffer of `dlerror()` after `dlclose` is an unspecified text.
* In the strategies, `int` arithmetic on ranks is exact, the value drawn from the
  generator is an input, and the `double` scores of `CalculativeStrategy` and
  `Sentinel7` are values of an arbitrary type with its comparisons.
* The text printed by the verbose round is a `String`; a print that reads
  `SUIT_SYM` outside the array is undefined (`none`).
* The deck of a round is a rearrangement of `standardDeck`; the theorems that need
  it take it as a hypothesis.
-/

namespace Sevens

/-! ## Card and table model -/

/-- Card of `Generic_card_parser.hpp`: two C++ `int` fields. -/
structure Card where
  suit : Int
  rank : Int
deriving DecidableEq

/-- Conversion of a C++ `int` to the `uint64_t` key type of the table maps. -/
def u64 (x : Int) : Nat := (x % 2 ^ 64).toNat

/-- Finite map `std::unordered_map<uint64_t, V>`: `none` is an absent key. -/
abbrev UMap (V : Type) := Nat → Option V

/-- The map with no key, the result of `clear()`. -/
def UMap.empty {V : Type} : UMap V := fun _ => none

/-- Assignment `m[k] = v`: the key is inserted or overwritten. -/
def UMap.set {V : Type} (m : UMap V) (k : Nat) (v : V) : UMap V :=
  fun j => if j = k then some v else m j

/-- Reference `m[k]` used as an lvalue: an absent key stands for a
default-constructed value `d`. -/
def UMap.getD {V : Type} (m : UMap V) (k : Nat) (d : V) : V :=
  match m k with
  | some v => v
  | none => d

/-- Type of `table_layout`: suit key to (rank key to played flag). -/
abbrev Table := UMap (UMap Bool)

/-- The guarded lookup `T.count(s) && T.at(s).count(r) && T.at(s).at(r)` that
`isPlayable` and `printTable` evaluate: the pair is marked played. -/
def isOn (T : Table) (s r : Nat) : Bool :=
  match T s with
  | none => false
  | some row =>
    match row r with
    | none => false
    | some b => b

/-- Statement `table_layout[s][r] = true`. -/
def markPlayed (T : Table) (s r : Nat) : Table :=
  UMap.set T s (UMap.set (UMap.getD T s UMap.empty) r true)

/-- Static function `isPlayable` of `MyGameMapper.cpp` (lines 117-126). -/
def isPlayable (c : Card) (table : Table) : Bool :=
  if c.rank = 7 then
    match table (u64 c.suit) with
    | none => true
    | some row =>
      match row 7 with
      | none => true
      | some b => !b
  else
    let lower := decide (c.rank > 1) && isOn table (u64 c.suit) (u64 (c.rank - 1))
    let upper := decide (c.rank < 13) && isOn table (u64 c.suit) (u64 (c.rank + 1))
    lower || upper

/-- Body of `MyGameParser::read_game`: `clear()` then `table_layout[2][7] = true`. -/
def read_game : Table := markPlayed UMap.empty 2 7

/-! ## Card universe and dealing -/

/-- Loops of `MyCardParser::read_cards`: for `suit` in 0..3 and `rank` in 1..13 the
statement `cards_hashmap[card_id++] = Card{suit, rank}`; the insertions are listed in
order as pairs (key, card). -/
def read_cards : List (Nat × Card) :=
  ((List.range 4).foldl
    (fun (acc : List (Nat × Card) × Nat) (suit : Nat) =>
      (List.range' 1 13).foldl
        (fun (acc : List (Nat × Card) × Nat) (rank : Nat) =>
          (acc.1 ++ [(acc.2, Card.mk (suit : Int) (rank : Int))], acc.2 + 1))
        acc)
    ([], 0)).1

/-- The 52 cards of `cards_hashmap`, listed by increasing key. The deck of a round
is some rearrangement of this list (map iteration order, then `std::shuffle`). -/
def standardDeck : List Card := read_cards.map Prod.snd

/-- Statement `int start_player = rng() % nP;` where `r` is the value of `rng()`.
The variable is an `int`; it holds the remainder exactly because `nP` is below
`2 ^ 31` (see the header). -/
def startPlayer (nP r : Nat) : Nat := r % nP

/-- Statement `int player = (start_player + i) % nP;` of the dealing loop. -/
def dealPlayer (nP start i : Nat) : Nat := (start + i) % nP

/-- Statement `hands[player].push_back(c)`. -/
def pushBack (hands : List (List Card)) (player : Nat) (c : Card) : List (List Card) :=
  List.modify (fun h => h ++ [c]) player hands

/-- Dealing loop from deck position `i` on, the cards still to deal being `rest`. -/
def dealLoop (nP : Nat) (start : Nat) : Nat → List Card → List (List Card) → List (List Card)
  | _, [], hands => hands
  | i, c :: rest, hands =>
    dealLoop nP start (i + 1) rest (pushBack hands (dealPlayer nP start i) c)

/-- Dealing of the whole deck into `nP` initially empty hands (lines 158-162). -/
def deal (nP : Nat) (start : Nat) (deck : List Card) : List (List Card) :=
  dealLoop nP start 0 deck (List.replicate nP [])

/-- Predicate of the `find_if` at line 166: the 7 of suit 2. -/
def isOpening (c : Card) : Bool := decide (c.suit = 2) && decide (c.rank = 7)

/-- Loop of lines 165-173: in the first hand that holds the opening card, erase its
first occurrence and stop. -/
def removeOpening : List (List Card) → List (List Card)
  | [] => []
  | hand :: rest =>
    if hand.any isOpening then hand.eraseP isOpening :: rest
    else hand :: removeOpening rest

/-! ## Round state and turn -/

/-- Local variables of `compute_game_progress` during the turn loop, together with
`table_layout`. The fields `turns` and `moves` are ghost counters (number of loop
iterations done, number of accepted moves); the code does not read them. -/
structure RoundState where
  table : Table
  hands : List (List Card)
  scores : List Nat
  passed : List Bool
  current_player : Nat
  game_over : Bool
  turns : Nat
  moves : Nat

/-- Condition of the `if` at line 197 for the returned index `idx`. -/
def accepted (hand : List Card) (idx : Int) (table : Table) : Bool :=
  decide (idx ≥ 0) && decide (idx.toNat < hand.length) &&
    (match hand[idx.toNat]? with
     | some c => isPlayable c table
     | none => false)

/-- All vector accesses of one loop iteration are within bounds (and `nP` is not 0). -/
def inBounds (nP : Nat) (st : RoundState) : Bool :=
  decide (0 < nP) && decide (st.current_player < st.hands.length) &&
    decide (st.current_player < st.scores.length) &&
    decide (st.current_player < st.passed.length)

/-- Body of the `while` loop (lines 190-231) when the strategy of the current player
returned `idx`. The inner `none` branch cannot be reached: an accepted index is within
the hand. -/
def resolve (nP : Nat) (idx : Int) (st : RoundState) : RoundState :=
  let p := st.current_player
  let hand := st.hands.getD p []
  let st1 : RoundState :=
    if accepted hand idx st.table then
      match hand[idx.toNat]? with
      | some played_card =>
        let newHand := hand.eraseIdx idx.toNat
        { st with
          table := markPlayed st.table (u64 played_card.suit) (u64 played_card.rank)
          hands := st.hands.set p newHand
          scores := st.scores.set p newHand.length
          game_over := st.game_over || newHand.isEmpty
          passed := st.passed.set p false
          moves := st.moves + 1 }
      | none => st
    else
      { st with passed := st.passed.set p true }
  { st1 with
    current_player := (p + 1) % nP
    game_over := st1.game_over || st1.passed.all (fun b => b)
    turns := st.turns + 1 }

/-- One loop iteration; `none` stands for an out-of-bounds vector access. -/
def turn (nP : Nat) (idx : Int) (st : RoundState) : Option RoundState :=
  if inBounds nP st then some (resolve nP idx st) else none

/-- The `while(!game_over)` loop with a bound `fuel` on the number of iterations;
`sel k` is the index returned by the `k`-th call of `selectCardToPlay`. The result is
`none` when the fuel runs out or an access is out of bounds. -/
def turnLoop (nP : Nat) (sel : Nat → Int) : Nat → RoundState → Option RoundState
  | 0, st => if st.game_over then some st else none
  | fuel + 1, st =>
    if st.game_over then some st
    else
      match turn nP (sel st.turns) st with
      | none => none
      | some st1 => turnLoop nP sel fuel st1

/-- A sequence of loop iterations with the returned indices `idxs`. -/
def runTurns (nP : Nat) : List Int → RoundState → Option RoundState
  | [], st => some st
  | idx :: rest, st =>
    match turn nP idx st with
    | none => none
    | some st1 => runTurns nP rest st1

/-- State after `k` iterations of the `while` loop started in `st0`; the state no
longer changes once the loop has exited. -/
def stateAfter (nP : Nat) (sel : Nat → Int) (st0 : RoundState) : Nat → RoundState
  | 0 => st0
  | k + 1 =>
    let st := stateAfter nP sel st0 k
    if st.game_over then st
    else
      match turn nP (sel st.turns) st with
      | none => st
      | some st1 => st1

/-- State at the entry of the `while` loop (lines 141-186): the table of
`read_game`, the dealt hands without the opening card, the scores, the flags and
`current_player = (start_player + 1) % nP`. -/
def initRound (nP : Nat) (start : Nat) (hands : List (List Card)) : RoundState :=
  { table := read_game
    hands := hands
    scores := hands.map List.length
    passed := List.replicate nP false
    current_player := (start + 1) % nP
    game_over := false
    turns := 0
    moves := 0 }

/-- State at the entry of the loop for a shuffled deck `deck` and a generator
output `r`. -/
def dealtRound (nP : Nat) (deck : List Card) (r : Nat) : RoundState :=
  initRound nP (startPlayer nP r) (removeOpening (deal nP (startPlayer nP r) deck))

/-- The round up to the exit of the turn loop; `nP = 0` is a division by zero. -/
def playRound (fuel nP : Nat) (deck : List Card) (r : Nat) (sel : Nat → Int) :
    Option RoundState :=
  if nP = 0 then none else turnLoop nP sel fuel (dealtRound nP deck r)

/-- Comparator of the `std::sort` at line 241: `a.second < b.second`. -/
def scoreLess (a b : Nat × Nat) : Bool := decide (a.2 < b.2)

/-- Contract of `std::sort` with comparator `lt`: the result is a rearrangement of
the input in which no element is strictly less than an earlier one. The order of
equivalent elements is unspecified, so the sorting function is a parameter. -/
structure StdSort (α : Type) (lt : α → α → Bool) where
  run : List α → List α
  perm : ∀ l, (run l).Perm l
  sorted : ∀ l, (run l).Pairwise (fun a b => lt b a = false)

/-- Loop of lines 235-238: the pairs (i, scores[i]) for i below `nP`. -/
def scoreWithId (nP : Nat) (scores : List Nat) : List (Nat × Nat) :=
  (List.range nP).map (fun i => (i, scores.getD i 0))

/-- Function `MyGameMapper::compute_game_progress(uint64_t nP)`. -/
def compute_game_progress (srt : StdSort (Nat × Nat) scoreLess) (fuel nP : Nat)
    (deck : List Card) (r : Nat) (sel : Nat → Int) : Option (List (Nat × Nat)) :=
  (playRound fuel nP deck r sel).map (fun st => srt.run (scoreWithId nP st.scores))

/-- Number of loop iterations that is enough for a round with `nP` players and a
deck of `n` cards. -/
def roundFuel (nP n : Nat) : Nat := (n + 1) * (nP + 1)

/-- Total number of cards held in the hands. -/
def cardsHeld (st : RoundState) : Nat := (st.hands.map List.length).sum

/-- Invariant of the turn loop: the vectors have `nP` entries, the current player
is a valid index and each score is the size of the hand. -/
structure WF (nP : Nat) (st : RoundState) : Prop where
  pos : 0 < nP
  hands_len : st.hands.length = nP
  scores_eq : st.scores = st.hands.map List.length
  passed_len : st.passed.length = nP
  cur_lt : st.current_player < nP

/-- The last `c` turns were passes: every player `q` whose turn was one of the last
`c` ones has the pass flag set. -/
def Streak (nP : Nat) (st : RoundState) (c : Nat) : Prop :=
  ∀ q j, q < nP → j < c → (q + 1 + j) % nP = st.current_player → st.passed[q]? = some true

/-- A small round state with two players, used to instantiate the turn theorems:
player 0 is to move and holds the 8 of suit 2 and the ace of suit 0, player 1 holds
the 7 of suit 1, and the table is the opening table. -/
def exampleState : RoundState :=
  { table := read_game
    hands := [[⟨2, 8⟩, ⟨0, 1⟩], [⟨1, 7⟩]]
    scores := [2, 1]
    passed := [false, false]
    current_player := 0
    game_over := false
    turns := 0
    moves := 0 }

/-- A sorting function that meets the contract of `std::sort` for the comparator
`scoreLess` (insertion sort by remaining-card count). -/
def insertionStdSort : StdSort (Nat × Nat) scoreLess where
  run := List.insertionSort (fun a b => a.2 ≤ b.2)
  perm := fun l => List.perm_insertionSort _ l
  sorted := fun l => by
    haveI : IsTotal (Nat × Nat) (fun a b => a.2 ≤ b.2) := ⟨fun a b => Nat.le_total a.2 b.2⟩
    haveI : IsTrans (Nat × Nat) (fun a b => a.2 ≤ b.2) :=
      ⟨fun a b c hab hbc => Nat.le_trans hab hbc⟩
    have h := List.sorted_insertionSort (fun a b : Nat × Nat => a.2 ≤ b.2) l
    refine List.Pairwise.imp ?_ h
    intro a b hab
    simp only [scoreLess, decide_eq_false_iff_not, Nat.not_lt]
    exact hab

/-- Iteration number `i` of the loop started in `st0` is taken (the loop has not
exited before it) and is a pass: the returned index is not accepted. -/
def isPassTurn (nP : Nat) (sel : Nat → Int) (st0 : RoundState) (i : Nat) : Prop :=
  (stateAfter nP sel st0 i).game_over = false ∧
    accepted ((stateAfter nP sel st0 i).hands.getD (stateAfter nP sel st0 i).current_player [])
      (sel (stateAfter nP sel st0 i).turns) (stateAfter nP sel st0 i).table = false

/-! ## Table provider -/

/-- Member function `clear()` of a map: the result has no key, whatever the map
held. -/
def UMap.clear {V : Type} (_m : UMap V) : UMap V := UMap.empty

/-- Function `MyGameParser::read_game` as a function of the member `table_layout` of
the parser before the call: `table_layout.clear(); table_layout[2][7] = true;`. -/
def MyGameParser_read_game (table_layout : Table) : Table :=
  markPlayed (UMap.clear table_layout) 2 7

/-- Modelled from the spec: the accessor `get_table_layout` is declared in
`Generic_game_parser.hpp`, which is not among the sources; as its counterpart
`get_cards_hashmap` does for the cards, it returns the member `table_layout`. -/
def get_table_layout (table_layout : Table) : Table := table_layout

/-- Function `MyGameMapper::read_game` as a function of the member `table_layout` of
the mapper before the call: a parser `g` is default-constructed (empty table),
`g.read_game()` runs, and `table_layout = g.get_table_layout()` overwrites the
member. -/
def MyGameMapper_read_game (_table_layout : Table) : Table :=
  get_table_layout (MyGameParser_read_game UMap.empty)

/-! ## Tournament controller -/

/-- Local variables of `compute_multiple_rounds_to_score` during its `while` loop.
The totals are `uint64_t`: they are stored modulo `2 ^ 64` (see `creditEntry`). A win
count and the round number grow by one per round, so they stay below `2 ^ 64` in
every run and are modelled as `Nat`. -/
structure TournamentState where
  totalScores : List Nat
  winCounts : List Nat
  roundNumber : Nat
  gameOver : Bool
deriving DecidableEq

/-- Loop of lines 452-455: `bestScore` starts at the largest `uint64_t` and takes the
minimum with every score of the round. -/
def bestScoreOf (roundScores : List (Nat × Nat)) : Nat :=
  roundScores.foldl (fun bestScore e => min bestScore e.2) (2 ^ 64 - 1)

/-- Body of the loop of lines 460-469 for one entry `(id, score)`:
`totalScores[id] += score; if (score == bestScore) winCounts[id]++;`. The addition
is made on `uint64_t`: the total wraps around modulo `2 ^ 64`. -/
def creditEntry (bestScore : Nat) (acc : List Nat × List Nat) (e : Nat × Nat) :
    List Nat × List Nat :=
  (List.modify (fun t => (t + e.2) % 2 ^ 64) e.1 acc.1,
    if e.2 = bestScore then List.modify (fun w => w + 1) e.1 acc.2 else acc.2)

/-- Loop of lines 460-469 over the entries of the round result. -/
def creditRound (bestScore : Nat) (roundScores : List (Nat × Nat))
    (totalScores winCounts : List Nat) : List Nat × List Nat :=
  roundScores.foldl (creditEntry bestScore) (totalScores, winCounts)

/-- Loop of lines 472-477: some player below `numPlayers` has a total of at least
`maxScore`. -/
def thresholdReached (numPlayers maxScore : Nat) (totalScores : List Nat) : Bool :=
  (List.range numPlayers).any (fun i => decide (totalScores.getD i 0 ≥ maxScore))

/-- Body of the `while` loop of the tournament (lines 440-479) when the call of
`compute_game_progress` returned `roundScores`. -/
def roundStep (numPlayers maxScore : Nat) (roundScores : List (Nat × Nat))
    (st : TournamentState) : TournamentState :=
  let credited := creditRound (bestScoreOf roundScores) roundScores st.totalScores st.winCounts
  { totalScores := credited.1
    winCounts := credited.2
    roundNumber := st.roundNumber + 1
    gameOver := st.gameOver || thresholdReached numPlayers maxScore credited.1 }

/-- The `while (!gameOver)` loop of the tournament with a bound `fuel` on the number
of rounds; `rounds k` is the result of the call of `compute_game_progress` in round
number `k` (`none` if that call does not return). -/
def tournamentLoop (numPlayers maxScore : Nat) (rounds : Nat → Option (List (Nat × Nat))) :
    Nat → TournamentState → Option TournamentState
  | 0, st => if st.gameOver then some st else none
  | fuel + 1, st =>
    if st.gameOver then some st
    else
      match rounds st.roundNumber with
      | none => none
      | some roundScores =>
        tournamentLoop numPlayers maxScore rounds fuel
          (roundStep numPlayers maxScore roundScores st)

/-- State at the entry of the tournament loop (lines 433-437). -/
def initTournament (numPlayers : Nat) : TournamentState :=
  { totalScores := List.replicate numPlayers 0
    winCounts := List.replicate numPlayers 0
    roundNumber := 1
    gameOver := false }

/-- The tournament up to the exit of its loop. -/
def playTournament (fuel numPlayers maxScore : Nat)
    (rounds : Nat → Option (List (Nat × Nat))) : Option TournamentState :=
  tournamentLoop numPlayers maxScore rounds fuel (initTournament numPlayers)

/-- Local struct `PlayerStats` (lines 485-489). -/
structure PlayerStats where
  id : Nat
  score : Nat
  wins : Nat
deriving DecidableEq

/-- Loop of lines 491-494. -/
def playersOf (numPlayers : Nat) (totalScores winCounts : List Nat) : List PlayerStats :=
  (List.range numPlayers).map
    (fun i => { id := i, score := totalScores.getD i 0, wins := winCounts.getD i 0 })

/-- Comparator of the `std::sort` at line 497: lower score first, then higher win
count. -/
def statsLess (a b : PlayerStats) : Bool :=
  if a.score ≠ b.score then decide (a.score < b.score) else decide (a.wins > b.wins)

/-- Lines 507-513: the rank of `players[i]`. It is `i + 1`, except that a player
with the score and the win count of the previous one takes the rank of the previous
one; `prev` is `players[i - 1]` with the rank it received
(`finalResults.back().second`), and is `none` exactly when `i = 0`. -/
def nextRank (i : Nat) (prev : Option (PlayerStats × Nat)) (p : PlayerStats) : Nat :=
  match prev with
  | some (q, rankq) => if p.score = q.score ∧ p.wins = q.wins then rankq else i + 1
  | none => i + 1

/-- Loop of lines 506-526 from index `i` on, the players still to rank being the
third argument. -/
def rankLoop : Nat → Option (PlayerStats × Nat) → List PlayerStats → List (Nat × Nat)
  | _, _, [] => []
  | i, prev, p :: rest =>
    (p.id, nextRank i prev p) :: rankLoop (i + 1) (some (p, nextRank i prev p)) rest

/-- Comparator of the `std::sort` at line 529: `a.first < b.first`. -/
def idLess (a b : Nat × Nat) : Bool := decide (a.1 < b.1)

/-- Lines 484-532: the final ranking computed from the totals and the win counts. -/
def finalRanking (srtP : StdSort PlayerStats statsLess) (srtR : StdSort (Nat × Nat) idLess)
    (numPlayers : Nat) (totalScores winCounts : List Nat) : List (Nat × Nat) :=
  srtR.run (rankLoop 0 none (srtP.run (playersOf numPlayers totalScores winCounts)))

/-- Function `MyGameMapper::compute_multiple_rounds_to_score`. -/
def compute_multiple_rounds_to_score (srtP : StdSort PlayerStats statsLess)
    (srtR : StdSort (Nat × Nat) idLess) (fuel numPlayers maxScore : Nat)
    (rounds : Nat → Option (List (Nat × Nat))) : Option (List (Nat × Nat)) :=
  (playTournament fuel numPlayers maxScore rounds).map
    (fun st => finalRanking srtP srtR numPlayers st.totalScores st.winCounts)

/-- Sum of the round scores of player `p` over the rounds 1..k, where `sc j` is the
vector of the scores of round `j` indexed by player. -/
def cumulativeTotal (sc : Nat → List Nat) (p : Nat) : Nat → Nat
  | 0 => 0
  | k + 1 => cumulativeTotal sc p k + (sc (k + 1)).getD p 0

/-- Player `p` has a minimal score in the score vector `s` of a round. -/
def isRoundWinner (s : List Nat) (p : Nat) : Bool :=
  s.all (fun x => decide (s.getD p 0 ≤ x))

/-- Number of the rounds 1..k in which player `p` has a minimal score. -/
def roundWins (sc : Nat → List Nat) (p : Nat) : Nat → Nat
  | 0 => 0
  | k + 1 => roundWins sc p k + (if isRoundWinner (sc (k + 1)) p then 1 else 0)

/-- Some player below `numPlayers` has, after `k` rounds, a stored total (the
cumulative total modulo `2 ^ 64`) of at least `maxScore`. -/
def stopAt (numPlayers maxScore : Nat) (sc : Nat → List Nat) (k : Nat) : Bool :=
  (List.range numPlayers).any
    (fun p => decide (cumulativeTotal sc p k % 2 ^ 64 ≥ maxScore))

/-- Player `q` is strictly better than player `p`: lower total, or equal total and
more wins. -/
def strictlyBetter (totalScores winCounts : List Nat) (q p : Nat) : Bool :=
  decide (totalScores.getD q 0 < totalScores.getD p 0 ∨
    (totalScores.getD q 0 = totalScores.getD p 0 ∧ winCounts.getD q 0 > winCounts.getD p 0))

/-- Insertion sort for a comparator whose negation is total and transitive meets the
contract of `std::sort`. -/
def StdSort.insertion {α : Type} (lt : α → α → Bool)
    (total : ∀ a b, lt b a = false ∨ lt a b = false)
    (trans : ∀ a b c, lt b a = false → lt c b = false → lt c a = false) : StdSort α lt where
  run := List.insertionSort (fun a b => lt b a = false)
  perm := fun l => List.perm_insertionSort _ l
  sorted := fun l => by
    haveI : IsTotal α (fun a b => lt b a = false) := ⟨total⟩
    haveI : IsTrans α (fun a b => lt b a = false) := ⟨trans⟩
    exact List.sorted_insertionSort (fun a b => lt b a = false) l

/-- A sorting function for the players of the final ranking. -/
def insertionStatsSort : StdSort PlayerStats statsLess :=
  StdSort.insertion statsLess
    (fun a b => by
      simp only [statsLess]
      split <;> split <;> simp <;> omega)
    (fun a b c => by
      simp only [statsLess]
      split <;> split <;> split <;> simp <;> omega)

/-- A sorting function for the final re-ordering by player id. -/
def insertionIdSort : StdSort (Nat × Nat) idLess :=
  StdSort.insertion idLess
    (fun a b => by simp only [idLess, decide_eq_false_iff_not]; omega)
    (fun a b c => by simp only [idLess, decide_eq_false_iff_not]; omega)

/-- Invariant of the tournament loop after `k` rounds whose score vectors are
`sc 1`, ..., `sc k`: the vectors have `nP` entries, the round number is `k + 1`, every
total is the cumulative total modulo `2 ^ 64` and every win count the number of
rounds won. -/
structure TournamentInv (nP : Nat) (sc : Nat → List Nat) (k : Nat)
    (st : TournamentState) : Prop where
  totals_len : st.totalScores.length = nP
  wins_len : st.winCounts.length = nP
  round_eq : st.roundNumber = k + 1
  totals_eq : ∀ p, p < nP → st.totalScores.getD p 0 = cumulativeTotal sc p k % 2 ^ 64
  wins_eq : ∀ p, p < nP → st.winCounts.getD p 0 = roundWins sc p k

/-- The rounds 1..R return well-formed results: the result of round `k` is a
rearrangement of the pairs (player, score) of the score vector `sc k`, which has `nP`
entries that fit in a `uint64_t`. -/
def RoundsOk (nP : Nat) (rounds : Nat → Option (List (Nat × Nat))) (sc : Nat → List Nat)
    (R : Nat) : Prop :=
  ∀ k, 1 ≤ k → k ≤ R →
    ∃ res, rounds k = some res ∧ res.Perm (scoreWithId nP (sc k)) ∧
      (sc k).length = nP ∧ ∀ x, x ∈ sc k → x < 2 ^ 64

/-- Round scores of the scenario in which the same player, player 1, is left with 13
cards in every round. -/
def sameLoser : Nat → Option (List (Nat × Nat)) := fun _ => some [(0, 0), (1, 13)]

/-- Round scores of the scenario in which the players are left with 13 cards in
turn: player 0 in the odd rounds, player 1 in the even rounds. -/
def alternatingLoser : Nat → Option (List (Nat × Nat)) :=
  fun k => some (if k % 2 = 1 then [(1, 0), (0, 13)] else [(0, 0), (1, 13)])

/-- Score vectors of the scenario `sameLoser`. -/
def sameLoserScores : Nat → List Nat := fun _ => [0, 13]

/-- Score vectors of the scenario `alternatingLoser`. -/
def alternatingLoserScores : Nat → List Nat :=
  fun k => if k % 2 = 1 then [13, 0] else [0, 13]

/-- Score vectors of a scenario with scores that make a total wrap around: player 1
scores 1 in every round, player 0 scores `2 ^ 63` in every round except the third,
where the score is `2 ^ 63 + 1`. -/
def wrapScores : Nat → List Nat :=
  fun k => if k = 3 then [2 ^ 63 + 1, 1] else [2 ^ 63, 1]

/-- Round results of the scenario `wrapScores`. -/
def wrapRounds : Nat → Option (List (Nat × Nat)) :=
  fun k => some (if k = 3 then [(1, 1), (0, 2 ^ 63 + 1)] else [(1, 1), (0, 2 ^ 63)])

/-! ## Calls to the strategies -/

/-- A call made by the engine to the strategy registered under the key `recipient`
of the map `strategies`. -/
inductive Event
  /-- The call of `initialize(playerID)`. -/
  | init (recipient playerID : Nat)
  | selectCardToPlay (recipient : Nat)
  | observeMove (recipient playerID : Nat) (card : Card)
  | observePass (recipient playerID : Nat)
deriving DecidableEq

/-- Calls of the loop of lines 178-181 in closed form (`initLoop` is the loop): one
`initialize(i)` for every `i` below `nP` with `strategies.count(i)`, in increasing
order of `i`. The list `registered` holds the keys of `strategies` in the iteration
order of the map. -/
def initEvents (registered : List Nat) (nP : Nat) : List Event :=
  ((List.range nP).filter (fun i => decide (i ∈ registered))).map
    (fun i => Event.init i i)

/-- Loop of lines 177-181 on the dealt hands `hands`: for `i` below `nP`,
`if(strategies.count(i)) strategies[i]->initialize(i); scores[i] = hands[i].size();`
on the vector `scores(nP)`. The result is the vector `scores` and the calls made. -/
def initLoop (registered : List Nat) (hands : List (List Card)) (nP : Nat) :
    List Nat × List Event :=
  (List.range nP).foldl
    (fun acc i =>
      (acc.1.set i (hands.getD i []).length,
        if i ∈ registered then acc.2 ++ [Event.init i i] else acc.2))
    (List.replicate nP 0, [])

/-- Calls of one iteration of the turn loop (lines 191-223) when the strategy of the
current player returns `idx`: the call of `selectCardToPlay`, then either one
`observeMove` per entry of `strategies` or one `observePass` to the strategy of the
current player. When no strategy is registered under `current_player`,
`strategies[current_player]` at line 191 inserts a null pointer and line 193 calls
`selectCardToPlay` through it: the behaviour is undefined (`none`). -/
def turnEvents (registered : List Nat) (idx : Int) (st : RoundState) :
    Option (List Event) :=
  if st.current_player ∈ registered then
    some
      (Event.selectCardToPlay st.current_player ::
        (if accepted (st.hands.getD st.current_player []) idx st.table then
          match (st.hands.getD st.current_player [])[idx.toNat]? with
          | some played_card =>
            registered.map (fun id => Event.observeMove id st.current_player played_card)
          | none => []
        else [Event.observePass st.current_player st.current_player]))
  else none

/-- Calls made during the first `k` iterations of the turn loop started in `st`;
`none` when one of these iterations is undefined (no strategy for the current
player, or an access out of bounds). -/
def loopEvents (registered : List Nat) (nP : Nat) (sel : Nat → Int) :
    Nat → RoundState → Option (List Event)
  | 0, _ => some []
  | k + 1, st =>
    if st.game_over then some []
    else
      match turnEvents registered (sel st.turns) st with
      | none => none
      | some calls =>
        match turn nP (sel st.turns) st with
        | none => none
        | some st1 =>
          match loopEvents registered nP sel k st1 with
          | none => none
          | some rest => some (calls ++ rest)

/-- Calls made by `compute_game_progress` up to the end of the `k`-th iteration of
the turn loop: those of the initialisation loop, run on the dealt hands, and then
those of the turn loop; `none` when an iteration of the turn loop is undefined. -/
def roundEvents (registered : List Nat) (nP : Nat) (deck : List Card) (r : Nat)
    (sel : Nat → Int) (k : Nat) : Option (List Event) :=
  match loopEvents registered nP sel k (dealtRound nP deck r) with
  | none => none
  | some calls => some ((initLoop registered (dealtRound nP deck r).hands nP).2 ++ calls)

/-! ## Callbacks that throw -/

/-- Result of a piece of code that either returns a value or is left by an
exception thrown by the callback of the strategy registered under `recipient`. -/
inductive Outcome (α : Type)
  | returned (a : α)
  | threw (recipient : Nat)
deriving DecidableEq

/-- Loop of line 204 when callbacks may throw; `throws id` tells whether the call of
`observeMove` on the strategy registered under `id` throws. The loop has no handler:
the first exception ends it. The result lists the strategies called, in order, and
tells whether the loop was left by an exception. -/
def broadcastMove (throws : Nat → Bool) : List Nat → List Nat × Bool
  | [] => ([], false)
  | id :: rest =>
    if throws id then ([id], true)
    else (id :: (broadcastMove throws rest).1, (broadcastMove throws rest).2)

/-- Body of the turn loop when the observation callbacks may throw. No statement of
the body is inside a `try` block, so an exception leaves the body (and the function)
at the call that throws: on an accepted move the table has been marked, the later
strategies are not called and the hand, score and flag updates are skipped. Without
exception the body has the effect `resolve`. -/
def resolveObserved (nP : Nat) (registered : List Nat) (throws : Nat → Bool) (idx : Int)
    (st : RoundState) : Outcome RoundState :=
  if accepted (st.hands.getD st.current_player []) idx st.table then
    match registered.find? throws with
    | some id => Outcome.threw id
    | none => Outcome.returned (resolve nP idx st)
  else if throws st.current_player then Outcome.threw st.current_player
  else Outcome.returned (resolve nP idx st)

/-- The turn loop when the observation callbacks may throw; `throws k id` tells
whether the callback of the strategy registered under `id` throws in the iteration
with turn counter `k`. -/
def turnLoopObserved (nP : Nat) (registered : List Nat) (throws : Nat → Nat → Bool)
    (sel : Nat → Int) : Nat → RoundState → Option (Outcome RoundState)
  | 0, st => if st.game_over then some (Outcome.returned st) else none
  | fuel + 1, st =>
    if st.game_over then some (Outcome.returned st)
    else if inBounds nP st then
      match resolveObserved nP registered (throws st.turns) (sel st.turns) st with
      | Outcome.returned st1 => turnLoopObserved nP registered throws sel fuel st1
      | Outcome.threw id => some (Outcome.threw id)
    else none

/-- Function `compute_game_progress` when the observation callbacks may throw: an
exception raised in the turn loop leaves the function, which then returns no
ranking. -/
def compute_game_progress_observed (srt : StdSort (Nat × Nat) scoreLess) (fuel nP : Nat)
    (deck : List Card) (r : Nat) (sel : Nat → Int) (registered : List Nat)
    (throws : Nat → Nat → Bool) : Option (Outcome (List (Nat × Nat))) :=
  if nP = 0 then none
  else
    match turnLoopObserved nP registered throws sel fuel (dealtRound nP deck r) with
    | none => none
    | some (Outcome.returned st) =>
      some (Outcome.returned (srt.run (scoreWithId nP st.scores)))
    | some (Outcome.threw id) => some (Outcome.threw id)

/-! ## Loading a strategy from a shared library -/

/-- Answers of the dynamic loader of the platform. `dlopen path` is the handle of
the opened library, or the text returned by `dlerror()` when `dlopen` returns null.
`dlsym handle name` is the function found at the symbol, or the text returned by
`dlerror()` when it is not null after `dlsym`; the function returns the created
instance, `none` standing for a null pointer. `afterClose handle error` is what is
read at the pointer returned by `dlerror()` once `dlclose(handle)` has been called,
`error` being the text that was there before the call: `dlclose` releases the
buffer, so the text read is not specified and need not be `error`. -/
structure DynamicLoader (Handle Strategy : Type) where
  dlopen : String → Except String Handle
  dlsym : Handle → String → Except String (Unit → Option Strategy)
  afterClose : Handle → String → String

/-- Function `StrategyLoader::loadFromLibrary`: the result is the created strategy,
or the message of the `std::runtime_error` thrown. When `dlerror()` is not null after
`dlsym`, lines 24-27 keep the pointer `error`, call `dlclose(handle)` and only then
build the message from `std::string(error)`: the message holds the text found in
the released buffer, not the text of `dlerror()`. -/
def loadFromLibrary {Handle Strategy : Type} (dl : DynamicLoader Handle Strategy)
    (libraryPath : String) : Except String Strategy :=
  match dl.dlopen libraryPath with
  | Except.error err =>
    Except.error
      ("Impossible de charger la bibliothèque : " ++ libraryPath ++ "\nErreur : " ++ err)
  | Except.ok handle =>
    match dl.dlsym handle "createStrategy" with
    | Except.error error =>
      Except.error
        ("Erreur lors du chargement de createStrategy : " ++ dl.afterClose handle error)
    | Except.ok create =>
      match create () with
      | none =>
        Except.error ("Échec de la création de la stratégie depuis " ++ libraryPath)
      | some strategy => Except.ok strategy

/-- Function `MyGameMapper::registerStrategy`: `strategies[id] = std::move(s)`. -/
def registerStrategy {Strategy : Type} (strategies : UMap Strategy) (id : Nat)
    (s : Strategy) : UMap Strategy :=
  strategies.set id s

/-- Body of the loading loops of `main`: `auto strat = loadFromLibrary(path);` and
then `game.registerStrategy(i, strat);`. The exception of the loader leaves the body
before the registration; the result is the map `strategies` after the body and the
message of the exception if there was one. -/
def loadAndRegister {Handle Strategy : Type} (dl : DynamicLoader Handle Strategy)
    (strategies : UMap Strategy) (i : Nat) (path : String) :
    UMap Strategy × Option String :=
  match loadFromLibrary dl path with
  | Except.ok strat => (registerStrategy strategies i strat, none)
  | Except.error msg => (strategies, some msg)

/-- A loader for the witnesses: the library `good.so` opens and creates the
strategy 7, `null.so` opens and its factory returns null, `nosym.so` opens without
the symbol, and no other library can be opened. After `dlclose` the buffer of
`dlerror()` holds two bytes that are not the text of the error. -/
def exampleLoader : DynamicLoader Nat Nat where
  dlopen := fun path =>
    if path = "good.so" then Except.ok 1
    else if path = "null.so" then Except.ok 2
    else if path = "nosym.so" then Except.ok 3
    else Except.error "cannot open shared object file"
  dlsym := fun handle name =>
    if name = "createStrategy" ∧ handle = 1 then Except.ok (fun _ => some 7)
    else if name = "createStrategy" ∧ handle = 2 then Except.ok (fun _ => none)
    else Except.error "undefined symbol"
  afterClose := fun _ _ => "\x10@"

/-! ## Strategies

The four strategies of the repository. The value drawn from the generator of a
strategy is the argument `d`; `std::uniform_int_distribution<int>(0, n - 1)` maps it
to an index below `n`, which is modelled by the remainder `d % n`. A result `none`
stands for a call that does not return a value (an access out of range, an
exception, a loop without enough fuel). -/

/-- Test `T.count(s) == 0 || T.at(s).count(7) == 0 || !T.at(s).at(7)` of the
strategies: the 7 of the suit with key `s` is not marked played. -/
def sevenNotOnTable (tableLayout : Table) (s : Nat) : Bool :=
  match tableLayout s with
  | none => true
  | some row =>
    match row 7 with
    | none => true
    | some b => !b

/-- Body of the loop of `RandomAgressiveStrategy::selectCardToPlay` (lines 31-69):
whether the index of `card` is pushed to `playable_indices`. The fields are
converted to `uint64_t`, and a 7 that is already on the table goes on to the test of
the adjacent cards. -/
def RandomAgressive_playable (card : Card) (tableLayout : Table) : Bool :=
  let suit := u64 card.suit
  let rank := u64 card.rank
  if rank = 7 ∧ sevenNotOnTable tableLayout suit = true then true
  else
    let has_lower := decide (rank > 1) && isOn tableLayout suit (rank - 1)
    let has_upper := decide (rank < 13) && isOn tableLayout suit (rank + 1)
    has_lower || has_upper

/-- Function `RandomAgressiveStrategy::selectCardToPlay`. -/
def RandomAgressive_selectCardToPlay (hand : List Card) (tableLayout : Table) (d : Nat) :
    Option Int :=
  let playable_indices : List Int :=
    (hand.enum.filter (fun p => RandomAgressive_playable p.2 tableLayout)).map
      (fun p => (p.1 : Int))
  if playable_indices.isEmpty then some (-1)
  else playable_indices[d % playable_indices.length]?

/-- Function `PrudentStrategy::countSuit`: the comparison `c.suit == suit` converts
the `int` field to `uint64_t`. -/
def Prudent_countSuit (hand : List Card) (suit : Nat) : Int :=
  ((hand.filter (fun c => decide (u64 c.suit = suit))).length : Int)

/-- Body of the loop of `PrudentStrategy::selectCardToPlay` (lines 42-77) for the
card `card`: the score with which its index is pushed to `scoredChoices`, or `none`
when it is not pushed. -/
def Prudent_score (hand : List Card) (tableLayout : Table) (card : Card) : Option Int :=
  let suit := u64 card.suit
  let rank := u64 card.rank
  let isSeven := decide (rank = 7)
  let sevenOnTable := isOn tableLayout suit 7
  if isSeven && !sevenOnTable then
    some (if Prudent_countSuit hand suit > 2 then 10 else -10)
  else
    let lower := decide (rank > 1) && isOn tableLayout suit (rank - 1)
    let upper := decide (rank < 13) && isOn tableLayout suit (rank + 1)
    if lower || upper then
      let score0 : Int := if rank = 1 ∨ rank = 13 ∨ rank = 2 ∨ rank = 12 then -5 else 2
      let score1 : Int := if lower && upper then score0 + 2 else score0
      some (score1 + Prudent_countSuit hand suit)
    else none

/-- Comparator of the `std::sort` of `PrudentStrategy`: `a.second > b.second`. -/
def Prudent_less (a b : Nat × Int) : Bool := decide (a.2 > b.2)

/-- Function `PrudentStrategy::selectCardToPlay`. -/
def Prudent_selectCardToPlay (srt : StdSort (Nat × Int) Prudent_less) (hand : List Card)
    (tableLayout : Table) : Option Int :=
  let scoredChoices : List (Nat × Int) :=
    hand.enum.filterMap
      (fun p => (Prudent_score hand tableLayout p.2).map (fun score => (p.1, score)))
  if scoredChoices.isEmpty then some (-1)
  else (srt.run scoredChoices).head?.map (fun best => (best.1 : Int))

/-- Lookup `row.count(r) > 0 && row.at(r)` in the map of one suit. -/
def rowHas (row : UMap Bool) (r : Nat) : Bool :=
  match row r with
  | none => false
  | some b => b

/-- Private function `CalculativeStrategy::isPlayable` (lines 159-183). -/
def Calculative_isPlayable (card : Card) (tableLayout : Table) : Bool :=
  if card.rank = 7 then sevenNotOnTable tableLayout (u64 card.suit)
  else
    let hasLower :=
      match tableLayout (u64 card.suit) with
      | some row => decide (card.rank > 1) && rowHas row (u64 (card.rank - 1))
      | none => false
    let hasUpper :=
      match tableLayout (u64 card.suit) with
      | some row => decide (card.rank < 13) && rowHas row (u64 (card.rank + 1))
      | none => false
    hasLower || hasUpper

/-- Comparator of the `std::sort` of the scored moves: `a.first > b.first`, where
`gt` is the comparison `>` of the scores. -/
def scoreGreater {S : Type} (gt : S → S → Bool) (a b : S × Nat) : Bool := gt a.1 b.1

/-- End of `selectCardToPlay` of `CalculativeStrategy` and of `Sentinel7`, after the
sort (lines 76-99): the leading moves whose score satisfies `score >= topScore * 0.8`,
written `near score topScore`, are collected up to the first that does not; with
more than one of them the result is drawn among them, otherwise it is the index of
the first move. -/
def pickTop {S : Type} (near : S → S → Bool) (d : Nat) (scoredMoves : List (S × Nat)) :
    Option Int :=
  match scoredMoves with
  | [] => none
  | top :: rest =>
    let topIndices : List Nat :=
      if (top :: rest).length > 1 then
        ((top :: rest).takeWhile (fun m => near m.1 top.1)).map (fun m => m.2)
      else []
    if topIndices.length > 1 then
      (topIndices[d % topIndices.length]?).map (fun idx => (idx : Int))
    else some (top.2 : Int)

/-- Function `CalculativeStrategy::selectCardToPlay`. The score of a card,
`calculateMoveScore(card, hand, tableLayout)`, is a `double` computed from the
card, the hand, the table and the tracking members by arithmetic and by traversals
of the hand; it is the parameter `calculateMoveScore`, of any type `S` with the
comparisons `gt` and `near`. -/
def Calculative_selectCardToPlay {S : Type} (gt near : S → S → Bool)
    (srt : StdSort (S × Nat) (scoreGreater gt)) (calculateMoveScore : Card → S)
    (hand : List Card) (tableLayout : Table) (d : Nat) : Option Int :=
  let playableCards := hand.enum.filter (fun p => Calculative_isPlayable p.2 tableLayout)
  if playableCards.isEmpty then some (-1)
  else
    pickTop near d (srt.run (playableCards.map (fun p => (calculateMoveScore p.2, p.1))))

/-- Function `Sentinel7::hasAdjacent` (lines 214-229). -/
def Sentinel7_hasAdjacent (card : Card) (tableLayout : Table) : Bool :=
  let hasLower :=
    match tableLayout (u64 card.suit) with
    | some row => decide (card.rank > 1) && rowHas row (u64 (card.rank - 1))
    | none => false
  let hasUpper :=
    match tableLayout (u64 card.suit) with
    | some row => decide (card.rank < 13) && rowHas row (u64 (card.rank + 1))
    | none => false
  hasLower || hasUpper

/-- Function `Sentinel7::isPlayable` (lines 232-244). -/
def Sentinel7_isPlayable (card : Card) (tableLayout : Table) : Bool :=
  if card.rank = 7 then sevenNotOnTable tableLayout (u64 card.suit)
  else Sentinel7_hasAdjacent card tableLayout

/-- The map `mySuitCounts` of `Sentinel7::selectCardToPlay` after the loop
`for (card : hand) mySuitCounts[card.suit]++`; the keys are `int`. -/
def Sentinel7_suitCounts (hand : List Card) : Int → Option Nat :=
  hand.foldl
    (fun counts card k => if k = card.suit then some ((counts card.suit).getD 0 + 1)
      else counts k)
    (fun _ => none)

/-- The `while (rank != maxRank)` loop of `Sentinel7::runLength`, with the current
`rank`, simulated table `layout` and `length`. -/
def Sentinel7_runLoop (suit direction maxRank : Int) (hand : List Card) :
    Nat → Int → Table → Nat → Option Nat
  | 0, _, _, _ => none
  | fuel + 1, rank, layout, length =>
    if rank = maxRank then some length
    else if hand.any (fun handCard =>
        decide (handCard.suit = suit ∧ handCard.rank = rank) &&
          Sentinel7_isPlayable handCard layout) then
      Sentinel7_runLoop suit direction maxRank hand fuel (rank + direction)
        (markPlayed layout (u64 suit) (u64 rank)) (length + 1)
    else some length

/-- Function `Sentinel7::runLength`. -/
def Sentinel7_runLength (fuel : Nat) (suit startRank direction : Int) (hand : List Card)
    (layout : Table) : Option Nat :=
  Sentinel7_runLoop suit direction (if direction > 0 then 14 else 0) hand fuel
    (startRank + direction) layout 0

/-- Function `Sentinel7::calculatePotentialRun`. -/
def Sentinel7_calculatePotentialRun (fuel : Nat) (card : Card) (hand : List Card)
    (tableLayout : Table) : Option Nat :=
  match Sentinel7_runLength fuel card.suit card.rank 1 hand
      (markPlayed tableLayout (u64 card.suit) (u64 card.rank)) with
  | none => none
  | some up =>
    match Sentinel7_runLength fuel card.suit card.rank (-1) hand
        (markPlayed tableLayout (u64 card.suit) (u64 card.rank)) with
    | none => none
    | some down => some (1 + up + down)

/-- Function `Sentinel7::calculateMoveScore`. The lookup `mySuitCounts.at(card.suit)`
throws when the key is absent, and `calculatePotentialRun` runs the loops of
`runLength`; the rest of the function is arithmetic on `double` and traversals of the
hand and of the tracking members, which is the parameter `combine` of the card, the
suit count and the potential run. -/
def Sentinel7_calculateMoveScore {S : Type} (combine : Card → Nat → Nat → S) (fuel : Nat)
    (card : Card) (hand : List Card) (tableLayout : Table)
    (mySuitCounts : Int → Option Nat) : Option S :=
  match mySuitCounts card.suit with
  | none => none
  | some suitCount =>
    match Sentinel7_calculatePotentialRun fuel card hand tableLayout with
    | none => none
    | some potentialRun => some (combine card suitCount potentialRun)

/-- Loop of lines 86-89 of `Sentinel7.cpp`: the scored moves of the playable cards,
`none` when a call of `calculateMoveScore` does not return. -/
def Sentinel7_scoreMoves {S : Type} (score : Card → Option S) :
    List (Nat × Card) → Option (List (S × Nat))
  | [] => some []
  | p :: rest =>
    match score p.2 with
    | none => none
    | some s =>
      match Sentinel7_scoreMoves score rest with
      | none => none
      | some moves => some ((s, p.1) :: moves)

/-- Function `Sentinel7::selectCardToPlay`. -/
def Sentinel7_selectCardToPlay {S : Type} (gt near : S → S → Bool)
    (srt : StdSort (S × Nat) (scoreGreater gt)) (combine : Card → Nat → Nat → S)
    (fuel : Nat) (hand : List Card) (tableLayout : Table) (d : Nat) : Option Int :=
  let mySuitCounts := Sentinel7_suitCounts hand
  let playableCards := hand.enum.filter (fun p => Sentinel7_isPlayable p.2 tableLayout)
  if playableCards.isEmpty then some (-1)
  else
    match Sentinel7_scoreMoves
        (fun card => Sentinel7_calculateMoveScore combine fuel card hand tableLayout
          mySuitCounts) playableCards with
    | none => none
    | some scoredMoves => pickTop near d (srt.run scoredMoves)

/-- Comparison `>` on integer scores, used to instantiate the strategies. -/
def intGreater (a b : Int) : Bool := decide (a > b)

/-- Test `score >= topScore * 0.8` on integer scores: `5 * score >= 4 * topScore`. -/
def intNear (score topScore : Int) : Bool := decide (5 * score ≥ 4 * topScore)

/-- A sorting function for the scored choices of `PrudentStrategy`. -/
def insertionPrudentSort : StdSort (Nat × Int) Prudent_less :=
  StdSort.insertion Prudent_less
    (fun a b => by simp only [Prudent_less, decide_eq_false_iff_not]; omega)
    (fun a b c => by simp only [Prudent_less, decide_eq_false_iff_not]; omega)

/-- A sorting function for scored moves with integer scores. -/
def insertionMoveSort : StdSort (Int × Nat) (scoreGreater intGreater) :=
  StdSort.insertion (scoreGreater intGreater)
    (fun a b => by simp only [scoreGreater, intGreater, decide_eq_false_iff_not]; omega)
    (fun a b c => by simp only [scoreGreater, intGreater, decide_eq_false_iff_not]; omega)

/-- A hand of valid cards and a table for the strategy witnesses: the 8 of suit 2
and the 7 of suit 1 are playable on the opening table, the ace of suit 0 is not. -/
def exampleHand : List Card := [⟨0, 1⟩, ⟨2, 8⟩, ⟨1, 7⟩]

/-! ## Wrapper with player names -/

/-- Loop of line 400 of `MyGameMapper.cpp`:
`for (auto& [id, rank] : results) named_results.emplace_back(names[id], rank)`; the
result is `none` when an index `id` is outside `names`. -/
def nameResults (names : List String) : List (Nat × Nat) → Option (List (String × Nat))
  | [] => some []
  | e :: rest =>
    match names[e.1]? with
    | none => none
    | some name =>
      match nameResults names rest with
      | none => none
      | some named_results => some ((name, e.2) :: named_results)

/-- Function `MyGameMapper::compute_game_progress(const std::vector<std::string>&)`
(lines 396-402): one round with `names.size()` players, then the names put in place
of the ids. -/
def compute_game_progress_names (srt : StdSort (Nat × Nat) scoreLess) (fuel : Nat)
    (names : List String) (deck : List Card) (r : Nat) (sel : Nat → Int) :
    Option (List (String × Nat)) :=
  match compute_game_progress srt fuel names.length deck r sel with
  | none => none
  | some results => nameResults names results

/-! ## Blocking-gap heuristic -/

/-- Function `CalculativeStrategy::wouldCreateBlockingGap` (lines 282-314). -/
def Calculative_wouldCreateBlockingGap (card : Card) (tableLayout : Table) : Bool :=
  if card.rank ≤ 5 then
    let hasRankPlus1 := isOn tableLayout (u64 card.suit) (u64 (card.rank + 1))
    let hasRankPlus2 :=
      decide (card.rank ≤ 11) && isOn tableLayout (u64 card.suit) (u64 (card.rank + 2))
    !hasRankPlus1 && hasRankPlus2
  else if card.rank ≥ 9 then
    let hasRankMinus1 := isOn tableLayout (u64 card.suit) (u64 (card.rank - 1))
    let hasRankMinus2 :=
      decide (card.rank ≥ 3) && isOn tableLayout (u64 card.suit) (u64 (card.rank - 2))
    !hasRankMinus1 && hasRankMinus2
  else false

/-- Function `Sentinel7::wouldCreateBlockingGap` (lines 455-487). -/
def Sentinel7_wouldCreateBlockingGap (card : Card) (tableLayout : Table) : Bool :=
  if card.rank ≤ 5 then
    let hasRankPlus1 := isOn tableLayout (u64 card.suit) (u64 (card.rank + 1))
    let hasRankPlus2 :=
      decide (card.rank ≤ 11) && isOn tableLayout (u64 card.suit) (u64 (card.rank + 2))
    !hasRankPlus1 && hasRankPlus2
  else if card.rank ≥ 9 then
    let hasRankMinus1 := isOn tableLayout (u64 card.suit) (u64 (card.rank - 1))
    let hasRankMinus2 :=
      decide (card.rank ≥ 3) && isOn tableLayout (u64 card.suit) (u64 (card.rank - 2))
    !hasRankMinus1 && hasRankMinus2
  else false

/-- Lines 226-233 of `CalculativeStrategy::calculateMoveScore` (lines 288-295 of
`Sentinel7.cpp`): the amount added to the score for blocking, where
`isSuitStrengthForOpponent` is the flag computed from the tracking members and
`createsGap` the result of `wouldCreateBlockingGap`. -/
def blockingBonus (isSuitStrengthForOpponent createsGap : Bool) : Nat :=
  if isSuitStrengthForOpponent then (if createsGap then 25 else 0) else 0

/-! ## Invariants of the table and of the hands -/

/-- For every suit key the ranks marked played on the table are none, or the ranks
of an interval `lo..hi` with `1 ≤ lo ≤ 7 ≤ hi ≤ 13`. -/
def ContiguousRuns (T : Table) : Prop :=
  ∀ s : Nat, (∀ r, isOn T s r = false) ∨
    ∃ lo hi : Nat, 1 ≤ lo ∧ lo ≤ 7 ∧ 7 ≤ hi ∧ hi ≤ 13 ∧
      ∀ r, isOn T s r = true ↔ lo ≤ r ∧ r ≤ hi

/-- Every card held in a hand of the state is a card of the standard deck. -/
def HandsStandard (st : RoundState) : Prop :=
  ∀ hand, hand ∈ st.hands → ∀ c, c ∈ hand → c ∈ standardDeck

/-- The cards of the hands are distinct cards of the standard deck, and a card of
the standard deck is held in a hand exactly when its pair is not marked played on
the table. -/
def CardPartition (st : RoundState) : Prop :=
  st.hands.flatten.Nodup ∧ HandsStandard st ∧
    ∀ c, c ∈ standardDeck →
      (c ∈ st.hands.flatten ↔ isOn st.table (u64 c.suit) (u64 c.rank) = false)

/-- While the round is not over no hand is empty. -/
def NoEmptyHand (st : RoundState) : Prop :=
  st.game_over = false → ∀ hand, hand ∈ st.hands → hand ≠ []

/-! ## Tournament over played rounds -/

/-- The calls of `compute_game_progress` made by the tournament: in round number
`k` the shuffled deck is `decks k`, the output of the generator is `rs k` and the
strategies answer `sels k`. -/
def roundsOf (srt : StdSort (Nat × Nat) scoreLess) (fuel nP : Nat)
    (decks : Nat → List Card) (rs : Nat → Nat) (sels : Nat → Nat → Int) :
    Nat → Option (List (Nat × Nat)) :=
  fun k => compute_game_progress srt fuel nP (decks k) (rs k) (sels k)

/-- The vector `scores` at the end of the round number `k` of the tournament. -/
def roundScoresOf (fuel nP : Nat) (decks : Nat → List Card) (rs : Nat → Nat)
    (sels : Nat → Nat → Int) : Nat → List Nat :=
  fun k =>
    match playRound fuel nP (decks k) (rs k) (sels k) with
    | some st => st.scores
    | none => []

/-- Answers of the strategies in a round in which the first player to move passes,
the other player plays the card at index 3 of its hand and every later turn is a
pass. -/
def evenSel : Nat → Int :=
  fun t => if t = 1 then 3 else -1

/-- Sum over the players of the cumulative totals after `k` rounds. -/
def totalSum (nP : Nat) (sc : Nat → List Nat) (k : Nat) : Nat :=
  ((List.range nP).map (fun p => cumulativeTotal sc p k)).sum

/-! ## Verbose round -/

/-- Array `SUIT_SYM` of `MyGameMapper.cpp`. -/
def SUIT_SYM : List String := ["♠", "♥", "♦", "♣"]

/-- Text of a rank in `printCard` and `printTable`: `A`, `J`, `Q`, `K` or
`std::to_string`. -/
def rankText (r : Int) : String :=
  if r = 1 then "A" else if r = 11 then "J" else if r = 12 then "Q"
  else if r = 13 then "K" else toString r

/-- Function `printCard`: the text sent to `std::cout`. The access `SUIT_SYM[c.suit]`
is outside the array for a suit that is not in 0..3, and the result is then `none`. -/
def printCard (c : Card) : Option String :=
  if c.suit < 0 then none
  else
    match SUIT_SYM[c.suit.toNat]? with
    | none => none
    | some sym => some (rankText c.rank ++ sym)

/-- Loop of `printHand` over the cards: each card followed by a blank. -/
def printCards : List Card → Option String
  | [] => some ""
  | c :: rest =>
    match printCard c with
    | none => none
    | some text =>
      match printCards rest with
      | none => none
      | some more => some (text ++ " " ++ more)

/-- Function `printHand`. -/
def printHand (h : List Card) (id : Nat) : Option String :=
  match printCards h with
  | none => none
  | some text => some ("Player " ++ toString id ++ " : " ++ text ++ "\n")

/-- Loop of `printAllHands` from player `p` on. -/
def printHandsFrom : Nat → List (List Card) → Option String
  | _, [] => some ""
  | p, h :: rest =>
    match printHand h p with
    | none => none
    | some text =>
      match printHandsFrom (p + 1) rest with
      | none => none
      | some more => some (text ++ more)

/-- Function `printAllHands`. -/
def printAllHands (H : List (List Card)) : Option String :=
  match printHandsFrom 0 H with
  | none => none
  | some text => some ("\n--- Players\x27 Hands ---\n" ++ text ++ "----------------------\n")

/-- Function `printTable`: for the suits 0..3 and the ranks 1..13 the rank text of a
marked pair, or a dot. -/
def printTable (T : Table) : String :=
  "\n----- TABLE -----\n" ++
    String.join ((List.range 4).map (fun s =>
      SUIT_SYM.getD s "" ++ " " ++
        String.join ((List.range 13).map (fun i =>
          if isOn T s (i + 1) then rankText ((i + 1 : Nat) : Int) ++ " " else ". ")) ++
        "\n")) ++
    "----------------\n"

/-- Body of the `while` loop of `compute_and_display_game` (lines 306-359) when the
strategy of the current player returned `idx`: the next state, the calls made to the
strategies and the text printed; `none` when a print is undefined or when no
strategy is registered under `current_player` (line 311 inserts a null pointer and
line 313 calls `selectCardToPlay` through it). -/
def displayTurn (nP : Nat) (registered : List Nat) (idx : Int) (st : RoundState) :
    Option (RoundState × List Event × String) :=
  match printAllHands st.hands with
  | none => none
  | some handsText =>
    let turnText :=
      "\n\nPlayer " ++ toString st.current_player ++ "\x27s turn\n" ++ handsText
    if st.current_player ∉ registered then none
    else if accepted (st.hands.getD st.current_player []) idx st.table then
      match (st.hands.getD st.current_player [])[idx.toNat]? with
      | none => none
      | some played_card =>
        match printCard played_card with
        | none => none
        | some cardText =>
          let table := markPlayed st.table (u64 played_card.suit) (u64 played_card.rank)
          let newHand := (st.hands.getD st.current_player []).eraseIdx idx.toNat
          let passed := st.passed.set st.current_player false
          some
            ({ table := table
               hands := st.hands.set st.current_player newHand
               scores := st.scores.set st.current_player newHand.length
               passed := passed
               current_player := (st.current_player + 1) % nP
               game_over := (st.game_over || newHand.isEmpty) || passed.all (fun b => b)
               turns := st.turns + 1
               moves := st.moves + 1 },
             Event.selectCardToPlay st.current_player ::
               registered.map
                 (fun id => Event.observeMove id st.current_player played_card),
             turnText ++ "\nPlayer " ++ toString st.current_player ++ " plays " ++
               cardText ++ "\n" ++ printTable table ++
               (if newHand.isEmpty then
                 "\n\nPlayer " ++ toString st.current_player ++
                   " has emptied their hand! Game over.\n"
                else "") ++
               (if passed.all (fun b => b) then "\n\nAll players have passed! Game over.\n"
                else ""))
    else
      let passed := st.passed.set st.current_player true
      some
        ({ st with
           passed := passed
           current_player := (st.current_player + 1) % nP
           game_over := st.game_over || passed.all (fun b => b)
           turns := st.turns + 1 },
         [Event.selectCardToPlay st.current_player,
          Event.observePass st.current_player st.current_player],
         turnText ++
           (if passed.all (fun b => b) then "\n\nAll players have passed! Game over.\n"
            else ""))

/-- The `while (!game_over)` loop of `compute_and_display_game` with `fuel`
iterations at most, from the state `acc.1` with the calls `acc.2.1` and the text
`acc.2.2` so far. -/
def displayLoop (nP : Nat) (registered : List Nat) (sel : Nat → Int) :
    Nat → RoundState × List Event × String → Option (RoundState × List Event × String)
  | 0, acc => if acc.1.game_over then some acc else none
  | fuel + 1, acc =>
    if acc.1.game_over then some acc
    else if inBounds nP acc.1 then
      match displayTurn nP registered (sel acc.1.turns) acc.1 with
      | none => none
      | some step =>
        displayLoop nP registered sel fuel
          (step.1, acc.2.1 ++ step.2.1, acc.2.2 ++ step.2.2)
    else none

/-- Lines 376-379: the lines of the final scores. -/
def printScores (scoreWithId : List (Nat × Nat)) : String :=
  "\n--- Final Scores ---\n" ++
    String.join (scoreWithId.map (fun e =>
      "Player " ++ toString e.1 ++ " : " ++ toString e.2 ++ " cards remaining\n"))

/-- Function `MyGameMapper::compute_and_display_game(uint64_t nP)`: the ranking
returned, the calls made to the strategies and the text printed. Lines 260-294
(dealing, removal of the opening card, initialisation of the strategies and of the
scores) are those of `compute_game_progress`. -/
def compute_and_display_game (srt : StdSort (Nat × Nat) scoreLess) (fuel nP : Nat)
    (deck : List Card) (r : Nat) (sel : Nat → Int) (registered : List Nat) :
    Option (List (Nat × Nat) × List Event × String) :=
  if nP = 0 then none
  else
    match printAllHands (dealtRound nP deck r).hands with
    | none => none
    | some handsText =>
      match displayLoop nP registered sel fuel
          (dealtRound nP deck r, (initLoop registered (dealtRound nP deck r).hands nP).2,
            "\n7♦ is on the table at the start of the game.\n" ++ handsText ++
              printTable (dealtRound nP deck r).table) with
      | none => none
      | some final =>
        some (srt.run (scoreWithId nP final.1.scores), final.2.1,
          final.2.2 ++ printScores (srt.run (scoreWithId nP final.1.scores)))

/-! ## Basic facts on the table -/

theorem u64_ofNat (n : Nat) (h : n < 2 ^ 64) : u64 (n : Int) = n := by
  unfold u64
  have h1 : ((n : Int)) % 2 ^ 64 = (n : Int) := by
    apply Int.emod_eq_of_lt
    · exact Int.ofNat_nonneg n
    · exact_mod_cast h
  rw [h1]
  exact Int.toNat_natCast n

theorem isOn_markPlayed (T : Table) (s r a b : Nat) :
    isOn (markPlayed T s r) a b = (isOn T a b || (decide (a = s) && decide (b = r))) := by
  unfold isOn markPlayed UMap.set UMap.getD UMap.empty
  by_cases ha : a = s
  · subst ha
    by_cases hb : b = r
    · subst hb
      simp
    · cases hT : T a with
      | none => simp [hb]
      | some row => cases hr : row b <;> simp [hb, hr]
  · simp [ha]

theorem isOn_markPlayed_mono (T : Table) (s r a b : Nat) (h : isOn T a b = true) :
    isOn (markPlayed T s r) a b = true := by
  rw [isOn_markPlayed, h]
  rfl

theorem isPlayable_seven (T : Table) (c : Card) (h : c.rank = 7) :
    isPlayable c T = !isOn T (u64 c.suit) 7 := by
  unfold isPlayable isOn
  rw [if_pos h]
  cases T (u64 c.suit) with
  | none => rfl
  | some row =>
    cases hr : row 7 with
    | none => simp [hr]
    | some b => simp [hr]

theorem isPlayable_other (T : Table) (c : Card) (h : c.rank ≠ 7) :
    isPlayable c T =
      ((decide (c.rank > 1) && isOn T (u64 c.suit) (u64 (c.rank - 1))) ||
       (decide (c.rank < 13) && isOn T (u64 c.suit) (u64 (c.rank + 1)))) := by
  unfold isPlayable
  rw [if_neg h]

/-! ## Legality -/

/-- C1: a card of rank 7 is playable exactly when rank 7 of its suit is not marked
played on the table, that is when the suit key is absent, or the rank key is absent
in the row of the suit, or the stored flag is false. -/
theorem isPlayable_seven_iff (T : Table) (s : Int) :
    (isPlayable ⟨s, 7⟩ T = true ↔ isOn T (u64 s) 7 = false) ∧
    (isOn T (u64 s) 7 = false ↔
      (T (u64 s) = none ∨
        ∃ row, T (u64 s) = some row ∧ (row 7 = none ∨ row 7 = some false))) := by
  constructor
  · rw [isPlayable_seven T ⟨s, 7⟩ rfl]
    cases isOn T (u64 s) 7 <;> simp
  · unfold isOn
    cases hT : T (u64 s) with
    | none => simp
    | some row => cases hr : row 7 <;> simp [hr]

/-- C2: a card of rank `r` in 1..13 other than 7 is playable exactly when rank `r - 1`
(consulted only if `r > 1`) or rank `r + 1` (consulted only if `r < 13`) of its suit is
marked played; for rank 1 only rank 2 decides and for rank 13 only rank 12 decides. -/
theorem isPlayable_neighbour_iff (T : Table) (s : Int) (r : Nat)
    (h1 : 1 ≤ r) (h13 : r ≤ 13) (h7 : r ≠ 7) :
    (isPlayable ⟨s, (r : Int)⟩ T = true ↔
      ((1 < r ∧ isOn T (u64 s) (r - 1) = true) ∨
       (r < 13 ∧ isOn T (u64 s) (r + 1) = true))) ∧
    (r = 1 → (isPlayable ⟨s, (r : Int)⟩ T = true ↔ isOn T (u64 s) 2 = true)) ∧
    (r = 13 → (isPlayable ⟨s, (r : Int)⟩ T = true ↔ isOn T (u64 s) 12 = true)) := by
  have hne : ((r : Int)) ≠ 7 := by exact_mod_cast h7
  have hlo : u64 ((r : Int) - 1) = r - 1 := by
    have : ((r : Int) - 1) = ((r - 1 : Nat) : Int) := by omega
    rw [this]
    exact u64_ofNat _ (by omega)
  have hhi : u64 ((r : Int) + 1) = r + 1 := by
    have : ((r : Int) + 1) = ((r + 1 : Nat) : Int) := by omega
    rw [this]
    exact u64_ofNat _ (by omega)
  have key : isPlayable ⟨s, (r : Int)⟩ T = true ↔
      ((1 < r ∧ isOn T (u64 s) (r - 1) = true) ∨
       (r < 13 ∧ isOn T (u64 s) (r + 1) = true)) := by
    rw [isPlayable_other T ⟨s, (r : Int)⟩ hne]
    simp only [hlo, hhi, Bool.or_eq_true, Bool.and_eq_true, decide_eq_true_eq]
    constructor
    · rintro (⟨a, b⟩ | ⟨a, b⟩)
      · left
        exact ⟨by omega, b⟩
      · right
        exact ⟨by omega, b⟩
    · rintro (⟨a, b⟩ | ⟨a, b⟩)
      · left
        exact ⟨by omega, b⟩
      · right
        exact ⟨by omega, b⟩
  refine ⟨key, ?_, ?_⟩
  · intro hr
    subst hr
    rw [key]
    constructor
    · rintro (⟨a, _⟩ | ⟨_, b⟩)
      · omega
      · exact b
    · intro b
      right
      exact ⟨by omega, b⟩
  · intro hr
    subst hr
    rw [key]
    constructor
    · rintro (⟨_, b⟩ | ⟨a, _⟩)
      · exact b
      · omega
    · intro b
      left
      exact ⟨by omega, b⟩

/-- Witness of C2 on the opening table: the 8 of suit 2 next to the played 7. -/
theorem isPlayable_neighbour_iff_witness :
    (1 ≤ 8 ∧ 8 ≤ 13 ∧ 8 ≠ 7) ∧
    ((isPlayable ⟨2, ((8 : Nat) : Int)⟩ read_game = true ↔
      ((1 < 8 ∧ isOn read_game (u64 2) (8 - 1) = true) ∨
       (8 < 13 ∧ isOn read_game (u64 2) (8 + 1) = true))) ∧
    ((8 : Nat) = 1 → (isPlayable ⟨2, ((8 : Nat) : Int)⟩ read_game = true ↔
      isOn read_game (u64 2) 2 = true)) ∧
    ((8 : Nat) = 13 → (isPlayable ⟨2, ((8 : Nat) : Int)⟩ read_game = true ↔
      isOn read_game (u64 2) 12 = true))) :=
  ⟨⟨by decide, by decide, by decide⟩,
    isPlayable_neighbour_iff read_game 2 8 (by decide) (by decide) (by decide)⟩

/-- C3 as stated fails: the 7 of suit 0 is playable on the opening table, and is no
longer playable on the larger table where the 7 of suit 0 itself has been marked. -/
theorem isPlayable_not_monotone :
    (∀ s r, isOn read_game s r = true → isOn (markPlayed read_game 0 7) s r = true) ∧
    isPlayable ⟨0, 7⟩ read_game = true ∧
    isPlayable ⟨0, 7⟩ (markPlayed read_game 0 7) = false := by
  refine ⟨fun s r h => isOn_markPlayed_mono _ _ _ _ _ h, ?_, ?_⟩
  · rw [isPlayable_seven _ _ rfl]
    decide
  · rw [isPlayable_seven _ _ rfl]
    decide

/-- C3 amended: legality is monotone in the table for every card whose rank is not 7,
and for a card of rank 7 as long as the 7 of its suit is not marked in the larger
table. -/
theorem isPlayable_monotone (T T2 : Table) (c : Card)
    (hsub : ∀ s r, isOn T s r = true → isOn T2 s r = true)
    (hc : c.rank ≠ 7 ∨ isOn T2 (u64 c.suit) 7 = false)
    (h : isPlayable c T = true) : isPlayable c T2 = true := by
  by_cases h7 : c.rank = 7
  · rcases hc with hc | hc
    · exact absurd h7 hc
    · rw [isPlayable_seven T2 c h7, hc]
      rfl
  · rw [isPlayable_other T c h7] at h
    rw [isPlayable_other T2 c h7]
    simp only [Bool.or_eq_true, Bool.and_eq_true] at h ⊢
    rcases h with ⟨a, b⟩ | ⟨a, b⟩
    · exact Or.inl ⟨a, hsub _ _ b⟩
    · exact Or.inr ⟨a, hsub _ _ b⟩

/-- Witness of the amended C3: the 8 of suit 2 stays playable when the 7 of suit 0 is
added to the opening table. -/
theorem isPlayable_monotone_witness :
    (∀ s r, isOn read_game s r = true → isOn (markPlayed read_game 0 7) s r = true) ∧
    ((⟨2, 8⟩ : Card).rank ≠ 7 ∨
      isOn (markPlayed read_game 0 7) (u64 (⟨2, 8⟩ : Card).suit) 7 = false) ∧
    isPlayable ⟨2, 8⟩ read_game = true ∧
    isPlayable ⟨2, 8⟩ (markPlayed read_game 0 7) = true :=
  ⟨fun s r h => isOn_markPlayed_mono _ _ _ _ _ h, Or.inl (by decide), by decide,
    isPlayable_monotone read_game (markPlayed read_game 0 7) ⟨2, 8⟩
      (fun s r h => isOn_markPlayed_mono _ _ _ _ _ h) (Or.inl (by decide)) (by decide)⟩

/-! ## One turn -/

theorem accepted_iff (hand : List Card) (idx : Int) (T : Table) :
    accepted hand idx T = true ↔
      0 ≤ idx ∧ idx.toNat < hand.length ∧
        ∃ c, hand[idx.toNat]? = some c ∧ isPlayable c T = true := by
  unfold accepted
  cases h : hand[idx.toNat]? with
  | none => simp
  | some c => simp [and_assoc]

theorem getD_of_getElem? {α : Type} (l : List α) (i : Nat) (d a : α)
    (h : l[i]? = some a) : l.getD i d = a := by
  simp [List.getD, h]

/-- Result of a turn in which the returned index is not accepted. -/
theorem resolve_pass (nP : Nat) (idx : Int) (st : RoundState)
    (h : accepted (st.hands.getD st.current_player []) idx st.table = false) :
    resolve nP idx st =
      { st with
        passed := st.passed.set st.current_player true
        current_player := (st.current_player + 1) % nP
        game_over := st.game_over || (st.passed.set st.current_player true).all (fun b => b)
        turns := st.turns + 1 } := by
  unfold resolve
  simp only [h]
  rfl

/-- Result of a turn in which the returned index is accepted. -/
theorem resolve_accept (nP : Nat) (idx : Int) (st : RoundState) (c : Card)
    (h : accepted (st.hands.getD st.current_player []) idx st.table = true)
    (hc : (st.hands.getD st.current_player [])[idx.toNat]? = some c) :
    resolve nP idx st =
      { table := markPlayed st.table (u64 c.suit) (u64 c.rank)
        hands := st.hands.set st.current_player
          ((st.hands.getD st.current_player []).eraseIdx idx.toNat)
        scores := st.scores.set st.current_player
          ((st.hands.getD st.current_player []).eraseIdx idx.toNat).length
        passed := st.passed.set st.current_player false
        current_player := (st.current_player + 1) % nP
        game_over := (st.game_over ||
            ((st.hands.getD st.current_player []).eraseIdx idx.toNat).isEmpty) ||
          (st.passed.set st.current_player false).all (fun b => b)
        turns := st.turns + 1
        moves := st.moves + 1 } := by
  unfold resolve
  simp only [h, hc]
  rfl

theorem turn_of_inBounds (nP : Nat) (idx : Int) (st : RoundState)
    (h : inBounds nP st = true) : turn nP idx st = some (resolve nP idx st) := by
  unfold turn
  rw [if_pos h]

theorem inBounds_iff (nP : Nat) (st : RoundState) :
    inBounds nP st = true ↔
      0 < nP ∧ st.current_player < st.hands.length ∧
        st.current_player < st.scores.length ∧ st.current_player < st.passed.length := by
  unfold inBounds
  simp [and_assoc]

theorem WF.inBounds {nP : Nat} {st : RoundState} (h : WF nP st) : inBounds nP st = true := by
  rw [inBounds_iff]
  refine ⟨h.pos, ?_, ?_, ?_⟩
  · rw [h.hands_len]
    exact h.cur_lt
  · rw [h.scores_eq, List.length_map, h.hands_len]
    exact h.cur_lt
  · rw [h.passed_len]
    exact h.cur_lt

theorem not_accepted_of_bad (hand : List Card) (idx : Int) (T : Table)
    (hbad : idx < 0 ∨ (hand.length : Int) ≤ idx ∨
      ∃ c, hand[idx.toNat]? = some c ∧ isPlayable c T = false) :
    accepted hand idx T = false := by
  cases hacc : accepted hand idx T with
  | false => rfl
  | true =>
    exfalso
    rw [accepted_iff] at hacc
    obtain ⟨h0, hlt, c, hc, hp⟩ := hacc
    rcases hbad with hb | hb | ⟨d, hd, hq⟩
    · omega
    · omega
    · rw [hc] at hd
      cases hd
      rw [hp] at hq
      cases hq

/-- C4: when the returned index is negative, is at least the size of the hand of the
current player, or designates a card that is not playable, the turn does not fail and
its result is the result of a pass (the same state as for the returned value -1): the
table, all hands and all scores are unchanged, the pass flag of the player is set, and
the turn advances to the next player. -/
theorem illegal_move_is_pass (nP : Nat) (idx : Int) (st : RoundState) (hand : List Card)
    (hb : inBounds nP st = true)
    (hh : st.hands[st.current_player]? = some hand)
    (hbad : idx < 0 ∨ (hand.length : Int) ≤ idx ∨
      ∃ c, hand[idx.toNat]? = some c ∧ isPlayable c st.table = false) :
    ∃ st1, turn nP idx st = some st1 ∧ turn nP (-1) st = some st1 ∧
      st1.table = st.table ∧ st1.hands = st.hands ∧ st1.scores = st.scores ∧
      st1.passed = st.passed.set st.current_player true ∧
      st1.passed[st.current_player]? = some true ∧
      st1.current_player = (st.current_player + 1) % nP ∧
      st1.turns = st.turns + 1 ∧ st1.moves = st.moves := by
  have hg : st.hands.getD st.current_player [] = hand := getD_of_getElem? _ _ _ _ hh
  have h1 : accepted (st.hands.getD st.current_player []) idx st.table = false := by
    rw [hg]
    exact not_accepted_of_bad hand idx st.table hbad
  have h2 : accepted (st.hands.getD st.current_player []) (-1) st.table = false :=
    not_accepted_of_bad _ _ _ (Or.inl (by decide))
  have hp : st.current_player < st.passed.length := ((inBounds_iff nP st).1 hb).2.2.2
  refine ⟨resolve nP idx st, turn_of_inBounds nP idx st hb, ?_, ?_⟩
  · rw [turn_of_inBounds nP (-1) st hb, resolve_pass nP idx st h1, resolve_pass nP (-1) st h2]
  · rw [resolve_pass nP idx st h1]
    refine ⟨rfl, rfl, rfl, rfl, ?_, rfl, rfl, rfl⟩
    simp [List.getElem?_set, hp]

/-- Witness of C4: in the example state, index 1 designates the ace of suit 0, which
is not playable on the opening table. -/
theorem illegal_move_is_pass_witness :
    (inBounds 2 exampleState = true ∧
      exampleState.hands[exampleState.current_player]? = some [⟨2, 8⟩, ⟨0, 1⟩] ∧
      ∃ c, ([⟨2, 8⟩, ⟨0, 1⟩] : List Card)[(1 : Int).toNat]? = some c ∧
        isPlayable c exampleState.table = false) ∧
    ∃ st1, turn 2 1 exampleState = some st1 ∧ turn 2 (-1) exampleState = some st1 ∧
      st1.table = exampleState.table ∧ st1.hands = exampleState.hands ∧
      st1.scores = exampleState.scores ∧
      st1.passed = exampleState.passed.set exampleState.current_player true ∧
      st1.passed[exampleState.current_player]? = some true ∧
      st1.current_player = (exampleState.current_player + 1) % 2 ∧
      st1.turns = exampleState.turns + 1 ∧ st1.moves = exampleState.moves :=
  ⟨⟨by decide, rfl, ⟨0, 1⟩, rfl, by decide⟩,
    illegal_move_is_pass 2 1 exampleState [⟨2, 8⟩, ⟨0, 1⟩] (by decide) rfl
      (Or.inr (Or.inr ⟨⟨0, 1⟩, rfl, by decide⟩))⟩

/-- C5: when the current player `p` returns an index `idx` within the hand whose card
`c` is playable, the turn succeeds; the new table is the old one with the pair of `c`
marked (every other pair as before), the hand of `p` is the old hand without position
`idx`, the score of `p` is the size of that new hand, the pass flag of `p` is false,
and the hand, score and pass flag of every other player are unchanged. -/
theorem accepted_move_effect (nP : Nat) (idx : Int) (st : RoundState) (hand : List Card)
    (c : Card)
    (hb : inBounds nP st = true)
    (hh : st.hands[st.current_player]? = some hand)
    (h0 : 0 ≤ idx) (hlt : idx < (hand.length : Int))
    (hc : hand[idx.toNat]? = some c)
    (hplay : isPlayable c st.table = true) :
    ∃ st1, turn nP idx st = some st1 ∧
      st1.table = markPlayed st.table (u64 c.suit) (u64 c.rank) ∧
      (∀ s r, isOn st1.table s r =
        (isOn st.table s r || (decide (s = u64 c.suit) && decide (r = u64 c.rank)))) ∧
      st1.hands[st.current_player]? = some (hand.eraseIdx idx.toNat) ∧
      (hand.eraseIdx idx.toNat).length + 1 = hand.length ∧
      st1.scores[st.current_player]? = some (hand.eraseIdx idx.toNat).length ∧
      st1.passed[st.current_player]? = some false ∧
      (∀ q, q ≠ st.current_player →
        st1.hands[q]? = st.hands[q]? ∧ st1.scores[q]? = st.scores[q]? ∧
        st1.passed[q]? = st.passed[q]?) ∧
      st1.hands.length = st.hands.length ∧ st1.scores.length = st.scores.length ∧
      st1.passed.length = st.passed.length ∧ st1.moves = st.moves + 1 := by
  have hg : st.hands.getD st.current_player [] = hand := getD_of_getElem? _ _ _ _ hh
  have hlt2 : idx.toNat < hand.length := by omega
  have hacc : accepted (st.hands.getD st.current_player []) idx st.table = true := by
    rw [hg, accepted_iff]
    exact ⟨h0, hlt2, c, hc, hplay⟩
  obtain ⟨_, hph, hps, hpp⟩ := (inBounds_iff nP st).1 hb
  refine ⟨resolve nP idx st, turn_of_inBounds nP idx st hb, ?_⟩
  rw [resolve_accept nP idx st c hacc (by rw [hg]; exact hc), hg]
  refine ⟨rfl, fun s r => isOn_markPlayed _ _ _ _ _, ?_, ?_, ?_, ?_, ?_, ?_, ?_, ?_, rfl⟩
  · simp [List.getElem?_set, hph]
  · rw [List.length_eraseIdx, if_pos hlt2]
    omega
  · simp [List.getElem?_set, hps]
  · simp [List.getElem?_set, hpp]
  · intro q hq
    have hq2 : ¬ st.current_player = q := fun h => hq h.symm
    simp [List.getElem?_set, hq2]
  · simp
  · simp
  · simp

/-- Witness of C5: in the example state, index 0 designates the 8 of suit 2, playable
next to the 7 of suit 2. -/
theorem accepted_move_effect_witness :
    (inBounds 2 exampleState = true ∧
      exampleState.hands[exampleState.current_player]? = some [⟨2, 8⟩, ⟨0, 1⟩] ∧
      (0 : Int) ≤ 0 ∧ (0 : Int) < (([⟨2, 8⟩, ⟨0, 1⟩] : List Card).length : Int) ∧
      ([⟨2, 8⟩, ⟨0, 1⟩] : List Card)[(0 : Int).toNat]? = some ⟨2, 8⟩ ∧
      isPlayable ⟨2, 8⟩ exampleState.table = true) ∧
    ∃ st1, turn 2 0 exampleState = some st1 ∧
      st1.table = markPlayed exampleState.table (u64 2) (u64 8) ∧
      (∀ s r, isOn st1.table s r =
        (isOn exampleState.table s r || (decide (s = u64 2) && decide (r = u64 8)))) ∧
      st1.hands[exampleState.current_player]? =
        some (([⟨2, 8⟩, ⟨0, 1⟩] : List Card).eraseIdx (0 : Int).toNat) ∧
      (([⟨2, 8⟩, ⟨0, 1⟩] : List Card).eraseIdx (0 : Int).toNat).length + 1 =
        ([⟨2, 8⟩, ⟨0, 1⟩] : List Card).length ∧
      st1.scores[exampleState.current_player]? =
        some (([⟨2, 8⟩, ⟨0, 1⟩] : List Card).eraseIdx (0 : Int).toNat).length ∧
      st1.passed[exampleState.current_player]? = some false ∧
      (∀ q, q ≠ exampleState.current_player →
        st1.hands[q]? = exampleState.hands[q]? ∧ st1.scores[q]? = exampleState.scores[q]? ∧
        st1.passed[q]? = exampleState.passed[q]?) ∧
      st1.hands.length = exampleState.hands.length ∧
      st1.scores.length = exampleState.scores.length ∧
      st1.passed.length = exampleState.passed.length ∧
      st1.moves = exampleState.moves + 1 :=
  ⟨⟨by decide, rfl, by decide, by decide, rfl, by decide⟩,
    accepted_move_effect 2 0 exampleState [⟨2, 8⟩, ⟨0, 1⟩] ⟨2, 8⟩ (by decide) rfl
      (by decide) (by decide) rfl (by decide)⟩

theorem turn_table_mono (nP : Nat) (idx : Int) (st st1 : RoundState)
    (h : turn nP idx st = some st1) (s r : Nat) (hon : isOn st.table s r = true) :
    isOn st1.table s r = true := by
  unfold turn at h
  split at h
  · cases h
    cases hacc : accepted (st.hands.getD st.current_player []) idx st.table with
    | false =>
      rw [resolve_pass nP idx st hacc]
      exact hon
    | true =>
      obtain ⟨_, _, c, hc, _⟩ := (accepted_iff _ _ _).1 hacc
      rw [resolve_accept nP idx st c hacc hc]
      exact isOn_markPlayed_mono _ _ _ _ _ hon
  · cases h

theorem runTurns_table_mono (nP : Nat) (idxs : List Int) (st st1 : RoundState)
    (h : runTurns nP idxs st = some st1) (s r : Nat) (hon : isOn st.table s r = true) :
    isOn st1.table s r = true := by
  induction idxs generalizing st with
  | nil =>
    simp only [runTurns, Option.some.injEq] at h
    rw [← h]
    exact hon
  | cons idx rest ih =>
    simp only [runTurns] at h
    cases ht : turn nP idx st with
    | none =>
      rw [ht] at h
      cases h
    | some st2 =>
      rw [ht] at h
      exact ih st2 h (turn_table_mono nP idx st st2 ht s r hon)

theorem stateAfter_table_step (nP : Nat) (sel : Nat → Int) (st0 : RoundState) (k : Nat)
    (s r : Nat) (hon : isOn (stateAfter nP sel st0 k).table s r = true) :
    isOn (stateAfter nP sel st0 (k + 1)).table s r = true := by
  simp only [stateAfter]
  split
  · exact hon
  · cases ht : turn nP (sel (stateAfter nP sel st0 k).turns) (stateAfter nP sel st0 k) with
    | none => exact hon
    | some st2 => exact turn_table_mono nP _ _ st2 ht s r hon

/-- C6: the table is append-only. A pair marked played before a turn (accepted play
or pass) is still marked after it; the same holds along any sequence of turns
whatever the returned indices; and in the turn loop of a round a pair marked after
`k` iterations is marked after every later number `m` of iterations. -/
theorem table_append_only (nP : Nat) :
    (∀ idx st st1, turn nP idx st = some st1 →
      ∀ s r, isOn st.table s r = true → isOn st1.table s r = true) ∧
    (∀ idxs st st1, runTurns nP idxs st = some st1 →
      ∀ s r, isOn st.table s r = true → isOn st1.table s r = true) ∧
    (∀ sel st0 k m, k ≤ m →
      ∀ s r, isOn (stateAfter nP sel st0 k).table s r = true →
        isOn (stateAfter nP sel st0 m).table s r = true) := by
  refine ⟨?_, ?_, ?_⟩
  · intro idx st st1 h s r hon
    exact turn_table_mono nP idx st st1 h s r hon
  · intro idxs st st1 h s r hon
    exact runTurns_table_mono nP idxs st st1 h s r hon
  · intro sel st0 k m hkm s r hon
    obtain ⟨d, rfl⟩ : ∃ d, m = k + d := ⟨m - k, by omega⟩
    induction d with
    | zero => exact hon
    | succ d ih =>
      rw [← Nat.add_assoc]
      exact stateAfter_table_step nP sel st0 (k + d) s r (ih (by omega))

/-- Witness of C6: in the example state, an accepted move followed by a pass keeps
the 7 of suit 2 on the table. -/
theorem table_append_only_witness :
    (runTurns 2 [0, -1] exampleState = some (resolve 2 (-1) (resolve 2 0 exampleState)) ∧
      isOn exampleState.table 2 7 = true) ∧
    isOn (resolve 2 (-1) (resolve 2 0 exampleState)).table 2 7 = true :=
  ⟨⟨rfl, by decide⟩,
    (table_append_only 2).2.1 [0, -1] exampleState
      (resolve 2 (-1) (resolve 2 0 exampleState)) rfl 2 7 (by decide)⟩

/-! ## Invariants of the turn loop -/

theorem sum_set_add (L : List Nat) (p a b : Nat) (h : L[p]? = some b) :
    (L.set p a).sum + b = L.sum + a := by
  induction L generalizing p with
  | nil => simp at h
  | cons x xs ih =>
    cases p with
    | zero =>
      simp only [List.getElem?_cons_zero, Option.some.injEq] at h
      subst h
      simp only [List.set_cons_zero, List.sum_cons]
      omega
    | succ n =>
      simp only [List.getElem?_cons_succ] at h
      have := ih n h
      simp only [List.set_cons_succ, List.sum_cons]
      omega

theorem hand_of_WF {nP : Nat} {st : RoundState} (h : WF nP st) :
    st.hands[st.current_player]? = some (st.hands.getD st.current_player []) := by
  have hlt : st.current_player < st.hands.length := by
    rw [h.hands_len]
    exact h.cur_lt
  simp [List.getD, List.getElem?_eq_getElem hlt]

theorem resolve_WF (nP : Nat) (idx : Int) (st : RoundState) (h : WF nP st) :
    WF nP (resolve nP idx st) := by
  have hmod : (st.current_player + 1) % nP < nP := Nat.mod_lt _ h.pos
  cases hacc : accepted (st.hands.getD st.current_player []) idx st.table with
  | false =>
    rw [resolve_pass nP idx st hacc]
    exact ⟨h.pos, h.hands_len, h.scores_eq, by simp [h.passed_len], hmod⟩
  | true =>
    obtain ⟨_, _, c, hc, _⟩ := (accepted_iff _ _ _).1 hacc
    rw [resolve_accept nP idx st c hacc hc]
    refine ⟨h.pos, by simp [h.hands_len], ?_, by simp [h.passed_len], hmod⟩
    simp only [List.map_set, h.scores_eq]

theorem resolve_pass_cards (nP : Nat) (idx : Int) (st : RoundState)
    (hacc : accepted (st.hands.getD st.current_player []) idx st.table = false) :
    cardsHeld (resolve nP idx st) = cardsHeld st ∧
      (resolve nP idx st).moves = st.moves := by
  rw [resolve_pass nP idx st hacc]
  exact ⟨rfl, rfl⟩

theorem resolve_accept_cards (nP : Nat) (idx : Int) (st : RoundState) (h : WF nP st)
    (hacc : accepted (st.hands.getD st.current_player []) idx st.table = true) :
    cardsHeld (resolve nP idx st) + 1 = cardsHeld st ∧
      (resolve nP idx st).moves = st.moves + 1 := by
  obtain ⟨_, hlt, c, hc, _⟩ := (accepted_iff _ _ _).1 hacc
  rw [resolve_accept nP idx st c hacc hc]
  refine ⟨?_, rfl⟩
  unfold cardsHeld
  simp only [List.map_set]
  have hl : (st.hands.map List.length)[st.current_player]? =
      some (st.hands.getD st.current_player []).length := by
    rw [List.getElem?_map, hand_of_WF h]
    rfl
  have := sum_set_add (st.hands.map List.length) st.current_player
    ((st.hands.getD st.current_player []).eraseIdx idx.toNat).length _ hl
  rw [List.length_eraseIdx, if_pos hlt] at this ⊢
  omega

/-- Along a turn the number of cards held plus the number of accepted moves is
constant. -/
theorem resolve_conserves (nP : Nat) (idx : Int) (st : RoundState) (h : WF nP st) :
    cardsHeld (resolve nP idx st) + (resolve nP idx st).moves = cardsHeld st + st.moves := by
  cases hacc : accepted (st.hands.getD st.current_player []) idx st.table with
  | false =>
    obtain ⟨h1, h2⟩ := resolve_pass_cards nP idx st hacc
    rw [h1, h2]
  | true =>
    obtain ⟨h1, h2⟩ := resolve_accept_cards nP idx st h hacc
    rw [h2]
    omega

theorem stateAfter_succ (nP : Nat) (sel : Nat → Int) (st0 : RoundState) (k : Nat) :
    stateAfter nP sel st0 (k + 1) =
      if (stateAfter nP sel st0 k).game_over then stateAfter nP sel st0 k
      else
        match turn nP (sel (stateAfter nP sel st0 k).turns) (stateAfter nP sel st0 k) with
        | none => stateAfter nP sel st0 k
        | some st1 => st1 := rfl

theorem stateAfter_succ_of_WF (nP : Nat) (sel : Nat → Int) (st0 : RoundState) (k : Nat)
    (h : WF nP (stateAfter nP sel st0 k))
    (hgo : (stateAfter nP sel st0 k).game_over = false) :
    stateAfter nP sel st0 (k + 1) =
      resolve nP (sel (stateAfter nP sel st0 k).turns) (stateAfter nP sel st0 k) := by
  rw [stateAfter_succ, hgo, turn_of_inBounds _ _ _ h.inBounds]
  rfl

/-- Induction principle on the states of the loop: a property that holds at the
entry and is preserved by every turn taken from a well-formed state that is not over
holds after every number of iterations. -/
theorem stateAfter_induction (nP : Nat) (sel : Nat → Int) (st0 : RoundState)
    (P : RoundState → Prop) (h0 : WF nP st0) (p0 : P st0)
    (step : ∀ st idx, WF nP st → st.game_over = false → P st → P (resolve nP idx st))
    (k : Nat) : WF nP (stateAfter nP sel st0 k) ∧ P (stateAfter nP sel st0 k) := by
  induction k with
  | zero => exact ⟨h0, p0⟩
  | succ k ih =>
    cases hgo : (stateAfter nP sel st0 k).game_over with
    | true =>
      rw [stateAfter_succ, hgo]
      exact ih
    | false =>
      rw [stateAfter_succ_of_WF nP sel st0 k ih.1 hgo]
      exact ⟨resolve_WF nP _ _ ih.1, step _ _ ih.1 hgo ih.2⟩

theorem stateAfter_WF (nP : Nat) (sel : Nat → Int) (st0 : RoundState) (h0 : WF nP st0)
    (k : Nat) : WF nP (stateAfter nP sel st0 k) :=
  (stateAfter_induction nP sel st0 (fun _ => True) h0 trivial (fun _ _ _ _ _ => trivial) k).1

theorem turnLoop_of_game_over (nP : Nat) (sel : Nat → Int) (fuel : Nat) (st : RoundState)
    (h : st.game_over = true) : turnLoop nP sel fuel st = some st := by
  cases fuel <;> simp [turnLoop, h]

theorem turnLoop_step (nP : Nat) (sel : Nat → Int) (fuel : Nat) (st : RoundState)
    (hwf : WF nP st) (h : st.game_over = false) :
    turnLoop nP sel (fuel + 1) st = turnLoop nP sel fuel (resolve nP (sel st.turns) st) := by
  simp [turnLoop, h, turn_of_inBounds _ _ _ hwf.inBounds]

/-- The loop with enough fuel returns the first state of the sequence of loop
states in which `game_over` is set. -/
theorem turnLoop_eq_stateAfter (nP : Nat) (sel : Nat → Int) (st0 : RoundState)
    (h0 : WF nP st0) (k : Nat) (hk : (stateAfter nP sel st0 k).game_over = true)
    (fuel : Nat) (hf : k ≤ fuel) :
    turnLoop nP sel fuel st0 = some (stateAfter nP sel st0 k) := by
  induction k generalizing st0 fuel with
  | zero => exact turnLoop_of_game_over nP sel fuel st0 hk
  | succ k ih =>
    cases hgo : st0.game_over with
    | true =>
      have hfix : ∀ j, stateAfter nP sel st0 j = st0 := by
        intro j
        induction j with
        | zero => rfl
        | succ j ihj => rw [stateAfter_succ, ihj, hgo]; rfl
      rw [hfix]
      exact turnLoop_of_game_over nP sel fuel st0 hgo
    | false =>
      obtain ⟨f, rfl⟩ : ∃ f, fuel = f + 1 := ⟨fuel - 1, by omega⟩
      rw [turnLoop_step nP sel f st0 h0 hgo]
      have hshift : ∀ j, stateAfter nP sel st0 (j + 1) =
          stateAfter nP sel (resolve nP (sel st0.turns) st0) j := by
        intro j
        induction j with
        | zero =>
          have := stateAfter_succ_of_WF nP sel st0 0 h0 hgo
          exact this
        | succ j ihj =>
          rw [stateAfter_succ, ihj, stateAfter_succ]
      rw [hshift k] at hk ⊢
      exact ih _ (resolve_WF nP _ _ h0) hk f (by omega)

theorem stateAfter_shift (nP : Nat) (sel : Nat → Int) (st0 : RoundState)
    (h0 : WF nP st0) (hgo : st0.game_over = false) (j : Nat) :
    stateAfter nP sel st0 (j + 1) =
      stateAfter nP sel (resolve nP (sel st0.turns) st0) j := by
  induction j with
  | zero => exact stateAfter_succ_of_WF nP sel st0 0 h0 hgo
  | succ j ihj => rw [stateAfter_succ, ihj, stateAfter_succ]

theorem stateAfter_frozen (nP : Nat) (sel : Nat → Int) (st0 : RoundState) (k : Nat)
    (h : (stateAfter nP sel st0 k).game_over = true) (j : Nat) :
    stateAfter nP sel st0 (k + j) = stateAfter nP sel st0 k := by
  induction j with
  | zero => rfl
  | succ j ih =>
    rw [← Nat.add_assoc, stateAfter_succ, ih, h]
    rfl

/-! ## Consecutive passes -/

theorem Streak.zero (nP : Nat) (st : RoundState) : Streak nP st 0 := by
  intro q j _ hj
  omega

theorem Streak.mono {nP : Nat} {st : RoundState} {c d : Nat} (h : Streak nP st c)
    (hd : d ≤ c) : Streak nP st d :=
  fun q j hq hj he => h q j hq (by omega) he

/-- A passing turn extends the run of consecutive passes by one. -/
theorem Streak.pass {nP : Nat} {st : RoundState} {c : Nat} (idx : Int) (hwf : WF nP st)
    (h : Streak nP st c)
    (hacc : accepted (st.hands.getD st.current_player []) idx st.table = false) :
    Streak nP (resolve nP idx st) (c + 1) := by
  rw [resolve_pass nP idx st hacc]
  intro q j hq hj he
  have hp := hwf.cur_lt
  have hpl : st.current_player < st.passed.length := by
    rw [hwf.passed_len]
    exact hp
  show (st.passed.set st.current_player true)[q]? = some true
  by_cases hqp : q = st.current_player
  · subst hqp
    simp [List.getElem?_set, hpl]
  · have hne : ¬ st.current_player = q := fun e => hqp e.symm
    rw [List.getElem?_set, if_neg hne]
    have he2 : (q + 1 + j) % nP = (st.current_player + 1) % nP := he
    cases j with
    | zero =>
      exfalso
      have h1 : Nat.ModEq nP q st.current_player :=
        Nat.ModEq.add_right_cancel' 1 (by simpa [Nat.ModEq] using he2)
      unfold Nat.ModEq at h1
      rw [Nat.mod_eq_of_lt hq, Nat.mod_eq_of_lt hp] at h1
      exact hqp h1
    | succ j =>
      apply h q j hq (by omega)
      have h1 : Nat.ModEq nP (q + 1 + j) st.current_player :=
        Nat.ModEq.add_right_cancel' 1 (by simpa [Nat.ModEq, Nat.add_assoc] using he2)
      unfold Nat.ModEq at h1
      rw [Nat.mod_eq_of_lt hp] at h1
      exact h1

/-- A run of `nP` consecutive passes covers every player: all flags are set. -/
theorem Streak.all_passed {nP : Nat} {st : RoundState} (hwf : WF nP st)
    (h : Streak nP st nP) : ∀ q, q < nP → st.passed[q]? = some true := by
  intro q hq
  have hp := hwf.cur_lt
  by_cases hlt : q < st.current_player
  · apply h q (st.current_player - q - 1) hq (by omega)
    have : q + 1 + (st.current_player - q - 1) = st.current_player := by omega
    rw [this, Nat.mod_eq_of_lt hp]
  · apply h q (st.current_player + nP - q - 1) hq (by omega)
    have : q + 1 + (st.current_player + nP - q - 1) = st.current_player + nP := by omega
    rw [this, Nat.add_mod_right, Nat.mod_eq_of_lt hp]

theorem all_of_flags (l : List Bool) (h : ∀ q, q < l.length → l[q]? = some true) :
    l.all (fun b => b) = true := by
  rw [List.all_eq_true]
  intro x hx
  obtain ⟨i, hi, rfl⟩ := List.getElem_of_mem hx
  have := h i hi
  rw [List.getElem?_eq_getElem hi] at this
  exact Option.some.inj this

theorem flags_of_all (l : List Bool) (h : l.all (fun b => b) = true) :
    ∀ q, q < l.length → l[q]? = some true := by
  intro q hq
  rw [List.all_eq_true] at h
  rw [List.getElem?_eq_getElem hq]
  exact congrArg some (h _ (List.getElem_mem hq))

theorem resolve_game_over (nP : Nat) (idx : Int) (st : RoundState) :
    (resolve nP idx st).game_over =
      ((st.game_over ||
        (accepted (st.hands.getD st.current_player []) idx st.table &&
          ((st.hands.getD st.current_player []).eraseIdx idx.toNat).isEmpty)) ||
        (resolve nP idx st).passed.all (fun b => b)) := by
  cases hacc : accepted (st.hands.getD st.current_player []) idx st.table with
  | false =>
    rw [resolve_pass nP idx st hacc]
    simp
  | true =>
    obtain ⟨_, _, c, hc, _⟩ := (accepted_iff _ _ _).1 hacc
    rw [resolve_accept nP idx st c hacc hc]
    simp

/-- After a pass that completes a run of `nP` consecutive passes the round is over. -/
theorem Streak.pass_over {nP : Nat} {st : RoundState} {c : Nat} (idx : Int)
    (hwf : WF nP st) (h : Streak nP st c) (hc : nP ≤ c + 1)
    (hacc : accepted (st.hands.getD st.current_player []) idx st.table = false) :
    (resolve nP idx st).passed.all (fun b => b) = true ∧
      (resolve nP idx st).game_over = true := by
  have hwf1 := resolve_WF nP idx st hwf
  have hs : Streak nP (resolve nP idx st) nP := (Streak.pass idx hwf h hacc).mono hc
  have hall : (resolve nP idx st).passed.all (fun b => b) = true := by
    apply all_of_flags
    intro q hq
    rw [hwf1.passed_len] at hq
    exact Streak.all_passed hwf1 hs q hq
  refine ⟨hall, ?_⟩
  rw [resolve_game_over, hall]
  simp

/-! ## Termination of the turn loop -/

/-- From a well-formed state whose last `c` turns were passes, the loop reaches a
state with `game_over` set within `cardsHeld * (nP + 1) + (nP - c) + 1`
iterations. -/
theorem loop_reaches_over (nP : Nat) (sel : Nat → Int) (n : Nat) :
    ∀ (st : RoundState) (c : Nat), WF nP st → Streak nP st c →
      cardsHeld st * (nP + 1) + (nP - c) < n →
      ∃ k, k ≤ n ∧ (stateAfter nP sel st k).game_over = true := by
  induction n with
  | zero =>
    intro st c _ _ hm
    omega
  | succ n ih =>
    intro st c hwf hs hm
    cases hgo : st.game_over with
    | true => exact ⟨0, Nat.zero_le _, hgo⟩
    | false =>
      have hwf1 := resolve_WF nP (sel st.turns) st hwf
      cases hacc : accepted (st.hands.getD st.current_player []) (sel st.turns) st.table with
      | true =>
        obtain ⟨hcards, _⟩ := resolve_accept_cards nP (sel st.turns) st hwf hacc
        have hmul : cardsHeld st * (nP + 1) =
            cardsHeld (resolve nP (sel st.turns) st) * (nP + 1) + (nP + 1) := by
          rw [← hcards]
          ring
        obtain ⟨k, hk, hover⟩ := ih (resolve nP (sel st.turns) st) 0 hwf1
          (Streak.zero nP _) (by omega)
        refine ⟨k + 1, by omega, ?_⟩
        rw [stateAfter_shift nP sel st hwf hgo]
        exact hover
      | false =>
        by_cases hc : nP ≤ c + 1
        · refine ⟨1, by omega, ?_⟩
          rw [stateAfter_shift nP sel st hwf hgo]
          exact (Streak.pass_over (sel st.turns) hwf hs hc hacc).2
        · obtain ⟨hcards, _⟩ := resolve_pass_cards nP (sel st.turns) st hacc
          obtain ⟨k, hk, hover⟩ := ih (resolve nP (sel st.turns) st) (c + 1) hwf1
            (Streak.pass (sel st.turns) hwf hs hacc) (by rw [hcards]; omega)
          refine ⟨k + 1, by omega, ?_⟩
          rw [stateAfter_shift nP sel st hwf hgo]
          exact hover

/-! ## Dealing -/

theorem pushBack_length (hands : List (List Card)) (p : Nat) (c : Card) :
    (pushBack hands p c).length = hands.length := by
  unfold pushBack
  exact List.length_modify _ _ _

theorem pushBack_flatten (hands : List (List Card)) (p : Nat) (c : Card)
    (h : p < hands.length) : (pushBack hands p c).flatten.Perm (hands.flatten ++ [c]) := by
  unfold pushBack
  induction hands generalizing p with
  | nil => simp at h
  | cons x xs ih =>
    cases p with
    | zero =>
      simp only [List.modify_zero_cons, List.flatten_cons, List.append_assoc]
      exact List.Perm.append_left x List.perm_append_comm
    | succ n =>
      simp only [List.length_cons, Nat.add_lt_add_iff_right] at h
      simp only [List.modify_succ_cons, List.flatten_cons, List.append_assoc]
      exact List.Perm.append_left x (ih n h)

theorem dealPlayer_lt (nP : Nat) (start : Nat) (i : Nat) (h : 0 < nP) :
    dealPlayer nP start i < nP := Nat.mod_lt _ h

theorem dealLoop_spec (nP : Nat) (start : Nat) (h : 0 < nP) (rest : List Card) :
    ∀ (i : Nat) (hands : List (List Card)), hands.length = nP →
      (dealLoop nP start i rest hands).length = nP ∧
      (dealLoop nP start i rest hands).flatten.Perm (hands.flatten ++ rest) := by
  induction rest with
  | nil =>
    intro i hands hl
    simp [dealLoop, hl]
  | cons c rest ih =>
    intro i hands hl
    have hlt : dealPlayer nP start i < hands.length := by
      rw [hl]
      exact dealPlayer_lt nP start i h
    obtain ⟨h1, h2⟩ := ih (i + 1) (pushBack hands (dealPlayer nP start i) c)
      (by rw [pushBack_length, hl])
    refine ⟨h1, ?_⟩
    simp only [dealLoop]
    refine h2.trans ?_
    have := (pushBack_flatten hands (dealPlayer nP start i) c hlt).append_right rest
    simpa using this

/-- The dealt hands are `nP` lists that together hold exactly the cards of the
deck. -/
theorem deal_spec (nP : Nat) (start : Nat) (deck : List Card) (h : 0 < nP) :
    (deal nP start deck).length = nP ∧ (deal nP start deck).flatten.Perm deck := by
  have := dealLoop_spec nP start h deck 0 (List.replicate nP []) (by simp)
  refine ⟨this.1, ?_⟩
  have h0 : (List.replicate nP ([] : List Card)).flatten = [] := by
    induction nP with
    | zero => rfl
    | succ n _ => simp
  have h2 := this.2
  rw [h0] at h2
  simpa [deal] using h2

theorem removeOpening_length (hands : List (List Card)) :
    (removeOpening hands).length = hands.length := by
  induction hands with
  | nil => rfl
  | cons x xs ih =>
    simp only [removeOpening]
    split
    · rfl
    · simp [ih]

theorem removeOpening_sum_le (hands : List (List Card)) :
    ((removeOpening hands).map List.length).sum ≤ (hands.map List.length).sum := by
  induction hands with
  | nil => simp [removeOpening]
  | cons x xs ih =>
    simp only [removeOpening]
    split
    · simp only [List.map_cons, List.sum_cons]
      have := @List.length_eraseP_le _ isOpening x
      omega
    · simp only [List.map_cons, List.sum_cons]
      omega

/-- When some hand holds the opening card, exactly one card leaves the hands. -/
theorem removeOpening_sum (hands : List (List Card))
    (h : ∃ hand ∈ hands, ∃ c ∈ hand, isOpening c = true) :
    ((removeOpening hands).map List.length).sum + 1 = (hands.map List.length).sum := by
  induction hands with
  | nil =>
    obtain ⟨hand, hm, _⟩ := h
    cases hm
  | cons x xs ih =>
    simp only [removeOpening]
    by_cases hx : x.any isOpening = true
    · rw [if_pos hx]
      obtain ⟨c, hc, hp⟩ := List.any_eq_true.1 hx
      have hlen := List.length_eraseP_of_mem hc hp
      have hpos : 0 < x.length := List.length_pos_of_mem hc
      simp only [List.map_cons, List.sum_cons]
      omega
    · rw [if_neg hx]
      have hrest : ∃ hand ∈ xs, ∃ c ∈ hand, isOpening c = true := by
        obtain ⟨hand, hm, c, hc, hp⟩ := h
        rcases List.mem_cons.1 hm with he | hm2
        · subst he
          exact absurd (List.any_eq_true.2 ⟨c, hc, hp⟩) hx
        · exact ⟨hand, hm2, c, hc, hp⟩
      have := ih hrest
      simp only [List.map_cons, List.sum_cons]
      omega

theorem initRound_WF (nP : Nat) (start : Nat) (hands : List (List Card)) (h : 0 < nP)
    (hl : hands.length = nP) : WF nP (initRound nP start hands) :=
  ⟨h, hl, rfl, by simp [initRound], Nat.mod_lt _ h⟩

theorem dealtRound_WF (nP : Nat) (deck : List Card) (r : Nat) (h : 0 < nP) :
    WF nP (dealtRound nP deck r) := by
  apply initRound_WF nP _ _ h
  rw [removeOpening_length]
  exact (deal_spec nP _ deck h).1

theorem dealtRound_cards_le (nP : Nat) (deck : List Card) (r : Nat) (h : 0 < nP) :
    cardsHeld (dealtRound nP deck r) ≤ deck.length := by
  unfold cardsHeld dealtRound initRound
  refine (removeOpening_sum_le _).trans ?_
  rw [← List.length_flatten]
  exact le_of_eq (deal_spec nP _ deck h).2.length_eq

theorem standardDeck_length : standardDeck.length = 52 := by decide

theorem opening_mem_standardDeck : (⟨2, 7⟩ : Card) ∈ standardDeck := by decide

/-- With a deck that is a rearrangement of the 52 cards, 51 cards are held when the
loop starts. -/
theorem dealtRound_cards (nP : Nat) (deck : List Card) (r : Nat) (h : 0 < nP)
    (hd : deck.Perm standardDeck) : cardsHeld (dealtRound nP deck r) = 51 := by
  have hspec := deal_spec nP (startPlayer nP r) deck h
  have hmem : (⟨2, 7⟩ : Card) ∈ (deal nP (startPlayer nP r) deck).flatten :=
    (hspec.2.trans hd).mem_iff.2 opening_mem_standardDeck
  obtain ⟨hand, hh, hc⟩ := List.mem_flatten.1 hmem
  have hsum := removeOpening_sum (deal nP (startPlayer nP r) deck)
    ⟨hand, hh, ⟨2, 7⟩, hc, by decide⟩
  have hlen : ((deal nP (startPlayer nP r) deck).map List.length).sum = 52 := by
    rw [← List.length_flatten, (hspec.2.trans hd).length_eq, standardDeck_length]
  unfold cardsHeld dealtRound initRound
  show ((removeOpening (deal nP (startPlayer nP r) deck)).map List.length).sum = 51
  omega

/-! ## The whole round -/

/-- With at least `roundFuel nP deck.length` units of fuel the round returns: its
result is the state after `k` iterations, where `k` is the number of turns taken
(the first index at which `game_over` is set). -/
theorem playRound_result (nP : Nat) (deck : List Card) (r : Nat) (sel : Nat → Int)
    (hnP : 0 < nP) :
    ∃ k, k ≤ roundFuel nP deck.length ∧
      (stateAfter nP sel (dealtRound nP deck r) k).game_over = true ∧
      (∀ j, j < k → (stateAfter nP sel (dealtRound nP deck r) j).game_over = false) ∧
      ∀ fuel, roundFuel nP deck.length ≤ fuel →
        playRound fuel nP deck r sel = some (stateAfter nP sel (dealtRound nP deck r) k) := by
  have hwf := dealtRound_WF nP deck r hnP
  have hcards := dealtRound_cards_le nP deck r hnP
  have hm : cardsHeld (dealtRound nP deck r) * (nP + 1) + (nP - 0) <
      roundFuel nP deck.length := by
    unfold roundFuel
    have h1 : cardsHeld (dealtRound nP deck r) * (nP + 1) ≤ deck.length * (nP + 1) :=
      Nat.mul_le_mul_right _ hcards
    have h2 : (deck.length + 1) * (nP + 1) = deck.length * (nP + 1) + (nP + 1) := by ring
    omega
  have hex : ∃ k, (stateAfter nP sel (dealtRound nP deck r) k).game_over = true := by
    obtain ⟨k, _, hk⟩ := loop_reaches_over nP sel _ _ 0 hwf (Streak.zero nP _) hm
    exact ⟨k, hk⟩
  obtain ⟨k0, hk0, hover0⟩ := loop_reaches_over nP sel _ _ 0 hwf (Streak.zero nP _) hm
  refine ⟨Nat.find hex, (Nat.find_min' hex hover0).trans hk0, Nat.find_spec hex, ?_, ?_⟩
  · intro j hj
    have := Nat.find_min hex hj
    simpa using this
  · intro fuel hf
    unfold playRound
    rw [if_neg (by omega)]
    exact turnLoop_eq_stateAfter nP sel _ hwf _ (Nat.find_spec hex) fuel
      (((Nat.find_min' hex hover0).trans hk0).trans hf)

theorem scoreWithId_fst (nP : Nat) (scores : List Nat) :
    (scoreWithId nP scores).map Prod.fst = List.range nP := by
  unfold scoreWithId
  rw [List.map_map]
  exact List.map_id _

theorem scoreWithId_snd (nP : Nat) (scores : List Nat) (h : scores.length = nP) :
    (scoreWithId nP scores).map Prod.snd = scores := by
  unfold scoreWithId
  rw [List.map_map]
  apply List.ext_getElem
  · simp [h]
  · intro i h1 h2
    simp [List.getD, List.getElem?_eq_getElem h2]

theorem scoreWithId_mem (nP : Nat) (scores : List Nat) (e : Nat × Nat)
    (h : e ∈ scoreWithId nP scores) : e.1 < nP ∧ e.2 = scores.getD e.1 0 := by
  unfold scoreWithId at h
  obtain ⟨i, hi, rfl⟩ := List.mem_map.1 h
  exact ⟨List.mem_range.1 hi, rfl⟩

theorem WF.scores_len {nP : Nat} {st : RoundState} (h : WF nP st) :
    st.scores.length = nP := by
  rw [h.scores_eq, List.length_map, h.hands_len]

/-- C7: for at least one player, a deck that is a rearrangement of the 52 cards, any
generator output and any returned indices, the round returns, and the sum of the
remaining counts in the returned ranking plus 1 plus the number of accepted moves
is 52. -/
theorem conservation (srt : StdSort (Nat × Nat) scoreLess) (nP : Nat) (deck : List Card)
    (r : Nat) (sel : Nat → Int) (fuel : Nat)
    (hnP : 1 ≤ nP) (hd : deck.Perm standardDeck) (hf : roundFuel nP 52 ≤ fuel) :
    ∃ st res, playRound fuel nP deck r sel = some st ∧
      compute_game_progress srt fuel nP deck r sel = some res ∧
      (res.map Prod.snd).sum + 1 + st.moves = 52 := by
  have hlen : deck.length = 52 := by rw [hd.length_eq, standardDeck_length]
  obtain ⟨k, _, _, _, hres⟩ := playRound_result nP deck r sel hnP
  rw [hlen] at hres
  have hinv := stateAfter_induction nP sel (dealtRound nP deck r)
    (fun st => cardsHeld st + st.moves = 51) (dealtRound_WF nP deck r hnP)
    (by
      show cardsHeld (dealtRound nP deck r) + 0 = 51
      rw [dealtRound_cards nP deck r hnP hd])
    (fun st idx hwf _ hP => (resolve_conserves nP idx st hwf).trans hP) k
  refine ⟨stateAfter nP sel (dealtRound nP deck r) k,
    srt.run (scoreWithId nP (stateAfter nP sel (dealtRound nP deck r) k).scores),
    hres fuel hf, ?_, ?_⟩
  · unfold compute_game_progress
    rw [hres fuel hf]
    rfl
  · have hperm := (srt.perm (scoreWithId nP (stateAfter nP sel (dealtRound nP deck r) k).scores)).map
      Prod.snd
    rw [hperm.sum_eq, scoreWithId_snd _ _ hinv.1.scores_len, hinv.1.scores_eq]
    have := hinv.2
    unfold cardsHeld at this
    omega

/-- Witness of C7: four players, the deck in key order, players that always pass. -/
theorem conservation_witness :
    (1 ≤ 4 ∧ standardDeck.Perm standardDeck ∧ roundFuel 4 52 ≤ 265) ∧
    ∃ st res, playRound 265 4 standardDeck 6 (fun _ => -1) = some st ∧
      compute_game_progress insertionStdSort 265 4 standardDeck 6 (fun _ => -1) = some res ∧
      (res.map Prod.snd).sum + 1 + st.moves = 52 :=
  ⟨⟨by decide, List.Perm.refl _, by decide⟩,
    conservation insertionStdSort 4 standardDeck 6 (fun _ => -1) 265 (by decide)
      (List.Perm.refl _) (by decide)⟩

theorem streak_of_passes (nP : Nat) (sel : Nat → Int) (st0 : RoundState) (h0 : WF nP st0)
    (k m : Nat) (h : ∀ j, j < m → isPassTurn nP sel st0 (k + j)) :
    Streak nP (stateAfter nP sel st0 (k + m)) m := by
  induction m with
  | zero => exact Streak.zero nP _
  | succ m ih =>
    have hm := h m (Nat.lt_succ_self m)
    have hwf := stateAfter_WF nP sel st0 h0 (k + m)
    rw [← Nat.add_assoc, stateAfter_succ_of_WF nP sel st0 (k + m) hwf hm.1]
    exact Streak.pass _ hwf (ih (fun j hj => h j (by omega))) hm.2

/-- C8: for at least one player, every deck, every generator output and every
sequence of returned indices, the turn loop terminates: `game_over` is first set after
some number `k` of turns bounded by `roundFuel`, and with that much fuel the round
returns the state after these `k` turns. Moreover `nP` consecutive passing turns set
every pass flag and end the round, so no run of passing turns is longer than `nP`. -/
theorem round_terminates (nP : Nat) (deck : List Card) (r : Nat) (sel : Nat → Int)
    (hnP : 1 ≤ nP) :
    (∃ k, k ≤ roundFuel nP deck.length ∧
      (stateAfter nP sel (dealtRound nP deck r) k).game_over = true ∧
      (∀ j, j < k → (stateAfter nP sel (dealtRound nP deck r) j).game_over = false) ∧
      ∀ fuel, roundFuel nP deck.length ≤ fuel →
        playRound fuel nP deck r sel =
          some (stateAfter nP sel (dealtRound nP deck r) k)) ∧
    (∀ k, (∀ j, j < nP → isPassTurn nP sel (dealtRound nP deck r) (k + j)) →
      (stateAfter nP sel (dealtRound nP deck r) (k + nP)).passed.all (fun b => b) = true ∧
      (stateAfter nP sel (dealtRound nP deck r) (k + nP)).game_over = true) ∧
    (∀ k, ¬ ∀ j, j ≤ nP → isPassTurn nP sel (dealtRound nP deck r) (k + j)) := by
  have h0 := dealtRound_WF nP deck r hnP
  have key : ∀ k, (∀ j, j < nP → isPassTurn nP sel (dealtRound nP deck r) (k + j)) →
      (stateAfter nP sel (dealtRound nP deck r) (k + nP)).passed.all (fun b => b) = true ∧
      (stateAfter nP sel (dealtRound nP deck r) (k + nP)).game_over = true := by
    intro k h
    obtain ⟨m, rfl⟩ : ∃ m, nP = m + 1 := ⟨nP - 1, by omega⟩
    have hs := streak_of_passes (m + 1) sel _ h0 k m (fun j hj => h j (by omega))
    have hm := h m (Nat.lt_succ_self m)
    have hwf := stateAfter_WF (m + 1) sel _ h0 (k + m)
    rw [← Nat.add_assoc, stateAfter_succ_of_WF (m + 1) sel _ (k + m) hwf hm.1]
    exact Streak.pass_over _ hwf hs (le_refl _) hm.2
  refine ⟨playRound_result nP deck r sel hnP, key, ?_⟩
  intro k h
  have h1 := (key k (fun j hj => h j (by omega))).2
  have h2 := (h nP (le_refl _)).1
  rw [h1] at h2
  cases h2

/-- Witness of C8: four players, the deck in key order, players that always pass. -/
theorem round_terminates_witness :
    (1 ≤ 4) ∧
    ((∃ k, k ≤ roundFuel 4 standardDeck.length ∧
      (stateAfter 4 (fun _ => -1) (dealtRound 4 standardDeck 6) k).game_over = true ∧
      (∀ j, j < k →
        (stateAfter 4 (fun _ => -1) (dealtRound 4 standardDeck 6) j).game_over = false) ∧
      ∀ fuel, roundFuel 4 standardDeck.length ≤ fuel →
        playRound fuel 4 standardDeck 6 (fun _ => -1) =
          some (stateAfter 4 (fun _ => -1) (dealtRound 4 standardDeck 6) k)) ∧
    (∀ k, (∀ j, j < 4 → isPassTurn 4 (fun _ => -1) (dealtRound 4 standardDeck 6) (k + j)) →
      (stateAfter 4 (fun _ => -1) (dealtRound 4 standardDeck 6) (k + 4)).passed.all
          (fun b => b) = true ∧
      (stateAfter 4 (fun _ => -1) (dealtRound 4 standardDeck 6) (k + 4)).game_over = true) ∧
    (∀ k, ¬ ∀ j, j ≤ 4 →
      isPassTurn 4 (fun _ => -1) (dealtRound 4 standardDeck 6) (k + j))) :=
  ⟨by decide, round_terminates 4 standardDeck 6 (fun _ => -1) (by decide)⟩

/-- C9: after a turn taken from a well-formed state, `game_over` is set exactly when
the accepted move emptied the hand of the mover or every one of the `nP` pass flags is
set. When the hand was emptied the mover holds no card and has score 0. Once
`game_over` is set the loop returns that state without a further turn, and otherwise
it takes the next turn. -/
theorem round_over_iff (nP : Nat) (idx : Int) (st : RoundState)
    (hwf : WF nP st) (hgo : st.game_over = false) :
    ∃ st1, turn nP idx st = some st1 ∧
      (st1.game_over = true ↔
        ((accepted (st.hands.getD st.current_player []) idx st.table = true ∧
            (st.hands.getD st.current_player []).eraseIdx idx.toNat = []) ∨
          (∀ q, q < nP → st1.passed[q]? = some true))) ∧
      ((accepted (st.hands.getD st.current_player []) idx st.table = true ∧
          (st.hands.getD st.current_player []).eraseIdx idx.toNat = []) →
        st1.hands[st.current_player]? = some [] ∧ st1.scores[st.current_player]? = some 0) ∧
      (st1.game_over = true → ∀ sel fuel, turnLoop nP sel fuel st1 = some st1) ∧
      (st1.game_over = false → ∀ sel fuel,
        turnLoop nP sel (fuel + 1) st1 =
          turnLoop nP sel fuel (resolve nP (sel st1.turns) st1)) := by
  have hwf1 := resolve_WF nP idx st hwf
  refine ⟨resolve nP idx st, turn_of_inBounds nP idx st hwf.inBounds, ?_, ?_, ?_, ?_⟩
  · rw [resolve_game_over, hgo]
    simp only [Bool.false_or, Bool.or_eq_true, Bool.and_eq_true, List.isEmpty_iff]
    constructor
    · rintro (h | h)
      · exact Or.inl h
      · right
        intro q hq
        exact flags_of_all _ h q (by rw [hwf1.passed_len]; exact hq)
    · rintro (h | h)
      · exact Or.inl h
      · right
        apply all_of_flags
        intro q hq
        exact h q (by rw [← hwf1.passed_len]; exact hq)
  · rintro ⟨hacc, hempty⟩
    obtain ⟨_, _, c, hc, _⟩ := (accepted_iff _ _ _).1 hacc
    rw [resolve_accept nP idx st c hacc hc, hempty]
    have hph : st.current_player < st.hands.length := by
      rw [hwf.hands_len]
      exact hwf.cur_lt
    have hps : st.current_player < st.scores.length := by
      rw [hwf.scores_len]
      exact hwf.cur_lt
    constructor
    · simp [List.getElem?_set, hph]
    · simp [List.getElem?_set, hps]
  · intro h sel fuel
    exact turnLoop_of_game_over nP sel fuel _ h
  · intro h sel fuel
    exact turnLoop_step nP sel fuel _ hwf1 h

/-- Witness of C9: in the example state, player 0 plays the 8 of suit 2 (index 0). -/
theorem round_over_iff_witness :
    (WF 2 exampleState ∧ exampleState.game_over = false) ∧
    ∃ st1, turn 2 0 exampleState = some st1 ∧
      (st1.game_over = true ↔
        ((accepted (exampleState.hands.getD exampleState.current_player []) 0
              exampleState.table = true ∧
            (exampleState.hands.getD exampleState.current_player []).eraseIdx
              (0 : Int).toNat = []) ∨
          (∀ q, q < 2 → st1.passed[q]? = some true))) ∧
      ((accepted (exampleState.hands.getD exampleState.current_player []) 0
            exampleState.table = true ∧
          (exampleState.hands.getD exampleState.current_player []).eraseIdx
            (0 : Int).toNat = []) →
        st1.hands[exampleState.current_player]? = some [] ∧
          st1.scores[exampleState.current_player]? = some 0) ∧
      (st1.game_over = true → ∀ sel fuel, turnLoop 2 sel fuel st1 = some st1) ∧
      (st1.game_over = false → ∀ sel fuel,
        turnLoop 2 sel (fuel + 1) st1 =
          turnLoop 2 sel fuel (resolve 2 (sel st1.turns) st1)) :=
  ⟨⟨⟨by decide, rfl, rfl, rfl, by decide⟩, rfl⟩,
    round_over_iff 2 0 exampleState ⟨by decide, rfl, rfl, rfl, by decide⟩ rfl⟩

/-- C10: for at least one player the round returns a ranking with exactly `nP`
entries whose player ids are a rearrangement of 0..nP-1, each id is paired with the
number of cards left in the hand of that player at the end of the round, and the
counts are in non-decreasing order. -/
theorem final_ranking (srt : StdSort (Nat × Nat) scoreLess) (nP : Nat) (deck : List Card)
    (r : Nat) (sel : Nat → Int) (fuel : Nat)
    (hnP : 1 ≤ nP) (hf : roundFuel nP deck.length ≤ fuel) :
    ∃ st res, playRound fuel nP deck r sel = some st ∧
      compute_game_progress srt fuel nP deck r sel = some res ∧
      res.length = nP ∧
      (res.map Prod.fst).Perm (List.range nP) ∧
      (∀ e, e ∈ res → ∃ hand, st.hands[e.1]? = some hand ∧ e.2 = hand.length) ∧
      (res.map Prod.snd).Pairwise (fun a b => a ≤ b) := by
  obtain ⟨k, _, _, _, hres⟩ := playRound_result nP deck r sel hnP
  have hwf := stateAfter_WF nP sel (dealtRound nP deck r) (dealtRound_WF nP deck r hnP) k
  have hperm := srt.perm (scoreWithId nP (stateAfter nP sel (dealtRound nP deck r) k).scores)
  refine ⟨stateAfter nP sel (dealtRound nP deck r) k,
    srt.run (scoreWithId nP (stateAfter nP sel (dealtRound nP deck r) k).scores),
    hres fuel hf, ?_, ?_, ?_, ?_, ?_⟩
  · unfold compute_game_progress
    rw [hres fuel hf]
    rfl
  · rw [hperm.length_eq]
    simp [scoreWithId]
  · have := hperm.map Prod.fst
    rw [scoreWithId_fst] at this
    exact this
  · intro e he
    obtain ⟨hlt, hval⟩ := scoreWithId_mem nP _ e (hperm.mem_iff.1 he)
    have hlt2 : e.1 < (stateAfter nP sel (dealtRound nP deck r) k).hands.length := by
      rw [hwf.hands_len]
      exact hlt
    refine ⟨(stateAfter nP sel (dealtRound nP deck r) k).hands[e.1], ?_, ?_⟩
    · exact List.getElem?_eq_getElem hlt2
    · rw [hval, hwf.scores_eq]
      simp [List.getD, List.getElem?_eq_getElem hlt2]
  · rw [List.pairwise_map]
    refine List.Pairwise.imp ?_ (srt.sorted _)
    intro a b hab
    simpa [scoreLess] using hab

/-- Witness of C10: three players, the deck in key order, players that always return
index 0. -/
theorem final_ranking_witness :
    (1 ≤ 3 ∧ roundFuel 3 standardDeck.length ≤ 212) ∧
    ∃ st res, playRound 212 3 standardDeck 5 (fun _ => 0) = some st ∧
      compute_game_progress insertionStdSort 212 3 standardDeck 5 (fun _ => 0) = some res ∧
      res.length = 3 ∧
      (res.map Prod.fst).Perm (List.range 3) ∧
      (∀ e, e ∈ res → ∃ hand, st.hands[e.1]? = some hand ∧ e.2 = hand.length) ∧
      (res.map Prod.snd).Pairwise (fun a b => a ≤ b) :=
  ⟨⟨by decide, by decide⟩,
    final_ranking insertionStdSort 3 standardDeck 5 (fun _ => 0) 212 (by decide) (by decide)⟩

/-! ## Card universe and initial table -/

set_option maxRecDepth 8000 in
/-- C19: after `read_cards` the keys of the card map are exactly 0..51 in insertion
order, key `k` maps to the card of suit `k / 13` and rank `k % 13 + 1`, the 52 cards
are pairwise distinct, every pair of a suit in 0..3 and a rank in 1..13 occurs exactly
once, every card has such a suit and rank, and the opening card (2, 7) is among
them. -/
theorem read_cards_universe :
    read_cards.map Prod.fst = List.range 52 ∧
    read_cards =
      (List.range 52).map
        (fun k => (k, Card.mk ((k / 13 : Nat) : Int) ((k % 13 + 1 : Nat) : Int))) ∧
    standardDeck.length = 52 ∧
    standardDeck.Nodup ∧
    (∀ s : Nat, s < 4 → ∀ r : Nat, r < 13 →
      standardDeck.count (Card.mk (s : Int) ((r + 1 : Nat) : Int)) = 1) ∧
    (∀ c, c ∈ standardDeck → 0 ≤ c.suit ∧ c.suit ≤ 3 ∧ 1 ≤ c.rank ∧ c.rank ≤ 13) ∧
    (⟨2, 7⟩ : Card) ∈ standardDeck := by
  refine ⟨by decide, by decide, by decide, by decide, by decide, by decide, by decide⟩

/-- C20: after `read_game`, whatever table the mapper or the parser held before, a
pair is marked played exactly when it is (2, 7); the result is the table `read_game`
from which every round starts, whatever the number of players, the deck and the
generator output, so also in every round of a tournament. -/
theorem read_game_initial_table :
    (∀ (old : Table) (s r : Nat),
      isOn (MyGameMapper_read_game old) s r = true ↔ (s = 2 ∧ r = 7)) ∧
    (∀ (old : Table) (s r : Nat),
      isOn (MyGameParser_read_game old) s r = true ↔ (s = 2 ∧ r = 7)) ∧
    (∀ old : Table, MyGameMapper_read_game old = read_game) ∧
    (∀ (nP : Nat) (deck : List Card) (r : Nat), (dealtRound nP deck r).table = read_game) := by
  have key : ∀ s r : Nat, isOn read_game s r = true ↔ (s = 2 ∧ r = 7) := by
    intro s r
    unfold read_game
    rw [isOn_markPlayed]
    have h0 : isOn (UMap.empty : Table) s r = false := rfl
    rw [h0]
    simp
  refine ⟨fun old s r => key s r, fun old s r => key s r, fun old => rfl,
    fun nP deck r => rfl⟩

/-! ## Turn order -/

theorem resolve_current_player (nP : Nat) (idx : Int) (st : RoundState) :
    (resolve nP idx st).current_player = (st.current_player + 1) % nP := by
  cases hacc : accepted (st.hands.getD st.current_player []) idx st.table with
  | false => rw [resolve_pass nP idx st hacc]
  | true =>
    obtain ⟨_, _, c, hc, _⟩ := (accepted_iff _ _ _).1 hacc
    rw [resolve_accept nP idx st c hacc hc]

/-- C14: after a turn taken by player `p`, accepted play or pass, the current player is
`(p + 1) % nP`; this holds for every turn taken in the loop of a round, and the next
player is the same for two states with the same current player whatever their
tables, hands, scores and pass flags and whatever the returned indices. -/
theorem turn_order (nP : Nat) :
    (∀ idx st st1, turn nP idx st = some st1 →
      st1.current_player = (st.current_player + 1) % nP) ∧
    (∀ sel st0 k, WF nP st0 → (stateAfter nP sel st0 k).game_over = false →
      (stateAfter nP sel st0 (k + 1)).current_player =
        ((stateAfter nP sel st0 k).current_player + 1) % nP) ∧
    (∀ idx idx2 st st2, st.current_player = st2.current_player →
      (resolve nP idx st).current_player = (resolve nP idx2 st2).current_player) := by
  refine ⟨?_, ?_, ?_⟩
  · intro idx st st1 h
    unfold turn at h
    split at h
    · cases h
      exact resolve_current_player nP idx st
    · cases h
  · intro sel st0 k h0 hgo
    rw [stateAfter_succ_of_WF nP sel st0 k (stateAfter_WF nP sel st0 h0 k) hgo]
    exact resolve_current_player nP _ _
  · intro idx idx2 st st2 h
    rw [resolve_current_player, resolve_current_player, h]

/-- Witness of C14: in the example state player 0 moves and player 1 is next, for an
accepted play (index 0) as for a pass (index -1). -/
theorem turn_order_witness :
    (turn 2 0 exampleState = some (resolve 2 0 exampleState) ∧
      turn 2 (-1) exampleState = some (resolve 2 (-1) exampleState)) ∧
    (resolve 2 0 exampleState).current_player = (exampleState.current_player + 1) % 2 ∧
    (resolve 2 (-1) exampleState).current_player = (exampleState.current_player + 1) % 2 :=
  ⟨⟨rfl, rfl⟩, (turn_order 2).1 0 exampleState _ rfl, (turn_order 2).1 (-1) exampleState _ rfl⟩

/-! ## Round-robin dealing -/

theorem pushBack_getElem? (hands : List (List Card)) (q : Nat) (c : Card) (p : Nat)
    (hand : List Card) (h : hands[p]? = some hand) :
    (pushBack hands q c)[p]? = some (hand ++ (if q = p then [c] else [])) := by
  unfold pushBack
  rw [List.getElem?_modify, h]
  by_cases hq : q = p <;> simp [hq]

theorem dealLoop_getElem? (nP s : Nat) (rest : List Card) :
    ∀ (i : Nat) (hands : List (List Card)) (p : Nat) (hand : List Card),
      hands[p]? = some hand →
      (dealLoop nP s i rest hands)[p]? =
        some (hand ++
          ((rest.enumFrom i).filter (fun x => decide ((s + x.1) % nP = p))).map Prod.snd) := by
  induction rest with
  | nil =>
    intro i hands p hand h
    simp [dealLoop, h]
  | cons c rest ih =>
    intro i hands p hand h
    simp only [dealLoop]
    rw [ih (i + 1) _ p _ (pushBack_getElem? hands (dealPlayer nP s i) c p hand h)]
    unfold dealPlayer
    by_cases hq : (s + i) % nP = p
    · simp [List.enumFrom_cons, List.filter_cons, hq]
    · simp [List.enumFrom_cons, List.filter_cons, hq]

/-- Position of player `p` in the dealing order that starts at player `s`. -/
theorem mod_eq_iff_offset (nP s p n : Nat) (hs : s < nP) (hp : p < nP) :
    (s + n) % nP = p ↔ n % nP = (if s ≤ p then p - s else p + nP - s) := by
  have hr : n % nP < nP := Nat.mod_lt _ (by omega)
  rw [Nat.add_mod, Nat.mod_eq_of_lt hs]
  by_cases hlt : s + n % nP < nP
  · rw [Nat.mod_eq_of_lt hlt]
    split <;> omega
  · rw [Nat.mod_eq_sub_mod (by omega), Nat.mod_eq_of_lt (by omega)]
    split <;> omega

theorem succ_div_mod (nP n : Nat) (h : 0 < nP) :
    (n % nP + 1 < nP → (n + 1) / nP = n / nP ∧ (n + 1) % nP = n % nP + 1) ∧
    (n % nP + 1 = nP → (n + 1) / nP = n / nP + 1 ∧ (n + 1) % nP = 0) := by
  have hdm := Nat.div_add_mod n nP
  generalize n / nP = q at hdm ⊢
  generalize n % nP = r at hdm ⊢
  constructor
  · intro hlt
    have e : n + 1 = nP * q + (r + 1) := by omega
    constructor
    · rw [e, Nat.mul_add_div h, Nat.div_eq_of_lt hlt]
      rfl
    · rw [e, Nat.mul_add_mod, Nat.mod_eq_of_lt hlt]
  · intro heq
    have e : n + 1 = nP * (q + 1) := by
      rw [Nat.mul_add, Nat.mul_one]
      omega
    constructor
    · rw [e, Nat.mul_div_cancel_left _ h]
    · rw [e, Nat.mul_mod_right]

theorem count_positions_aux (nP s p off : Nat) (hpos : 0 < nP) (hofflt : off < nP)
    (hoff : ∀ n, (s + n) % nP = p ↔ n % nP = off) (n : Nat) :
    ((List.range n).filter (fun i => decide ((s + i) % nP = p))).length =
      n / nP + (if off < n % nP then 1 else 0) := by
  induction n with
  | zero => simp
  | succ n ih =>
    have hlen : ((List.filter (fun i => decide ((s + i) % nP = p)) [n]).length =
        if n % nP = off then 1 else 0) := by
      by_cases hc : (s + n) % nP = p
      · simp [hc, (hoff n).1 hc]
      · have hne : ¬ n % nP = off := fun e => hc ((hoff n).2 e)
        simp [hc, hne]
    rw [List.range_succ, List.filter_append, List.length_append, ih, hlen]
    have hr : n % nP < nP := Nat.mod_lt _ hpos
    have hsd := succ_div_mod nP n hpos
    by_cases hlt : n % nP + 1 < nP
    · obtain ⟨h1, h2⟩ := hsd.1 hlt
      rw [h1, h2]
      split <;> split <;> split <;> omega
    · have heq : n % nP + 1 = nP := by omega
      obtain ⟨h1, h2⟩ := hsd.2 heq
      rw [h1, h2]
      split <;> split <;> split <;> omega

/-- Number of deck positions below `n` that go to player `p`. -/
theorem count_positions (nP s p : Nat) (hs : s < nP) (hp : p < nP) (n : Nat) :
    ((List.range n).filter (fun i => decide ((s + i) % nP = p))).length =
      n / nP + (if (if s ≤ p then p - s else p + nP - s) < n % nP then 1 else 0) := by
  apply count_positions_aux nP s p _ (by omega) _ (fun m => mod_eq_iff_offset nP s p m hs hp)
  split <;> omega

theorem deal_getElem? (nP s : Nat) (deck : List Card) (p : Nat) (hp : p < nP) :
    (deal nP s deck)[p]? =
      some ((deck.enum.filter (fun x => decide ((s + x.1) % nP = p))).map Prod.snd) := by
  unfold deal
  have h0 : (List.replicate nP ([] : List Card))[p]? = some [] := by
    simp [List.getElem?_replicate, hp]
  rw [dealLoop_getElem? nP s deck 0 _ p [] h0]
  rfl

theorem dealt_hand_length (nP s : Nat) (deck : List Card) (p : Nat) :
    ((deck.enum.filter (fun x => decide ((s + x.1) % nP = p))).map Prod.snd).length =
      ((List.range deck.length).filter (fun i => decide ((s + i) % nP = p))).length := by
  rw [← List.enum_map_fst deck, List.filter_map, List.length_map, List.length_map]
  rfl

/-- C11: dealing is round-robin from the starting player `s`. There are `nP` hands,
the hand of player `p` is the subsequence of the deck at the positions `i` with
`(s + i) % nP = p` in deck order, the hands together hold exactly the cards of the
deck, and two hand sizes differ by at most one. -/
theorem deal_round_robin (nP s : Nat) (deck : List Card) (hs : s < nP) :
    (deal nP s deck).length = nP ∧
    (∀ p, p < nP → (deal nP s deck)[p]? =
      some ((deck.enum.filter (fun x => decide ((s + x.1) % nP = p))).map Prod.snd)) ∧
    (deal nP s deck).flatten.Perm deck ∧
    (∀ (p q : Nat) (hp hq : List Card),
      (deal nP s deck)[p]? = some hp → (deal nP s deck)[q]? = some hq →
      hp.length ≤ hq.length + 1) := by
  have hpos : 0 < nP := by omega
  have hspec := deal_spec nP s deck hpos
  refine ⟨hspec.1, fun p hp => deal_getElem? nP s deck p hp, hspec.2, ?_⟩
  intro p q hp hq h1 h2
  have hplt : p < nP := by
    rw [← hspec.1]
    exact (List.getElem?_eq_some_iff.1 h1).1
  have hqlt : q < nP := by
    rw [← hspec.1]
    exact (List.getElem?_eq_some_iff.1 h2).1
  rw [deal_getElem? nP s deck p hplt] at h1
  rw [deal_getElem? nP s deck q hqlt] at h2
  cases h1
  cases h2
  rw [dealt_hand_length, dealt_hand_length, count_positions nP s p hs hplt,
    count_positions nP s q hs hqlt]
  split <;> split <;> omega

set_option maxRecDepth 8000 in
/-- Witness of C11: four players, starting player 2, the deck in key order; the hand
sizes of players 0 and 1 are compared. -/
theorem deal_round_robin_witness :
    (2 < 4) ∧
    ((deal 4 2 standardDeck).length = 4 ∧
    (∀ p, p < 4 → (deal 4 2 standardDeck)[p]? =
      some ((standardDeck.enum.filter (fun x => decide ((2 + x.1) % 4 = p))).map Prod.snd)) ∧
    (deal 4 2 standardDeck).flatten.Perm standardDeck ∧
    (∀ (p q : Nat) (hp hq : List Card), (deal 4 2 standardDeck)[p]? = some hp →
      (deal 4 2 standardDeck)[q]? = some hq → hp.length ≤ hq.length + 1)) :=
  ⟨by decide, deal_round_robin 4 2 standardDeck (by decide)⟩

/-! ## Opening card -/

theorem isOpening_iff (c : Card) : isOpening c = true ↔ c = ⟨2, 7⟩ := by
  cases c with
  | mk s r => simp [isOpening]

theorem eraseP_isOpening (hand : List Card) :
    hand.eraseP isOpening = hand.erase ⟨2, 7⟩ := by
  rw [List.erase_eq_eraseP']
  congr 1
  funext c
  rw [Bool.eq_iff_iff, isOpening_iff]
  simp

/-- Shape of the result of the removal loop: the first hand that holds the opening
card loses its first occurrence, the other hands are untouched. -/
theorem removeOpening_spec (hands : List (List Card))
    (h : ∃ hand ∈ hands, (⟨2, 7⟩ : Card) ∈ hand) :
    ∃ p hand, hands[p]? = some hand ∧ (⟨2, 7⟩ : Card) ∈ hand ∧
      removeOpening hands = hands.set p (hand.erase ⟨2, 7⟩) := by
  induction hands with
  | nil =>
    obtain ⟨hand, hm, _⟩ := h
    cases hm
  | cons x xs ih =>
    simp only [removeOpening]
    by_cases hx : x.any isOpening = true
    · rw [if_pos hx]
      obtain ⟨c, hc, hp⟩ := List.any_eq_true.1 hx
      rw [isOpening_iff] at hp
      subst hp
      exact ⟨0, x, List.getElem?_cons_zero, hc, by rw [eraseP_isOpening]; rfl⟩
    · rw [if_neg hx]
      have hrest : ∃ hand ∈ xs, (⟨2, 7⟩ : Card) ∈ hand := by
        obtain ⟨hand, hm, hc⟩ := h
        rcases List.mem_cons.1 hm with he | hm2
        · subst he
          exact absurd (List.any_eq_true.2 ⟨_, hc, (isOpening_iff _).2 rfl⟩) hx
        · exact ⟨hand, hm2, hc⟩
      obtain ⟨p, hand, h1, h2, h3⟩ := ih hrest
      exact ⟨p + 1, hand, by rw [List.getElem?_cons_succ]; exact h1, h2, by rw [h3]; rfl⟩

theorem standardDeck_nodup : standardDeck.Nodup := by decide

/-- C12: for at least one player and a deck that is a rearrangement of the 52 cards,
at the entry of the turn loop exactly one hand, that of some player `p`, is its dealt
hand without the card (2, 7), which it held; every other hand is the dealt hand; no
hand contains (2, 7); the hands hold 51 cards; and (2, 7) is marked played on the
table. -/
theorem opening_card_removed (nP : Nat) (deck : List Card) (r : Nat)
    (hnP : 1 ≤ nP) (hd : deck.Perm standardDeck) :
    ∃ p hand, p < nP ∧
      (deal nP (startPlayer nP r) deck)[p]? = some hand ∧
      (⟨2, 7⟩ : Card) ∈ hand ∧
      (dealtRound nP deck r).hands[p]? = some (hand.erase ⟨2, 7⟩) ∧
      (hand.erase ⟨2, 7⟩).length + 1 = hand.length ∧
      (∀ q, q ≠ p →
        (dealtRound nP deck r).hands[q]? = (deal nP (startPlayer nP r) deck)[q]?) ∧
      (∀ h, h ∈ (dealtRound nP deck r).hands → (⟨2, 7⟩ : Card) ∉ h) ∧
      cardsHeld (dealtRound nP deck r) = 51 ∧
      isOn (dealtRound nP deck r).table 2 7 = true := by
  have hspec := deal_spec nP (startPlayer nP r) deck hnP
  have hmem : (⟨2, 7⟩ : Card) ∈ (deal nP (startPlayer nP r) deck).flatten :=
    (hspec.2.trans hd).mem_iff.2 opening_mem_standardDeck
  have hnd : (deal nP (startPlayer nP r) deck).flatten.Nodup :=
    ((hspec.2.trans hd).nodup_iff).2 standardDeck_nodup
  obtain ⟨hnd1, hnd2⟩ := List.nodup_flatten.1 hnd
  obtain ⟨hand0, hh0, hc0⟩ := List.mem_flatten.1 hmem
  obtain ⟨p, hand, hp1, hp2, hp3⟩ :=
    removeOpening_spec (deal nP (startPlayer nP r) deck) ⟨hand0, hh0, hc0⟩
  obtain ⟨hplt, hpe⟩ := List.getElem?_eq_some_iff.1 hp1
  have hhands : (dealtRound nP deck r).hands =
      (deal nP (startPlayer nP r) deck).set p (hand.erase ⟨2, 7⟩) := hp3
  refine ⟨p, hand, by rw [← hspec.1]; exact hplt, hp1, hp2, ?_, ?_, ?_, ?_,
    dealtRound_cards nP deck r hnP hd, ?_⟩
  · rw [hhands]
    simp [List.getElem?_set, hplt]
  · rw [List.length_erase_of_mem hp2]
    have := List.length_pos_of_mem hp2
    omega
  · intro q hq
    rw [hhands, List.getElem?_set, if_neg (fun e => hq e.symm)]
  · intro h hh
    rw [hhands] at hh
    obtain ⟨q, hq⟩ := List.mem_iff_getElem?.1 hh
    rw [List.getElem?_set] at hq
    by_cases hpq : p = q
    · rw [if_pos hpq, if_pos hplt] at hq
      cases hq
      exact List.Nodup.not_mem_erase (hnd1 hand (List.mem_iff_getElem?.2 ⟨p, hp1⟩))
    · rw [if_neg hpq] at hq
      obtain ⟨hqlt, hqe⟩ := List.getElem?_eq_some_iff.1 hq
      have hdis : List.Disjoint (deal nP (startPlayer nP r) deck)[p]
          (deal nP (startPlayer nP r) deck)[q] := by
        rcases Nat.lt_or_gt_of_ne hpq with hlt | hgt
        · exact List.pairwise_iff_getElem.1 hnd2 p q hplt hqlt hlt
        · exact (List.pairwise_iff_getElem.1 hnd2 q p hqlt hplt hgt).symm
      rw [hpe, hqe] at hdis
      exact fun hc => hdis hp2 hc
  · show isOn read_game 2 7 = true
    decide

/-- Witness of C12: four players, the deck in key order. -/
theorem opening_card_removed_witness :
    (1 ≤ 4 ∧ standardDeck.Perm standardDeck) ∧
    ∃ p hand, p < 4 ∧
      (deal 4 (startPlayer 4 6) standardDeck)[p]? = some hand ∧
      (⟨2, 7⟩ : Card) ∈ hand ∧
      (dealtRound 4 standardDeck 6).hands[p]? = some (hand.erase ⟨2, 7⟩) ∧
      (hand.erase ⟨2, 7⟩).length + 1 = hand.length ∧
      (∀ q, q ≠ p →
        (dealtRound 4 standardDeck 6).hands[q]? = (deal 4 (startPlayer 4 6) standardDeck)[q]?) ∧
      (∀ h, h ∈ (dealtRound 4 standardDeck 6).hands → (⟨2, 7⟩ : Card) ∉ h) ∧
      cardsHeld (dealtRound 4 standardDeck 6) = 51 ∧
      isOn (dealtRound 4 standardDeck 6).table 2 7 = true :=
  ⟨⟨by decide, List.Perm.refl _⟩,
    opening_card_removed 4 standardDeck 6 (by decide) (List.Perm.refl _)⟩

/-! ## A round in which every player always passes -/

theorem add_mod_inj (nP c k m : Nat) (hk : k < nP) (hm : m < nP)
    (h : (c + k) % nP = (c + m) % nP) : k = m := by
  have h1 : Nat.ModEq nP k m := Nat.ModEq.add_left_cancel' c h
  unfold Nat.ModEq at h1
  rwa [Nat.mod_eq_of_lt hk, Nat.mod_eq_of_lt hm] at h1

/-- States of the loop while every returned index is the pass sentinel -1: after
`j ≤ nP` turns nothing but the flags, the current player and the turn counter has
changed, only the players who had a turn have their flag set, and the loop is still
running when `j < nP`. -/
theorem all_pass_states (nP : Nat) (sel : Nat → Int) (st0 : RoundState) (h0 : WF nP st0)
    (hgo : st0.game_over = false) (hfl : ∀ q : Nat, st0.passed[q]? ≠ some true)
    (hsel : ∀ k, sel k = -1) (j : Nat) (hj : j ≤ nP) :
    (stateAfter nP sel st0 j).table = st0.table ∧
    (stateAfter nP sel st0 j).hands = st0.hands ∧
    (stateAfter nP sel st0 j).scores = st0.scores ∧
    (stateAfter nP sel st0 j).moves = st0.moves ∧
    (stateAfter nP sel st0 j).turns = st0.turns + j ∧
    (stateAfter nP sel st0 j).current_player = (st0.current_player + j) % nP ∧
    (∀ q, (stateAfter nP sel st0 j).passed[q]? = some true →
      ∃ k, k < j ∧ (st0.current_player + k) % nP = q) ∧
    (j < nP → (stateAfter nP sel st0 j).game_over = false) := by
  induction j with
  | zero =>
    refine ⟨rfl, rfl, rfl, rfl, rfl, ?_, ?_, fun _ => hgo⟩
    · exact (Nat.mod_eq_of_lt h0.cur_lt).symm
    · intro q hq
      exact absurd hq (hfl q)
  | succ j ih =>
    obtain ⟨i1, i2, i3, i4, i5, i6, i7, i8⟩ := ih (by omega)
    have hwf := stateAfter_WF nP sel st0 h0 j
    have hnot := i8 (by omega)
    have hacc : accepted ((stateAfter nP sel st0 j).hands.getD
        (stateAfter nP sel st0 j).current_player [])
        (sel (stateAfter nP sel st0 j).turns) (stateAfter nP sel st0 j).table = false := by
      rw [hsel]
      exact not_accepted_of_bad _ _ _ (Or.inl (by decide))
    have hflags : ∀ q, ((stateAfter nP sel st0 j).passed.set
        (stateAfter nP sel st0 j).current_player true)[q]? = some true →
        ∃ k, k < j + 1 ∧ (st0.current_player + k) % nP = q := by
      intro q hq
      rw [List.getElem?_set] at hq
      by_cases hc : (stateAfter nP sel st0 j).current_player = q
      · exact ⟨j, by omega, by rw [← i6]; exact hc⟩
      · rw [if_neg hc] at hq
        obtain ⟨k, hk, hkq⟩ := i7 q hq
        exact ⟨k, by omega, hkq⟩
    rw [stateAfter_succ_of_WF nP sel st0 j hwf hnot, resolve_pass nP _ _ hacc]
    refine ⟨i1, i2, i3, i4, by show _ + 1 = _; omega, ?_, hflags, ?_⟩
    · show ((stateAfter nP sel st0 j).current_player + 1) % nP = _
      rw [i6, Nat.mod_add_mod, Nat.add_assoc]
    · intro hlt
      show ((stateAfter nP sel st0 j).game_over ||
        ((stateAfter nP sel st0 j).passed.set
          (stateAfter nP sel st0 j).current_player true).all (fun b => b)) = false
      rw [hnot, Bool.false_or]
      cases hall : ((stateAfter nP sel st0 j).passed.set
          (stateAfter nP sel st0 j).current_player true).all (fun b => b) with
      | false => rfl
      | true =>
        exfalso
        have hq := flags_of_all _ hall ((st0.current_player + (j + 1)) % nP)
          (by rw [List.length_set, hwf.passed_len]; exact Nat.mod_lt _ h0.pos)
        obtain ⟨k, hk, hkq⟩ := hflags _ hq
        have := add_mod_inj nP st0.current_player k (j + 1) (by omega) hlt hkq
        omega

theorem all_pass_over (nP : Nat) (sel : Nat → Int) (st0 : RoundState) (h0 : WF nP st0)
    (hgo : st0.game_over = false) (hfl : ∀ q : Nat, st0.passed[q]? ≠ some true)
    (hsel : ∀ k, sel k = -1) : (stateAfter nP sel st0 nP).game_over = true := by
  obtain ⟨m, rfl⟩ : ∃ m, nP = m + 1 := ⟨nP - 1, by have := h0.pos; omega⟩
  have hpass : ∀ j, j < m + 1 → isPassTurn (m + 1) sel st0 (0 + j) := by
    intro j hj
    rw [Nat.zero_add]
    refine ⟨(all_pass_states (m + 1) sel st0 h0 hgo hfl hsel j (by omega)).2.2.2.2.2.2.2 hj, ?_⟩
    rw [hsel]
    exact not_accepted_of_bad _ _ _ (Or.inl (by decide))
  have hs := streak_of_passes (m + 1) sel st0 h0 0 m (fun j hj => hpass j (by omega))
  have hm := hpass m (Nat.lt_succ_self m)
  rw [Nat.zero_add] at hs hm
  have hwf := stateAfter_WF (m + 1) sel st0 h0 m
  rw [stateAfter_succ_of_WF (m + 1) sel st0 m hwf hm.1]
  exact (Streak.pass_over _ hwf hs (le_refl _) hm.2).2

theorem dealtRound_no_flag (nP : Nat) (deck : List Card) (r : Nat) (q : Nat) :
    (dealtRound nP deck r).passed[q]? ≠ some true := by
  show (List.replicate nP false)[q]? ≠ some true
  rw [List.getElem?_replicate]
  split <;> simp

theorem list_eq_of_four (l : List Nat) (a : Nat) (hl : l.length = 4)
    (h : ∀ q, q < 4 → l[q]? = some a) : l = [a, a, a, a] := by
  match l, hl with
  | [x0, x1, x2, x3], _ =>
    have e0 := h 0 (by decide)
    have e1 := h 1 (by decide)
    have e2 := h 2 (by decide)
    have e3 := h 3 (by decide)
    simp at e0 e1 e2 e3
    rw [e0, e1, e2, e3]

/-- With four players and the 52 cards, the hand sizes at the entry of the loop are
13 for three players and 12 for the one who held the opening card. -/
theorem dealtRound_sizes_four (deck : List Card) (r : Nat) (hd : deck.Perm standardDeck) :
    ∃ p, p < 4 ∧ (dealtRound 4 deck r).hands.map List.length = [13, 13, 13, 13].set p 12 := by
  have hlen : deck.length = 52 := by rw [hd.length_eq, standardDeck_length]
  have hs : startPlayer 4 r < 4 := Nat.mod_lt _ (by decide)
  have hspec := deal_spec 4 (startPlayer 4 r) deck (by decide)
  have hmem : (⟨2, 7⟩ : Card) ∈ (deal 4 (startPlayer 4 r) deck).flatten :=
    (hspec.2.trans hd).mem_iff.2 opening_mem_standardDeck
  obtain ⟨hand0, hh0, hc0⟩ := List.mem_flatten.1 hmem
  obtain ⟨p, hand, hp1, hp2, hp3⟩ :=
    removeOpening_spec (deal 4 (startPlayer 4 r) deck) ⟨hand0, hh0, hc0⟩
  have hplt : p < 4 := by
    rw [← hspec.1]
    exact (List.getElem?_eq_some_iff.1 hp1).1
  have hsizes : (deal 4 (startPlayer 4 r) deck).map List.length = [13, 13, 13, 13] := by
    apply list_eq_of_four _ 13 (by rw [List.length_map, hspec.1])
    intro q hq
    rw [List.getElem?_map, deal_getElem? 4 _ deck q hq]
    show some _ = some 13
    rw [dealt_hand_length, count_positions 4 _ q hs hq, hlen]
    simp
  have hpl : hand.length = 13 := by
    have := congrArg (fun l => l[p]?) hsizes
    simp only [List.getElem?_map, hp1, Option.map_some'] at this
    have h4 : ([13, 13, 13, 13] : List Nat)[p]? = some 13 := by
      interval_cases p <;> rfl
    rw [h4] at this
    exact Option.some.inj this
  refine ⟨p, hplt, ?_⟩
  show (removeOpening (deal 4 (startPlayer 4 r) deck)).map List.length = _
  rw [hp3, List.map_set, hsizes, List.length_erase_of_mem hp2, hpl]

/-- C13: for at least one player, when every call of `selectCardToPlay` returns the
pass sentinel -1, the round ends after exactly `nP` turns: the loop is still running
after fewer turns and is over after `nP`. No move is made, the table and the hands
are those at the entry of the loop, and the returned ranking is a rearrangement of the
pairs (player, initial hand size after the removal of the opening card) in
non-decreasing order of size; for four players and the 52 cards the sizes listed are
12, 13, 13, 13. -/
theorem all_pass_round (srt : StdSort (Nat × Nat) scoreLess) (nP : Nat) (deck : List Card)
    (r : Nat) (sel : Nat → Int) (fuel : Nat)
    (hnP : 1 ≤ nP) (hsel : ∀ k, sel k = -1) (hf : nP ≤ fuel) :
    ∃ st res, playRound fuel nP deck r sel = some st ∧
      compute_game_progress srt fuel nP deck r sel = some res ∧
      st = stateAfter nP sel (dealtRound nP deck r) nP ∧
      st.turns = nP ∧
      (∀ j, j < nP → (stateAfter nP sel (dealtRound nP deck r) j).game_over = false) ∧
      st.game_over = true ∧
      st.table = (dealtRound nP deck r).table ∧
      (∀ s k, isOn st.table s k = true ↔ (s = 2 ∧ k = 7)) ∧
      st.moves = 0 ∧
      st.hands = (dealtRound nP deck r).hands ∧
      res.Perm (scoreWithId nP ((dealtRound nP deck r).hands.map List.length)) ∧
      (res.map Prod.snd).Pairwise (fun a b => a ≤ b) ∧
      (nP = 4 → deck.Perm standardDeck → res.map Prod.snd = [12, 13, 13, 13]) := by
  have h0 := dealtRound_WF nP deck r hnP
  have hfl := dealtRound_no_flag nP deck r
  have hst := all_pass_states nP sel _ h0 rfl hfl hsel
  obtain ⟨i1, i2, i3, i4, i5, _, _, _⟩ := hst nP (le_refl _)
  have hover := all_pass_over nP sel _ h0 rfl hfl hsel
  have hplay : playRound fuel nP deck r sel =
      some (stateAfter nP sel (dealtRound nP deck r) nP) := by
    unfold playRound
    rw [if_neg (by omega)]
    exact turnLoop_eq_stateAfter nP sel _ h0 nP hover fuel hf
  have hscores : (stateAfter nP sel (dealtRound nP deck r) nP).scores =
      (dealtRound nP deck r).hands.map List.length := i3
  have hperm := srt.perm (scoreWithId nP ((dealtRound nP deck r).hands.map List.length))
  have hsorted : ((srt.run (scoreWithId nP
      ((dealtRound nP deck r).hands.map List.length))).map Prod.snd).Pairwise
      (fun a b => a ≤ b) := by
    rw [List.pairwise_map]
    refine List.Pairwise.imp ?_ (srt.sorted _)
    intro a b hab
    simpa [scoreLess] using hab
  refine ⟨stateAfter nP sel (dealtRound nP deck r) nP,
    srt.run (scoreWithId nP ((dealtRound nP deck r).hands.map List.length)),
    hplay, ?_, rfl, ?_, fun j hj => (hst j (by omega)).2.2.2.2.2.2.2 hj, hover, i1, ?_, i4, i2,
    hperm, hsorted, ?_⟩
  · unfold compute_game_progress
    rw [hplay, Option.map_some', hscores]
  · rw [i5]
    show 0 + nP = nP
    omega
  · intro s k
    rw [i1]
    show isOn read_game s k = true ↔ _
    unfold read_game
    rw [isOn_markPlayed]
    have h00 : isOn (UMap.empty : Table) s k = false := rfl
    rw [h00]
    simp
  · intro h4 hd
    subst h4
    obtain ⟨p, hp, hsz⟩ := dealtRound_sizes_four deck r hd
    have hp2 : ((srt.run (scoreWithId 4
        ((dealtRound 4 deck r).hands.map List.length))).map Prod.snd).Perm
        ([13, 13, 13, 13].set p 12) := by
      have := hperm.map Prod.snd
      rw [scoreWithId_snd _ _ (by rw [List.length_map]; exact h0.hands_len)] at this
      rw [← hsz]
      exact this
    have hp3 : ([13, 13, 13, 13].set p 12).Perm [12, 13, 13, 13] := by
      interval_cases p <;> decide
    exact List.eq_of_perm_of_sorted (hp2.trans hp3) hsorted (by decide)

/-- Witness of C13: four players, the deck in key order. -/
theorem all_pass_round_witness :
    (1 ≤ 4 ∧ (∀ k : Nat, (fun _ : Nat => (-1 : Int)) k = -1) ∧ 4 ≤ 4) ∧
    ∃ st res, playRound 4 4 standardDeck 6 (fun _ => -1) = some st ∧
      compute_game_progress insertionStdSort 4 4 standardDeck 6 (fun _ => -1) = some res ∧
      st = stateAfter 4 (fun _ => -1) (dealtRound 4 standardDeck 6) 4 ∧
      st.turns = 4 ∧
      (∀ j, j < 4 →
        (stateAfter 4 (fun _ => -1) (dealtRound 4 standardDeck 6) j).game_over = false) ∧
      st.game_over = true ∧
      st.table = (dealtRound 4 standardDeck 6).table ∧
      (∀ s k, isOn st.table s k = true ↔ (s = 2 ∧ k = 7)) ∧
      st.moves = 0 ∧
      st.hands = (dealtRound 4 standardDeck 6).hands ∧
      res.Perm (scoreWithId 4 ((dealtRound 4 standardDeck 6).hands.map List.length)) ∧
      (res.map Prod.snd).Pairwise (fun a b => a ≤ b) ∧
      (4 = 4 → standardDeck.Perm standardDeck → res.map Prod.snd = [12, 13, 13, 13]) :=
  ⟨⟨by decide, fun _ => rfl, by decide⟩,
    all_pass_round insertionStdSort 4 standardDeck 6 (fun _ => -1) 4 (by decide)
      (fun _ => rfl) (by decide)⟩

/-! ## Tournament: effect of one round -/

theorem modify_getD (f : Nat → Nat) (q p : Nat) (l : List Nat) (hp : p < l.length) :
    (List.modify f q l).getD p 0 = if q = p then f (l.getD p 0) else l.getD p 0 := by
  rw [List.getD_eq_getElem?_getD, List.getD_eq_getElem?_getD, List.getElem?_modify,
    List.getElem?_eq_getElem hp]
  by_cases h : q = p <;> simp [h]

theorem creditRound_spec (best : Nat) (roundScores : List (Nat × Nat)) :
    ∀ (totals wins : List Nat),
      (creditRound best roundScores totals wins).1.length = totals.length ∧
      (creditRound best roundScores totals wins).2.length = wins.length ∧
      ∀ p, p < totals.length → p < wins.length →
        (totals.getD p 0 < 2 ^ 64 →
          (creditRound best roundScores totals wins).1.getD p 0 =
            (totals.getD p 0 +
              (roundScores.map (fun e => if e.1 = p then e.2 else 0)).sum) % 2 ^ 64) ∧
        (creditRound best roundScores totals wins).2.getD p 0 =
          wins.getD p 0 +
            (roundScores.map (fun e => if e.1 = p ∧ e.2 = best then 1 else 0)).sum := by
  induction roundScores with
  | nil =>
    intro totals wins
    refine ⟨rfl, rfl, fun p _ _ => ⟨fun hlt => ?_, ?_⟩⟩
    · show totals.getD p 0 = (totals.getD p 0 + 0) % 2 ^ 64
      rw [Nat.add_zero, Nat.mod_eq_of_lt hlt]
    · rfl
  | cons e rest ih =>
    intro totals wins
    have hstep : creditRound best (e :: rest) totals wins =
        creditRound best rest (creditEntry best (totals, wins) e).1
          (creditEntry best (totals, wins) e).2 := rfl
    obtain ⟨h1, h2, h3⟩ := ih (creditEntry best (totals, wins) e).1
      (creditEntry best (totals, wins) e).2
    have hl1 : (creditEntry best (totals, wins) e).1.length = totals.length := by
      simp [creditEntry]
    have hl2 : (creditEntry best (totals, wins) e).2.length = wins.length := by
      simp only [creditEntry]
      split <;> simp
    rw [hstep]
    refine ⟨h1.trans hl1, h2.trans hl2, ?_⟩
    intro p hp1 hp2
    obtain ⟨h4, h5⟩ := h3 p (by rw [hl1]; exact hp1) (by rw [hl2]; exact hp2)
    rw [h5]
    constructor
    · intro hlt
      have hmod : (creditEntry best (totals, wins) e).1.getD p 0 =
          if e.1 = p then (totals.getD p 0 + e.2) % 2 ^ 64 else totals.getD p 0 := by
        simp only [creditEntry]
        rw [modify_getD _ _ _ _ hp1]
      have hlt2 : (creditEntry best (totals, wins) e).1.getD p 0 < 2 ^ 64 := by
        rw [hmod]
        split
        · exact Nat.mod_lt _ (by norm_num)
        · exact hlt
      rw [h4 hlt2, hmod]
      simp only [List.map_cons, List.sum_cons]
      by_cases hq : e.1 = p
      · rw [if_pos hq, if_pos hq, Nat.mod_add_mod, Nat.add_assoc]
      · rw [if_neg hq, if_neg hq, Nat.zero_add]
    · simp only [creditEntry, List.map_cons, List.sum_cons]
      by_cases hb : e.2 = best
      · rw [if_pos hb, modify_getD _ _ _ _ hp2]
        by_cases hq : e.1 = p
        · simp [hq, hb]
          omega
        · simp [hq]
      · rw [if_neg hb]
        simp [hb]

theorem sum_range_single (n p : Nat) (g : Nat → Nat) :
    ((List.range n).map (fun i => if i = p then g i else 0)).sum =
      if p < n then g p else 0 := by
  induction n with
  | zero => simp
  | succ n ih =>
    rw [List.range_succ, List.map_append, List.sum_append, ih]
    have e1 : ([n].map (fun i => if i = p then g i else 0)).sum =
        if n = p then g n else 0 := by simp
    rw [e1]
    by_cases h2 : n = p
    · subst h2
      rw [if_neg (Nat.lt_irrefl _), if_pos rfl, if_pos (Nat.lt_succ_self _)]
      omega
    · rw [if_neg h2]
      by_cases h1 : p < n
      · rw [if_pos h1, if_pos (by omega)]
        omega
      · rw [if_neg h1, if_neg (by omega)]

/-- The value of `bestScore` after the minimum loop: it is at most the initial value
and every score, and it is the initial value or one of the scores. -/
theorem foldl_min_spec (l : List (Nat × Nat)) :
    ∀ init : Nat,
      l.foldl (fun b e => min b e.2) init ≤ init ∧
      (∀ e, e ∈ l → l.foldl (fun b e => min b e.2) init ≤ e.2) ∧
      (l.foldl (fun b e => min b e.2) init = init ∨
        ∃ e, e ∈ l ∧ l.foldl (fun b e => min b e.2) init = e.2) := by
  induction l with
  | nil =>
    intro init
    simp
  | cons x xs ih =>
    intro init
    obtain ⟨h1, h2, h3⟩ := ih (min init x.2)
    simp only [List.foldl_cons]
    refine ⟨le_trans h1 (Nat.min_le_left _ _), ?_, ?_⟩
    · intro e he
      rcases List.mem_cons.1 he with rfl | he2
      · exact le_trans h1 (Nat.min_le_right _ _)
      · exact h2 e he2
    · rcases h3 with h3 | ⟨e, he, h3⟩
      · by_cases hle : init ≤ x.2
        · left
          rw [h3, Nat.min_eq_left hle]
        · right
          exact ⟨x, List.mem_cons_self _ _, by rw [h3, Nat.min_eq_right (by omega)]⟩
      · right
        exact ⟨e, List.mem_cons_of_mem _ he, h3⟩

theorem mem_scoreWithId (nP : Nat) (s : List Nat) (e : Nat × Nat) :
    e ∈ scoreWithId nP s ↔ ∃ i, i < nP ∧ e = (i, s.getD i 0) := by
  unfold scoreWithId
  rw [List.mem_map]
  constructor
  · rintro ⟨i, hi, rfl⟩
    exact ⟨i, List.mem_range.1 hi, rfl⟩
  · rintro ⟨i, hi, rfl⟩
    exact ⟨i, List.mem_range.2 hi, rfl⟩

theorem getD_mem (s : List Nat) (i : Nat) (h : i < s.length) : s.getD i 0 ∈ s := by
  rw [List.getD_eq_getElem?_getD, List.getElem?_eq_getElem h]
  exact List.getElem_mem h

theorem mem_getD (s : List Nat) (x : Nat) (h : x ∈ s) : ∃ i, i < s.length ∧ x = s.getD i 0 := by
  obtain ⟨i, hi, rfl⟩ := List.getElem_of_mem h
  refine ⟨i, hi, ?_⟩
  rw [List.getD_eq_getElem?_getD, List.getElem?_eq_getElem hi]
  rfl

/-- For the result of a round with score vector `s`, `bestScore` is the minimum of
`s`: it is at most every score and it is one of them. -/
theorem bestScoreOf_spec (nP : Nat) (res : List (Nat × Nat)) (s : List Nat) (hnP : 0 < nP)
    (hperm : res.Perm (scoreWithId nP s)) (hs : s.length = nP)
    (hb : ∀ x, x ∈ s → x < 2 ^ 64) :
    (∀ x, x ∈ s → bestScoreOf res ≤ x) ∧ bestScoreOf res ∈ s := by
  obtain ⟨_, h2, h3⟩ := foldl_min_spec res (2 ^ 64 - 1)
  have hle : ∀ x, x ∈ s → bestScoreOf res ≤ x := by
    intro x hx
    obtain ⟨i, hi, rfl⟩ := mem_getD s x hx
    exact h2 (i, s.getD i 0)
      (hperm.mem_iff.2 ((mem_scoreWithId nP s _).2 ⟨i, by rw [← hs]; exact hi, rfl⟩))
  refine ⟨hle, ?_⟩
  rcases h3 with h3 | ⟨e, he, h3⟩
  · have h0 : s.getD 0 0 ∈ s := getD_mem s 0 (by rw [hs]; exact hnP)
    have hlt := hb _ h0
    have hge := hle _ h0
    have : bestScoreOf res = s.getD 0 0 := by
      unfold bestScoreOf at hge ⊢
      rw [h3] at hge ⊢
      omega
    rw [this]
    exact h0
  · obtain ⟨i, hi, rfl⟩ := (mem_scoreWithId nP s e).1 (hperm.mem_iff.1 he)
    have : bestScoreOf res = s.getD i 0 := h3
    rw [this]
    exact getD_mem s i (by rw [hs]; exact hi)

theorem isRoundWinner_iff_best (nP : Nat) (res : List (Nat × Nat)) (s : List Nat)
    (hnP : 0 < nP) (hperm : res.Perm (scoreWithId nP s)) (hs : s.length = nP)
    (hb : ∀ x, x ∈ s → x < 2 ^ 64) (p : Nat) (hp : p < nP) :
    isRoundWinner s p = true ↔ s.getD p 0 = bestScoreOf res := by
  obtain ⟨h1, h2⟩ := bestScoreOf_spec nP res s hnP hperm hs hb
  unfold isRoundWinner
  rw [List.all_eq_true]
  constructor
  · intro h
    have ha := h _ h2
    have hb2 := h1 _ (getD_mem s p (by rw [hs]; exact hp))
    simp only [decide_eq_true_eq] at ha
    omega
  · intro h x hx
    rw [h]
    simpa using h1 x hx

/-- Effect of one round of the tournament on a state whose vectors have `nP`
entries, when the result of the round is a rearrangement of the pairs (player, score)
of a score vector `s`: every total grows by the score of the player, every win count
grows by one exactly for the players with a minimal score, the round number grows by
one and `gameOver` is set when some total has reached `maxScore`. -/
theorem roundStep_spec (nP maxScore : Nat) (res : List (Nat × Nat)) (s : List Nat)
    (st : TournamentState) (hnP : 0 < nP) (hperm : res.Perm (scoreWithId nP s))
    (hs : s.length = nP) (hb : ∀ x, x ∈ s → x < 2 ^ 64)
    (ht : st.totalScores.length = nP) (hw : st.winCounts.length = nP) :
    (roundStep nP maxScore res st).totalScores.length = nP ∧
    (roundStep nP maxScore res st).winCounts.length = nP ∧
    (roundStep nP maxScore res st).roundNumber = st.roundNumber + 1 ∧
    (∀ p, p < nP →
      (st.totalScores.getD p 0 < 2 ^ 64 →
        (roundStep nP maxScore res st).totalScores.getD p 0 =
          (st.totalScores.getD p 0 + s.getD p 0) % 2 ^ 64) ∧
      (roundStep nP maxScore res st).winCounts.getD p 0 =
        st.winCounts.getD p 0 + (if isRoundWinner s p then 1 else 0)) ∧
    (roundStep nP maxScore res st).gameOver =
      (st.gameOver ||
        thresholdReached nP maxScore (roundStep nP maxScore res st).totalScores) := by
  obtain ⟨c1, c2, c3⟩ := creditRound_spec (bestScoreOf res) res st.totalScores st.winCounts
  refine ⟨c1.trans ht, c2.trans hw, rfl, ?_, rfl⟩
  intro p hp
  obtain ⟨c4, c5⟩ := c3 p (by rw [ht]; exact hp) (by rw [hw]; exact hp)
  constructor
  · intro hlt
    show (creditRound (bestScoreOf res) res st.totalScores st.winCounts).1.getD p 0 = _
    rw [c4 hlt, (hperm.map _).sum_eq]
    unfold scoreWithId
    rw [List.map_map]
    have := sum_range_single nP p (fun i => s.getD i 0)
    rw [if_pos hp] at this
    rw [← this]
    rfl
  · show (creditRound (bestScoreOf res) res st.totalScores st.winCounts).2.getD p 0 = _
    rw [c5, (hperm.map _).sum_eq]
    unfold scoreWithId
    rw [List.map_map]
    have := sum_range_single nP p (fun i => if s.getD i 0 = bestScoreOf res then 1 else 0)
    rw [if_pos hp] at this
    have hfun : ((fun e : Nat × Nat => if e.1 = p ∧ e.2 = bestScoreOf res then 1 else 0) ∘
        fun i => (i, s.getD i 0)) =
        fun i => if i = p then (if s.getD i 0 = bestScoreOf res then 1 else 0) else 0 := by
      funext i
      simp only [Function.comp]
      by_cases h1 : i = p
      · by_cases h2 : s.getD i 0 = bestScoreOf res <;> simp [h1, h2]
      · simp [h1]
    rw [hfun, this]
    have hiff := isRoundWinner_iff_best nP res s hnP hperm hs hb p hp
    by_cases hwin : isRoundWinner s p = true
    · rw [if_pos (hiff.1 hwin), if_pos hwin]
    · rw [if_neg (fun h => hwin (hiff.2 h)), if_neg hwin]

/-! ## Tournament: the loop -/

theorem tournamentLoop_of_gameOver (nP maxScore : Nat)
    (rounds : Nat → Option (List (Nat × Nat))) (fuel : Nat) (st : TournamentState)
    (h : st.gameOver = true) : tournamentLoop nP maxScore rounds fuel st = some st := by
  cases fuel <;> simp [tournamentLoop, h]

theorem thresholdReached_eq_stopAt (nP maxScore : Nat) (sc : Nat → List Nat) (k : Nat)
    (st : TournamentState) (h : TournamentInv nP sc k st) :
    thresholdReached nP maxScore st.totalScores = stopAt nP maxScore sc k := by
  unfold thresholdReached stopAt
  rw [Bool.eq_iff_iff, List.any_eq_true, List.any_eq_true]
  constructor
  · rintro ⟨p, hp, hv⟩
    refine ⟨p, hp, ?_⟩
    rw [← h.totals_eq p (List.mem_range.1 hp)]
    exact hv
  · rintro ⟨p, hp, hv⟩
    refine ⟨p, hp, ?_⟩
    rw [h.totals_eq p (List.mem_range.1 hp)]
    exact hv

theorem stopAt_iff (nP maxScore : Nat) (sc : Nat → List Nat) (k : Nat) :
    stopAt nP maxScore sc k = true ↔
      ∃ p, p < nP ∧ cumulativeTotal sc p k % 2 ^ 64 ≥ maxScore := by
  unfold stopAt
  rw [List.any_eq_true]
  constructor
  · rintro ⟨p, hp, hv⟩
    exact ⟨p, List.mem_range.1 hp, by simpa using hv⟩
  · rintro ⟨p, hp, hv⟩
    exact ⟨p, List.mem_range.2 hp, by simpa using hv⟩

theorem initTournament_inv (nP : Nat) (sc : Nat → List Nat) :
    TournamentInv nP sc 0 (initTournament nP) := by
  refine ⟨by simp [initTournament], by simp [initTournament], rfl, ?_, ?_⟩
  · intro p hp
    simp [initTournament, List.getD_eq_getElem?_getD, List.getElem?_replicate, hp,
      cumulativeTotal]
  · intro p hp
    simp [initTournament, List.getD_eq_getElem?_getD, List.getElem?_replicate, hp,
      roundWins]

/-- One round of the tournament keeps the invariant. -/
theorem roundStep_inv (nP maxScore : Nat) (res : List (Nat × Nat)) (sc : Nat → List Nat)
    (k : Nat) (st : TournamentState) (hnP : 0 < nP) (h : TournamentInv nP sc k st)
    (hperm : res.Perm (scoreWithId nP (sc (k + 1)))) (hs : (sc (k + 1)).length = nP)
    (hb : ∀ x, x ∈ sc (k + 1) → x < 2 ^ 64) :
    TournamentInv nP sc (k + 1) (roundStep nP maxScore res st) := by
  obtain ⟨r1, r2, r3, r4, _⟩ :=
    roundStep_spec nP maxScore res (sc (k + 1)) st hnP hperm hs hb h.totals_len h.wins_len
  refine ⟨r1, r2, by rw [r3, h.round_eq], ?_, ?_⟩
  · intro p hp
    have hlt : st.totalScores.getD p 0 < 2 ^ 64 := by
      rw [h.totals_eq p hp]
      exact Nat.mod_lt _ (by norm_num)
    rw [(r4 p hp).1 hlt, h.totals_eq p hp, Nat.mod_add_mod]
    rfl
  · intro p hp
    rw [(r4 p hp).2, h.wins_eq p hp]
    rfl

/-- When `R ≥ 1` is the first round after which some stored total is at least
`maxScore`, the loop started after `j < R` rounds returns, with at least `R - j`
units of fuel, the state after `R` rounds. -/
theorem tournament_runs (nP maxScore : Nat) (rounds : Nat → Option (List (Nat × Nat)))
    (sc : Nat → List Nat) (R : Nat) (hnP : 0 < nP) (hok : RoundsOk nP rounds sc R)
    (hstop : stopAt nP maxScore sc R = true)
    (hmin : ∀ k, 1 ≤ k → k < R → stopAt nP maxScore sc k = false) (fuel : Nat) :
    ∀ (j : Nat) (st : TournamentState), j < R → TournamentInv nP sc j st →
      st.gameOver = false → R - j ≤ fuel →
      ∃ st1, tournamentLoop nP maxScore rounds fuel st = some st1 ∧
        TournamentInv nP sc R st1 ∧ st1.gameOver = true := by
  induction fuel with
  | zero =>
    intro j st hj _ _ hf
    omega
  | succ fuel ih =>
    intro j st hj hinv hgo hf
    obtain ⟨res, hres, hperm, hs, hb⟩ := hok (j + 1) (by omega) (by omega)
    have hinv1 := roundStep_inv nP maxScore res sc j st hnP hinv hperm hs hb
    have hover : (roundStep nP maxScore res st).gameOver =
        stopAt nP maxScore sc (j + 1) := by
      rw [← thresholdReached_eq_stopAt nP maxScore sc (j + 1) _ hinv1]
      show (st.gameOver || _) = _
      rw [hgo, Bool.false_or]
      rfl
    have hloop : tournamentLoop nP maxScore rounds (fuel + 1) st =
        tournamentLoop nP maxScore rounds fuel (roundStep nP maxScore res st) := by
      simp [tournamentLoop, hgo, hinv.round_eq, hres]
    rw [hloop]
    by_cases hlast : j + 1 = R
    · have hgo1 : (roundStep nP maxScore res st).gameOver = true := by
        rw [hover, hlast]
        exact hstop
      refine ⟨_, tournamentLoop_of_gameOver nP maxScore rounds fuel _ hgo1, ?_, hgo1⟩
      rw [← hlast]
      exact hinv1
    · have hgo1 : (roundStep nP maxScore res st).gameOver = false := by
        rw [hover]
        exact hmin (j + 1) (by omega) (by omega)
      exact ih (j + 1) _ (by omega) hinv1 hgo1 (by omega)

theorem getElem?_of_getD (l : List Nat) (p v : Nat) (hp : p < l.length)
    (h : l.getD p 0 = v) : l[p]? = some v := by
  rw [List.getD_eq_getElem?_getD, List.getElem?_eq_getElem hp] at h
  rw [List.getElem?_eq_getElem hp]
  exact congrArg some h

/-- The tournament returns the state after `R` rounds when `R ≥ 1` is the first round
after which some stored total (the cumulative total modulo `2 ^ 64`) is at least
`maxScore`. -/
theorem playTournament_result (nP maxScore : Nat) (rounds : Nat → Option (List (Nat × Nat)))
    (sc : Nat → List Nat) (R fuel : Nat) (hnP : 0 < nP) (hok : RoundsOk nP rounds sc R)
    (hR : 1 ≤ R)
    (hstop : ∃ p, p < nP ∧ cumulativeTotal sc p R % 2 ^ 64 ≥ maxScore)
    (hmin : ∀ k, 1 ≤ k → k < R → ∀ p, p < nP →
      cumulativeTotal sc p k % 2 ^ 64 < maxScore)
    (hf : R ≤ fuel) :
    ∃ st, playTournament fuel nP maxScore rounds = some st ∧
      TournamentInv nP sc R st ∧ st.gameOver = true := by
  have hmin2 : ∀ k, 1 ≤ k → k < R → stopAt nP maxScore sc k = false := by
    intro k h1 h2
    cases hc : stopAt nP maxScore sc k with
    | false => rfl
    | true =>
      obtain ⟨p, hp, hv⟩ := (stopAt_iff nP maxScore sc k).1 hc
      have := hmin k h1 h2 p hp
      omega
  exact tournament_runs nP maxScore rounds sc R hnP hok
    ((stopAt_iff nP maxScore sc R).2 hstop) hmin2 fuel 0 _ (by omega)
    (initTournament_inv nP sc) rfl (by omega)

theorem cumulativeTotal_mono (sc : Nat → List Nat) (p k : Nat) :
    ∀ R, k ≤ R → cumulativeTotal sc p k ≤ cumulativeTotal sc p R := by
  intro R
  induction R with
  | zero =>
    intro h
    have : k = 0 := by omega
    rw [this]
  | succ R ih =>
    intro h
    rcases Nat.eq_or_lt_of_le h with h1 | h1
    · rw [h1]
    · have := ih (by omega)
      have e : cumulativeTotal sc p (R + 1) =
          cumulativeTotal sc p R + (sc (R + 1)).getD p 0 := rfl
      omega

/-- While no cumulative total has reached `2 ^ 64`, the stored totals are the
cumulative totals: the tournament returns the state after `R` rounds when `R ≥ 1` is
the first round after which some cumulative total is at least `maxScore`. -/
theorem playTournament_nowrap (nP maxScore : Nat) (rounds : Nat → Option (List (Nat × Nat)))
    (sc : Nat → List Nat) (R fuel : Nat) (hnP : 0 < nP) (hok : RoundsOk nP rounds sc R)
    (hR : 1 ≤ R) (hb : ∀ p, p < nP → cumulativeTotal sc p R < 2 ^ 64)
    (hstop : ∃ p, p < nP ∧ cumulativeTotal sc p R ≥ maxScore)
    (hmin : ∀ k, 1 ≤ k → k < R → ∀ p, p < nP → cumulativeTotal sc p k < maxScore)
    (hf : R ≤ fuel) :
    ∃ st, playTournament fuel nP maxScore rounds = some st ∧
      TournamentInv nP sc R st ∧ st.gameOver = true ∧
      ∀ p, p < nP → st.totalScores.getD p 0 = cumulativeTotal sc p R := by
  have hsmall : ∀ k, k ≤ R → ∀ p, p < nP →
      cumulativeTotal sc p k % 2 ^ 64 = cumulativeTotal sc p k := by
    intro k hk p hp
    exact Nat.mod_eq_of_lt (lt_of_le_of_lt (cumulativeTotal_mono sc p k R hk) (hb p hp))
  obtain ⟨st, hplay, hinv, hgo⟩ := playTournament_result nP maxScore rounds sc R fuel hnP hok hR
    (by
      obtain ⟨p, hp, hv⟩ := hstop
      exact ⟨p, hp, by rw [hsmall R (le_refl R) p hp]; exact hv⟩)
    (by
      intro k h1 h2 p hp
      rw [hsmall k (by omega) p hp]
      exact hmin k h1 h2 p hp)
    hf
  refine ⟨st, hplay, hinv, hgo, fun p hp => ?_⟩
  rw [hinv.totals_eq p hp, hsmall R (le_refl R) p hp]

theorem list_eq_of_getD (l1 l2 : List Nat) (n : Nat) (h1 : l1.length = n) (h2 : l2.length = n)
    (h : ∀ p, p < n → l1.getD p 0 = l2.getD p 0) : l1 = l2 := by
  apply List.ext_getElem (h1.trans h2.symm)
  intro i hi1 hi2
  have := h i (by rw [← h1]; exact hi1)
  rw [List.getD_eq_getElem?_getD, List.getD_eq_getElem?_getD, List.getElem?_eq_getElem hi1,
    List.getElem?_eq_getElem hi2] at this
  exact this

theorem sameLoser_ok (R : Nat) : RoundsOk 2 sameLoser sameLoserScores R := by
  intro k _ _
  have hb : ∀ x, x ∈ ([0, 13] : List Nat) → x < 2 ^ 64 := by decide
  exact ⟨[(0, 0), (1, 13)], rfl, List.Perm.refl _, rfl, hb⟩

theorem alternatingLoser_ok (R : Nat) :
    RoundsOk 2 alternatingLoser alternatingLoserScores R := by
  intro k _ _
  by_cases hk : k % 2 = 1
  · refine ⟨[(1, 0), (0, 13)], by simp [alternatingLoser, hk], ?_, ?_, ?_⟩
    · simp only [alternatingLoserScores, hk, if_true]
      decide
    · simp [alternatingLoserScores, hk]
    · simp only [alternatingLoserScores, hk, if_true]
      decide
  · refine ⟨[(0, 0), (1, 13)], by simp [alternatingLoser, hk], ?_, ?_, ?_⟩
    · simp only [alternatingLoserScores, hk, if_false]
      decide
    · simp [alternatingLoserScores, hk]
    · simp only [alternatingLoserScores, hk, if_false]
      decide

theorem wrapRounds_ok (R : Nat) : RoundsOk 2 wrapRounds wrapScores R := by
  intro k _ _
  by_cases hk : k = 3
  · refine ⟨[(1, 1), (0, 2 ^ 63 + 1)], by simp [wrapRounds, hk], ?_, ?_, ?_⟩
    · simp only [wrapScores, hk, if_true]
      decide
    · simp [wrapScores, hk]
    · simp only [wrapScores, hk, if_true]
      decide
  · refine ⟨[(1, 1), (0, 2 ^ 63)], by simp [wrapRounds, hk], ?_, ?_, ?_⟩
    · simp only [wrapScores, hk, if_false]
      decide
    · simp [wrapScores, hk]
    · simp only [wrapScores, hk, if_false]
      decide

theorem isRoundWinner_iff (s : List Nat) (p : Nat) :
    isRoundWinner s p = true ↔ ∀ q, q < s.length → s.getD p 0 ≤ s.getD q 0 := by
  unfold isRoundWinner
  rw [List.all_eq_true]
  constructor
  · intro h q hq
    simpa using h _ (getD_mem s q hq)
  · intro h x hx
    obtain ⟨i, hi, rfl⟩ := mem_getD s x hx
    simpa using h i hi

/-- C16: at the end of a tournament, which stops after the first round `R ≥ 1` after
which the stored total (the cumulative total modulo `2 ^ 64`) of some player is at
least `maxScore`, the win count of every player is the number of the rounds 1..R in
which the player won, where winning a round means that the round score of the player
is at most the round score of every player (it equals the minimum). In every round
each such player gets exactly one more win and the other players none, and at least
one player wins the round. -/
theorem round_wins (nP maxScore : Nat) (rounds : Nat → Option (List (Nat × Nat)))
    (sc : Nat → List Nat) (R fuel : Nat)
    (hnP : 1 ≤ nP) (hok : RoundsOk nP rounds sc R) (hR : 1 ≤ R)
    (hstop : ∃ p, p < nP ∧ cumulativeTotal sc p R % 2 ^ 64 ≥ maxScore)
    (hmin : ∀ k, 1 ≤ k → k < R → ∀ p, p < nP →
      cumulativeTotal sc p k % 2 ^ 64 < maxScore)
    (hf : R ≤ fuel) :
    (∃ st, playTournament fuel nP maxScore rounds = some st ∧
      st.roundNumber = R + 1 ∧
      ∀ p, p < nP → st.winCounts[p]? = some (roundWins sc p R)) ∧
    (∀ k p, 1 ≤ k → k ≤ R → p < nP →
      (isRoundWinner (sc k) p = true ↔
        ∀ q, q < nP → (sc k).getD p 0 ≤ (sc k).getD q 0)) ∧
    (∀ k, 1 ≤ k → k ≤ R → ∃ p, p < nP ∧ isRoundWinner (sc k) p = true) ∧
    (∀ k res st p, 1 ≤ k → k ≤ R → rounds k = some res →
      st.totalScores.length = nP → st.winCounts.length = nP → p < nP →
      (roundStep nP maxScore res st).winCounts.getD p 0 =
        st.winCounts.getD p 0 + (if isRoundWinner (sc k) p then 1 else 0)) := by
  refine ⟨?_, ?_, ?_, ?_⟩
  · obtain ⟨st, hplay, hinv, _⟩ :=
      playTournament_result nP maxScore rounds sc R fuel hnP hok hR hstop hmin hf
    refine ⟨st, hplay, hinv.round_eq, fun p hp => ?_⟩
    exact getElem?_of_getD _ p _ (by rw [hinv.wins_len]; exact hp) (hinv.wins_eq p hp)
  · intro k p h1 h2 _
    obtain ⟨_, _, _, hs, _⟩ := hok k h1 h2
    rw [isRoundWinner_iff, hs]
  · intro k h1 h2
    obtain ⟨res, _, hperm, hs, hb⟩ := hok k h1 h2
    obtain ⟨_, hmem⟩ := bestScoreOf_spec nP res (sc k) hnP hperm hs hb
    obtain ⟨i, hi, he⟩ := mem_getD _ _ hmem
    rw [hs] at hi
    exact ⟨i, hi, (isRoundWinner_iff_best nP res (sc k) hnP hperm hs hb i hi).2 he.symm⟩
  · intro k res st p h1 h2 hres ht hw hp
    obtain ⟨res2, hres2, hperm, hs, hb⟩ := hok k h1 h2
    rw [hres] at hres2
    cases hres2
    exact ((roundStep_spec nP maxScore res (sc k) st hnP hperm hs hb ht hw).2.2.2.1 p hp).2

/-- Witness of C16: the scenario in which the total of player 0 wraps around after
round 2, so that the tournament has 3 rounds: player 1, with score 1, wins each of
them and player 0 none. -/
theorem round_wins_witness :
    (1 ≤ 2 ∧ RoundsOk 2 wrapRounds wrapScores 3 ∧ 1 ≤ 3 ∧
      (∃ p, p < 2 ∧ cumulativeTotal wrapScores p 3 % 2 ^ 64 ≥ 2 ^ 63 + 1) ∧
      (∀ k, 1 ≤ k → k < 3 → ∀ p, p < 2 →
        cumulativeTotal wrapScores p k % 2 ^ 64 < 2 ^ 63 + 1) ∧
      3 ≤ 3) ∧
    (roundWins wrapScores 0 3 = 0 ∧ roundWins wrapScores 1 3 = 3) ∧
    ((∃ st, playTournament 3 2 (2 ^ 63 + 1) wrapRounds = some st ∧
      st.roundNumber = 3 + 1 ∧
      ∀ p, p < 2 → st.winCounts[p]? = some (roundWins wrapScores p 3)) ∧
    (∀ k p, 1 ≤ k → k ≤ 3 → p < 2 →
      (isRoundWinner (wrapScores k) p = true ↔
        ∀ q, q < 2 → (wrapScores k).getD p 0 ≤ (wrapScores k).getD q 0)) ∧
    (∀ k, 1 ≤ k → k ≤ 3 → ∃ p, p < 2 ∧ isRoundWinner (wrapScores k) p = true) ∧
    (∀ k res st p, 1 ≤ k → k ≤ 3 → wrapRounds k = some res →
      st.totalScores.length = 2 → st.winCounts.length = 2 → p < 2 →
      (roundStep 2 (2 ^ 63 + 1) res st).winCounts.getD p 0 =
        st.winCounts.getD p 0 + (if isRoundWinner (wrapScores k) p then 1 else 0))) :=
  have h3 : ∃ p, p < 2 ∧ cumulativeTotal wrapScores p 3 % 2 ^ 64 ≥ 2 ^ 63 + 1 :=
    ⟨0, by decide, by decide⟩
  have h4 : ∀ k, 1 ≤ k → k < 3 → ∀ p, p < 2 →
      cumulativeTotal wrapScores p k % 2 ^ 64 < 2 ^ 63 + 1 := by
    intro k h1 h2 p hp
    interval_cases k <;> interval_cases p <;> decide
  ⟨⟨by decide, wrapRounds_ok 3, by decide, h3, h4, by decide⟩, ⟨by decide, by decide⟩,
    round_wins 2 (2 ^ 63 + 1) wrapRounds wrapScores 3 3 (by decide) (wrapRounds_ok 3)
      (by decide) h3 h4 (by decide)⟩

/-! ## Tournament: final ranking -/

theorem statsLess_iff (a b : PlayerStats) :
    statsLess a b = true ↔ a.score < b.score ∨ (a.score = b.score ∧ a.wins > b.wins) := by
  unfold statsLess
  split
  · simp only [decide_eq_true_eq]
    omega
  · simp only [decide_eq_true_eq]
    omega

theorem statsLess_false_iff (a b : PlayerStats) :
    statsLess a b = false ↔ ¬ (a.score < b.score ∨ (a.score = b.score ∧ a.wins > b.wins)) := by
  rw [← statsLess_iff]
  cases statsLess a b <;> simp

/-- Closed form of the ranking loop on a sorted list: every player gets 1 plus the
number of players of the list that the comparator puts strictly before it. -/
theorem rankLoop_spec (L : List PlayerStats)
    (hsorted : L.Pairwise (fun a b => statsLess b a = false)) :
    ∀ (rest pre : List PlayerStats) (prev : Option (PlayerStats × Nat)),
      L = pre ++ rest →
      (match prev with
        | none => pre = []
        | some (q, rq) =>
          (∃ pre0, pre = pre0 ++ [q]) ∧
            rq = 1 + (L.filter (fun y => statsLess y q)).length) →
      rankLoop pre.length prev rest =
        rest.map (fun x => (x.id, 1 + (L.filter (fun y => statsLess y x)).length)) := by
  intro rest
  induction rest with
  | nil =>
    intro pre prev _ _
    rfl
  | cons x rest ih =>
    intro pre prev hL hprev
    have hpw := hsorted
    rw [hL, List.pairwise_append] at hpw
    obtain ⟨hpre, htail, hcross⟩ := hpw
    have htail2 := List.pairwise_cons.1 htail
    have hF1 : ∀ y, y ∈ x :: rest → statsLess y x = false := by
      intro y hy
      rcases List.mem_cons.1 hy with rfl | hy2
      · rw [statsLess_false_iff]
        omega
      · exact htail2.1 y hy2
    have hcb : (L.filter (fun y => statsLess y x)).length =
        (pre.filter (fun y => statsLess y x)).length := by
      rw [hL, List.filter_append, List.length_append]
      have : (x :: rest).filter (fun y => statsLess y x) = [] := by
        rw [List.filter_eq_nil_iff]
        intro y hy
        rw [hF1 y hy]
        exact Bool.false_ne_true
      rw [this]
      rfl
    have hrank : nextRank pre.length prev x =
        1 + (L.filter (fun y => statsLess y x)).length := by
      cases prev with
      | none =>
        have hp2 : pre = [] := hprev
        rw [hcb, hp2]
        rfl
      | some qr =>
        obtain ⟨q, rq⟩ := qr
        obtain ⟨⟨pre0, hpre0⟩, hrq⟩ := hprev
        by_cases hkey : x.score = q.score ∧ x.wins = q.wins
        · simp only [nextRank, hkey, and_self, if_true]
          rw [hrq]
          have hfun : (fun y => statsLess y q) = (fun y => statsLess y x) := by
            funext y
            rw [Bool.eq_iff_iff, statsLess_iff, statsLess_iff, hkey.1, hkey.2]
          rw [hfun]
        · simp only [nextRank, hkey, if_false]
          rw [hcb]
          have hall : pre.filter (fun y => statsLess y x) = pre := by
            rw [List.filter_eq_self]
            intro y hy
            have hqx : statsLess x q = false :=
              hcross q (by rw [hpre0]; simp) x (List.mem_cons_self _ _)
            have hyq : y = q ∨ statsLess q y = false := by
              rw [hpre0] at hy hpre
              rcases List.mem_append.1 hy with hy0 | hy1
              · right
                exact (List.pairwise_append.1 hpre).2.2 y hy0 q (by simp)
              · left
                simpa using hy1
            rw [statsLess_iff]
            rw [statsLess_false_iff] at hqx
            rcases hyq with rfl | hyq
            · omega
            · rw [statsLess_false_iff] at hyq
              omega
          rw [hall]
          omega
    have hstep : rankLoop pre.length prev (x :: rest) =
        (x.id, 1 + (L.filter (fun y => statsLess y x)).length) ::
          rankLoop (pre ++ [x]).length
            (some (x, 1 + (L.filter (fun y => statsLess y x)).length)) rest := by
      rw [← hrank]
      simp only [rankLoop, List.length_append, List.length_singleton]
    rw [hstep, List.map_cons]
    congr 1
    exact ih (pre ++ [x]) _ (by rw [hL]; simp) ⟨⟨pre, rfl⟩, rfl⟩

theorem statsLess_playersOf (totals wins : List Nat) (q p : Nat) :
    statsLess { id := q, score := totals.getD q 0, wins := wins.getD q 0 }
      { id := p, score := totals.getD p 0, wins := wins.getD p 0 } =
      strictlyBetter totals wins q p := by
  rw [Bool.eq_iff_iff, statsLess_iff]
  simp [strictlyBetter]

/-- Closed form of the final ranking: the entries are in player order, and the rank
of player `p` is 1 plus the number of players strictly better than `p`. -/
theorem finalRanking_eq (srtP : StdSort PlayerStats statsLess)
    (srtR : StdSort (Nat × Nat) idLess) (nP : Nat) (totals wins : List Nat) :
    finalRanking srtP srtR nP totals wins =
      (List.range nP).map
        (fun p => (p, 1 + ((List.range nP).filter
          (fun q => strictlyBetter totals wins q p)).length)) := by
  have hpermP := srtP.perm (playersOf nP totals wins)
  have hloop : rankLoop 0 none (srtP.run (playersOf nP totals wins)) =
      (srtP.run (playersOf nP totals wins)).map
        (fun x => (x.id, 1 + ((srtP.run (playersOf nP totals wins)).filter
          (fun y => statsLess y x)).length)) :=
    rankLoop_spec _ (srtP.sorted _) _ [] none rfl rfl
  have hcount : ∀ x, x ∈ srtP.run (playersOf nP totals wins) →
      (x.id, 1 + ((srtP.run (playersOf nP totals wins)).filter
          (fun y => statsLess y x)).length) =
      (x.id, 1 + ((List.range nP).filter
          (fun q => strictlyBetter totals wins q x.id)).length) := by
    intro x hx
    obtain ⟨i, _, rfl⟩ := List.mem_map.1 (hpermP.mem_iff.1 hx)
    rw [(hpermP.filter _).length_eq]
    unfold playersOf
    rw [List.filter_map, List.length_map]
    have hfun : ((fun y => statsLess y
        { id := i, score := totals.getD i 0, wins := wins.getD i 0 }) ∘
        fun q => ({ id := q, score := totals.getD q 0, wins := wins.getD q 0 } : PlayerStats)) =
        fun q => strictlyBetter totals wins q i := by
      funext q
      exact statsLess_playersOf totals wins q i
    rw [hfun]
  have hloop2 : rankLoop 0 none (srtP.run (playersOf nP totals wins)) =
      ((srtP.run (playersOf nP totals wins)).map PlayerStats.id).map
        (fun p => (p, 1 + ((List.range nP).filter
          (fun q => strictlyBetter totals wins q p)).length)) := by
    rw [hloop, List.map_map]
    exact List.map_congr_left hcount
  have hids : ((srtP.run (playersOf nP totals wins)).map PlayerStats.id).Perm
      (List.range nP) := by
    have := hpermP.map PlayerStats.id
    have hp : (playersOf nP totals wins).map PlayerStats.id = List.range nP := by
      unfold playersOf
      rw [List.map_map]
      exact List.map_id _
    rw [hp] at this
    exact this
  have hpermR := srtR.perm (rankLoop 0 none (srtP.run (playersOf nP totals wins)))
  have hfst : (finalRanking srtP srtR nP totals wins).map Prod.fst = List.range nP := by
    have h1 : ((finalRanking srtP srtR nP totals wins).map Prod.fst).Perm (List.range nP) := by
      have hR0 : (rankLoop 0 none (srtP.run (playersOf nP totals wins))).map Prod.fst =
          (srtP.run (playersOf nP totals wins)).map PlayerStats.id := by
        rw [hloop2, List.map_map]
        exact List.map_id _
      have := hpermR.map Prod.fst
      rw [hR0] at this
      exact this.trans hids
    have h2 : ((finalRanking srtP srtR nP totals wins).map Prod.fst).Pairwise
        (fun a b => a ≤ b) := by
      rw [List.pairwise_map]
      refine List.Pairwise.imp ?_ (srtR.sorted _)
      intro a b hab
      simpa [idLess] using hab
    exact List.eq_of_perm_of_sorted h1 h2 (List.sorted_le_range nP)
  have hval : ∀ e, e ∈ finalRanking srtP srtR nP totals wins →
      e = (e.1, 1 + ((List.range nP).filter
          (fun q => strictlyBetter totals wins q e.1)).length) := by
    intro e he
    have he2 := hpermR.mem_iff.1 he
    rw [hloop2] at he2
    obtain ⟨p, _, rfl⟩ := List.mem_map.1 he2
    rfl
  calc finalRanking srtP srtR nP totals wins
      = (finalRanking srtP srtR nP totals wins).map (fun e => e) := (List.map_id' _).symm
    _ = (finalRanking srtP srtR nP totals wins).map
          (fun e => (e.1, 1 + ((List.range nP).filter
            (fun q => strictlyBetter totals wins q e.1)).length)) :=
        List.map_congr_left hval
    _ = ((finalRanking srtP srtR nP totals wins).map Prod.fst).map
          (fun p => (p, 1 + ((List.range nP).filter
            (fun q => strictlyBetter totals wins q p)).length)) := by
        rw [List.map_map]
        rfl
    _ = _ := by rw [hfst]

/-- C17: for all totals and win counts, the entry of player `p` in the final ranking
carries the rank 1 plus the number of players strictly better than `p` (lower total,
or equal total and more wins). Hence two players equal on both keys have the same
rank, and the ranking is a competition ranking with gaps: totals 10, 10, 20 with wins
1, 1, 0 give the ranks 1, 1, 3. -/
theorem tournament_ranking (srtP : StdSort PlayerStats statsLess)
    (srtR : StdSort (Nat × Nat) idLess) (nP : Nat) (totals wins : List Nat) :
    (∀ p, p < nP →
      (finalRanking srtP srtR nP totals wins)[p]? =
        some (p, 1 + ((List.range nP).filter
          (fun q => strictlyBetter totals wins q p)).length)) ∧
    (∀ p q, p < nP → q < nP → totals.getD p 0 = totals.getD q 0 →
      wins.getD p 0 = wins.getD q 0 →
      ∃ rank, (finalRanking srtP srtR nP totals wins)[p]? = some (p, rank) ∧
        (finalRanking srtP srtR nP totals wins)[q]? = some (q, rank)) ∧
    finalRanking srtP srtR 3 [10, 10, 20] [1, 1, 0] = [(0, 1), (1, 1), (2, 3)] := by
  have hget : ∀ p, p < nP →
      (finalRanking srtP srtR nP totals wins)[p]? =
        some (p, 1 + ((List.range nP).filter
          (fun q => strictlyBetter totals wins q p)).length) := by
    intro p hp
    rw [finalRanking_eq, List.getElem?_map, List.getElem?_range hp]
    rfl
  refine ⟨hget, ?_, ?_⟩
  · intro p q hp hq ht hw
    refine ⟨_, hget p hp, ?_⟩
    rw [hget q hq]
    have hfun : (fun x => strictlyBetter totals wins x p) =
        (fun x => strictlyBetter totals wins x q) := by
      funext x
      simp only [strictlyBetter, ht, hw]
    rw [hfun]
  · rw [finalRanking_eq]
    decide

/-- Witness of C17: five players with totals 10, 7, 10, 20, 10 and wins 1, 0, 1, 0, 2;
players 0 and 2 are equal on both keys and share rank 3. -/
theorem tournament_ranking_witness :
    ((0 < 5 ∧ 2 < 5) ∧
      ([10, 7, 10, 20, 10] : List Nat).getD 0 0 = ([10, 7, 10, 20, 10] : List Nat).getD 2 0 ∧
      ([1, 0, 1, 0, 2] : List Nat).getD 0 0 = ([1, 0, 1, 0, 2] : List Nat).getD 2 0) ∧
    (∃ rank,
      (finalRanking insertionStatsSort insertionIdSort 5 [10, 7, 10, 20, 10]
        [1, 0, 1, 0, 2])[0]? = some (0, rank) ∧
      (finalRanking insertionStatsSort insertionIdSort 5 [10, 7, 10, 20, 10]
        [1, 0, 1, 0, 2])[2]? = some (2, rank)) ∧
    (finalRanking insertionStatsSort insertionIdSort 5 [10, 7, 10, 20, 10]
      [1, 0, 1, 0, 2])[3]? =
        some (3, 1 + ((List.range 5).filter
          (fun q => strictlyBetter [10, 7, 10, 20, 10] [1, 0, 1, 0, 2] q 3)).length) :=
  ⟨⟨⟨by decide, by decide⟩, rfl, rfl⟩,
    (tournament_ranking insertionStatsSort insertionIdSort 5 [10, 7, 10, 20, 10]
      [1, 0, 1, 0, 2]).2.1 0 2 (by decide) (by decide) rfl rfl,
    (tournament_ranking insertionStatsSort insertionIdSort 5 [10, 7, 10, 20, 10]
      [1, 0, 1, 0, 2]).1 3 (by decide)⟩

/-- C18: when the tournament stops after `R` rounds (`R ≥ 1` is the first round after
which a stored total is at least `maxScore`), the returned list has exactly
`nP` entries, its player ids are 0, 1, ..., nP - 1 in this order, and its `i`-th entry
is the pair of `i` and the rank that the ranking loop gave to player `i`. -/
theorem tournament_result_order (srtP : StdSort PlayerStats statsLess)
    (srtR : StdSort (Nat × Nat) idLess) (nP maxScore : Nat)
    (rounds : Nat → Option (List (Nat × Nat))) (sc : Nat → List Nat) (R fuel : Nat)
    (hnP : 1 ≤ nP) (hok : RoundsOk nP rounds sc R) (hR : 1 ≤ R)
    (hstop : ∃ p, p < nP ∧ cumulativeTotal sc p R % 2 ^ 64 ≥ maxScore)
    (hmin : ∀ k, 1 ≤ k → k < R → ∀ p, p < nP →
      cumulativeTotal sc p k % 2 ^ 64 < maxScore)
    (hf : R ≤ fuel) :
    ∃ st res, playTournament fuel nP maxScore rounds = some st ∧
      compute_multiple_rounds_to_score srtP srtR fuel nP maxScore rounds = some res ∧
      res.length = nP ∧
      res.map Prod.fst = List.range nP ∧
      (∀ i, i < nP → ∃ rank, res[i]? = some (i, rank) ∧
        (i, rank) ∈ rankLoop 0 none (srtP.run (playersOf nP st.totalScores st.winCounts))) := by
  obtain ⟨st, hplay, _, _⟩ :=
    playTournament_result nP maxScore rounds sc R fuel hnP hok hR hstop hmin hf
  refine ⟨st, finalRanking srtP srtR nP st.totalScores st.winCounts, hplay, ?_, ?_, ?_, ?_⟩
  · unfold compute_multiple_rounds_to_score
    rw [hplay]
    rfl
  · rw [finalRanking_eq]
    simp
  · rw [finalRanking_eq, List.map_map]
    exact List.map_id _
  · intro i hi
    have hget := (finalRanking_eq srtP srtR nP st.totalScores st.winCounts)
    refine ⟨1 + ((List.range nP).filter
      (fun q => strictlyBetter st.totalScores st.winCounts q i)).length, ?_, ?_⟩
    · rw [hget, List.getElem?_map, List.getElem?_range hi]
      rfl
    · have hmem : (i, 1 + ((List.range nP).filter
          (fun q => strictlyBetter st.totalScores st.winCounts q i)).length) ∈
          finalRanking srtP srtR nP st.totalScores st.winCounts := by
        rw [hget]
        exact List.mem_map.2 ⟨i, List.mem_range.2 hi, rfl⟩
      exact (srtR.perm _).mem_iff.1 hmem

/-- Witness of C18: the scenario in which player 1 is left with 13 cards in each of the
4 rounds. -/
theorem tournament_result_order_witness :
    (1 ≤ 2 ∧ RoundsOk 2 sameLoser sameLoserScores 4 ∧ 1 ≤ 4 ∧
      (∃ p, p < 2 ∧ cumulativeTotal sameLoserScores p 4 % 2 ^ 64 ≥ 50) ∧
      (∀ k, 1 ≤ k → k < 4 → ∀ p, p < 2 →
        cumulativeTotal sameLoserScores p k % 2 ^ 64 < 50) ∧
      4 ≤ 4) ∧
    ∃ st res, playTournament 4 2 50 sameLoser = some st ∧
      compute_multiple_rounds_to_score insertionStatsSort insertionIdSort 4 2 50 sameLoser =
        some res ∧
      res.length = 2 ∧
      res.map Prod.fst = List.range 2 ∧
      (∀ i, i < 2 → ∃ rank, res[i]? = some (i, rank) ∧
        (i, rank) ∈ rankLoop 0 none
          (insertionStatsSort.run (playersOf 2 st.totalScores st.winCounts))) :=
  have h3 : ∃ p, p < 2 ∧ cumulativeTotal sameLoserScores p 4 % 2 ^ 64 ≥ 50 :=
    ⟨1, by decide, by decide⟩
  have h4 : ∀ k, 1 ≤ k → k < 4 → ∀ p, p < 2 →
      cumulativeTotal sameLoserScores p k % 2 ^ 64 < 50 := by
    intro k h1 h2 p hp
    interval_cases k <;> interval_cases p <;> decide
  ⟨⟨by decide, sameLoser_ok 4, by decide, h3, h4, by decide⟩,
    tournament_result_order insertionStatsSort insertionIdSort 2 50 sameLoser sameLoserScores
      4 4 (by decide) (sameLoser_ok 4) (by decide) h3 h4 (by decide)⟩

/-! ## Score tracking -/

/-- C29: for at least one player, at the entry of the turn loop and after every
number of turns the tracked score of every player is the size of the hand of that
player; the initial scores are the sizes of the dealt hands after the removal of the
opening card; and when the round returns, every pair (player, count) of the ranking
carries the size of the hand of that player at the end of the round. -/
theorem score_tracking (srt : StdSort (Nat × Nat) scoreLess) (nP : Nat) (deck : List Card)
    (r : Nat) (sel : Nat → Int) (hnP : 1 ≤ nP) :
    (∀ k i, i < nP →
      ∃ hand, (stateAfter nP sel (dealtRound nP deck r) k).hands[i]? = some hand ∧
        (stateAfter nP sel (dealtRound nP deck r) k).scores[i]? = some hand.length) ∧
    (dealtRound nP deck r).scores =
      (removeOpening (deal nP (startPlayer nP r) deck)).map List.length ∧
    (∀ fuel, roundFuel nP deck.length ≤ fuel →
      ∃ st res, playRound fuel nP deck r sel = some st ∧
        compute_game_progress srt fuel nP deck r sel = some res ∧
        st.scores = st.hands.map List.length ∧
        ∀ e, e ∈ res → ∃ hand, st.hands[e.1]? = some hand ∧ e.2 = hand.length) := by
  have h0 := dealtRound_WF nP deck r hnP
  refine ⟨?_, rfl, ?_⟩
  · intro k i hi
    have hwf := stateAfter_WF nP sel _ h0 k
    have hlt : i < (stateAfter nP sel (dealtRound nP deck r) k).hands.length := by
      rw [hwf.hands_len]
      exact hi
    refine ⟨(stateAfter nP sel (dealtRound nP deck r) k).hands[i],
      List.getElem?_eq_getElem hlt, ?_⟩
    rw [hwf.scores_eq, List.getElem?_map, List.getElem?_eq_getElem hlt]
    rfl
  · intro fuel hf
    obtain ⟨k, _, _, _, hres⟩ := playRound_result nP deck r sel hnP
    have hwf := stateAfter_WF nP sel _ h0 k
    have hperm := srt.perm (scoreWithId nP (stateAfter nP sel (dealtRound nP deck r) k).scores)
    refine ⟨stateAfter nP sel (dealtRound nP deck r) k,
      srt.run (scoreWithId nP (stateAfter nP sel (dealtRound nP deck r) k).scores),
      hres fuel hf, ?_, hwf.scores_eq, ?_⟩
    · unfold compute_game_progress
      rw [hres fuel hf]
      rfl
    · intro e he
      obtain ⟨hlt, hval⟩ := scoreWithId_mem nP _ e (hperm.mem_iff.1 he)
      have hlt2 : e.1 < (stateAfter nP sel (dealtRound nP deck r) k).hands.length := by
        rw [hwf.hands_len]
        exact hlt
      refine ⟨(stateAfter nP sel (dealtRound nP deck r) k).hands[e.1],
        List.getElem?_eq_getElem hlt2, ?_⟩
      rw [hval, hwf.scores_eq]
      simp [List.getD, List.getElem?_eq_getElem hlt2]

/-- Witness of C29: three players, the deck in key order, players that always return
index 0. -/
theorem score_tracking_witness :
    (1 ≤ 3) ∧
    ((∀ k i, i < 3 →
      ∃ hand, (stateAfter 3 (fun _ => 0) (dealtRound 3 standardDeck 5) k).hands[i]? =
          some hand ∧
        (stateAfter 3 (fun _ => 0) (dealtRound 3 standardDeck 5) k).scores[i]? =
          some hand.length) ∧
    (dealtRound 3 standardDeck 5).scores =
      (removeOpening (deal 3 (startPlayer 3 5) standardDeck)).map List.length ∧
    (∀ fuel, roundFuel 3 standardDeck.length ≤ fuel →
      ∃ st res, playRound fuel 3 standardDeck 5 (fun _ => 0) = some st ∧
        compute_game_progress insertionStdSort fuel 3 standardDeck 5 (fun _ => 0) = some res ∧
        st.scores = st.hands.map List.length ∧
        ∀ e, e ∈ res → ∃ hand, st.hands[e.1]? = some hand ∧ e.2 = hand.length)) :=
  ⟨by decide, score_tracking insertionStdSort 3 standardDeck 5 (fun _ => 0) (by decide)⟩


/-! ## Calls to the strategies -/

theorem turnEvents_accept (registered : List Nat) (idx : Int) (st : RoundState) (c : Card)
    (hp : st.current_player ∈ registered)
    (ha : accepted (st.hands.getD st.current_player []) idx st.table = true)
    (hc : (st.hands.getD st.current_player [])[idx.toNat]? = some c) :
    turnEvents registered idx st =
      some (Event.selectCardToPlay st.current_player ::
        registered.map (fun id => Event.observeMove id st.current_player c)) := by
  unfold turnEvents
  rw [if_pos hp, if_pos ha, hc]

theorem turnEvents_pass (registered : List Nat) (idx : Int) (st : RoundState)
    (hp : st.current_player ∈ registered)
    (ha : accepted (st.hands.getD st.current_player []) idx st.table = false) :
    turnEvents registered idx st =
      some [Event.selectCardToPlay st.current_player,
       Event.observePass st.current_player st.current_player] := by
  unfold turnEvents
  rw [if_pos hp, if_neg (by rw [ha]; exact Bool.false_ne_true)]

theorem turnEvents_unregistered (registered : List Nat) (idx : Int) (st : RoundState)
    (hp : st.current_player ∉ registered) : turnEvents registered idx st = none := by
  unfold turnEvents
  rw [if_neg hp]

theorem turnEvents_registered (registered : List Nat) (idx : Int) (st : RoundState)
    (hp : st.current_player ∈ registered) :
    ∃ calls, turnEvents registered idx st = some calls := by
  unfold turnEvents
  rw [if_pos hp]
  exact ⟨_, rfl⟩

theorem observeMove_injective (p : Nat) (c : Card) :
    Function.Injective (fun id => Event.observeMove id p c) := by
  intro a b h
  simpa using h

theorem turnEvents_not_init (registered : List Nat) (idx : Int) (st : RoundState)
    (calls : List Event) (hev : turnEvents registered idx st = some calls)
    (e : Event) (he : e ∈ calls) (a b : Nat) :
    e ≠ Event.init a b := by
  unfold turnEvents at hev
  split at hev
  · injection hev with hev
    subst hev
    rcases List.mem_cons.1 he with h | h
    · rw [h]; simp
    · split at h
      · split at h
        · obtain ⟨id, _, hid⟩ := List.mem_map.1 h
          rw [← hid]; simp
        · simp at h
      · rw [List.mem_singleton] at h
        rw [h]; simp
  · cases hev

theorem loopEvents_not_init (registered : List Nat) (nP : Nat) (sel : Nat → Int) :
    ∀ (k : Nat) (st : RoundState) (calls : List Event),
      loopEvents registered nP sel k st = some calls →
      ∀ e, e ∈ calls → ∀ a b, e ≠ Event.init a b := by
  intro k
  induction k with
  | zero =>
    intro st calls h e he
    unfold loopEvents at h
    injection h with h
    subst h
    simp at he
  | succ k ih =>
    intro st calls h e he a b
    unfold loopEvents at h
    split at h
    · injection h with h
      subst h
      simp at he
    · cases ht : turnEvents registered (sel st.turns) st with
      | none => simp only [ht] at h; cases h
      | some t =>
        cases hs : turn nP (sel st.turns) st with
        | none => simp only [ht, hs] at h; cases h
        | some st1 =>
          cases hl : loopEvents registered nP sel k st1 with
          | none => simp only [ht, hs, hl] at h; cases h
          | some rest =>
            simp only [ht, hs, hl] at h
            injection h with h
            subst h
            rcases List.mem_append.1 he with h1 | h1
            · exact turnEvents_not_init _ _ _ _ ht e h1 a b
            · exact ih st1 rest hl e h1 a b

/-- When every player below `nP` has a registered strategy, the calls of the turn
loop are defined. -/
theorem loopEvents_some (registered : List Nat) (nP : Nat) (sel : Nat → Int)
    (hreg : ∀ i, i < nP → i ∈ registered) :
    ∀ (k : Nat) (st : RoundState), WF nP st →
      ∃ calls, loopEvents registered nP sel k st = some calls := by
  intro k
  induction k with
  | zero =>
    intro st _
    exact ⟨[], rfl⟩
  | succ k ih =>
    intro st hwf
    unfold loopEvents
    by_cases hgo : st.game_over = true
    · rw [if_pos hgo]
      exact ⟨[], rfl⟩
    · rw [if_neg hgo]
      obtain ⟨t, ht⟩ := turnEvents_registered registered (sel st.turns) st
        (hreg _ hwf.cur_lt)
      obtain ⟨rest, hrest⟩ := ih (resolve nP (sel st.turns) st) (resolve_WF nP _ st hwf)
      rw [ht, turn_of_inBounds _ _ _ hwf.inBounds]
      simp only
      rw [hrest]
      exact ⟨_, rfl⟩

theorem mem_initEvents (registered : List Nat) (nP : Nat) (e : Event) :
    e ∈ initEvents registered nP ↔
      ∃ i, i < nP ∧ i ∈ registered ∧ e = Event.init i i := by
  unfold initEvents
  constructor
  · intro h
    obtain ⟨i, hi, rfl⟩ := List.mem_map.1 h
    rw [List.mem_filter, List.mem_range] at hi
    exact ⟨i, hi.1, by simpa using hi.2, rfl⟩
  · rintro ⟨i, h1, h2, rfl⟩
    refine List.mem_map.2 ⟨i, ?_, rfl⟩
    rw [List.mem_filter, List.mem_range]
    exact ⟨h1, by simpa using h2⟩

theorem initEvents_nodup (registered : List Nat) (nP : Nat) :
    (initEvents registered nP).Nodup := by
  unfold initEvents
  refine List.Nodup.map ?_ (List.Nodup.filter _ (List.nodup_range nP))
  intro a b h
  simp at h
  exact h

theorem initEvents_succ (registered : List Nat) (n : Nat) :
    initEvents registered (n + 1) =
      if n ∈ registered then initEvents registered n ++ [Event.init n n]
      else initEvents registered n := by
  unfold initEvents
  rw [List.range_succ, List.filter_append, List.map_append]
  by_cases h : n ∈ registered
  · rw [if_pos h, List.filter_cons_of_pos (by simpa using h)]
    rfl
  · rw [if_neg h, List.filter_cons_of_neg (by simpa using h)]
    simp

/-- The initialisation loop after `n` of its iterations: the first `n` scores are
the sizes of the hands and the calls are those of `initEvents`. -/
theorem initLoop_prefix (registered : List Nat) (hands : List (List Card)) (nP : Nat) :
    ∀ n, n ≤ nP →
      ((List.range n).foldl
        (fun (acc : List Nat × List Event) i =>
          (acc.1.set i (hands.getD i []).length,
            if i ∈ registered then acc.2 ++ [Event.init i i] else acc.2))
        (List.replicate nP 0, [])).1.length = nP ∧
      (∀ j, ((List.range n).foldl
        (fun (acc : List Nat × List Event) i =>
          (acc.1.set i (hands.getD i []).length,
            if i ∈ registered then acc.2 ++ [Event.init i i] else acc.2))
        (List.replicate nP 0, [])).1.getD j 0 =
          if j < n then (hands.getD j []).length else 0) ∧
      ((List.range n).foldl
        (fun (acc : List Nat × List Event) i =>
          (acc.1.set i (hands.getD i []).length,
            if i ∈ registered then acc.2 ++ [Event.init i i] else acc.2))
        (List.replicate nP 0, [])).2 = initEvents registered n := by
  intro n
  induction n with
  | zero =>
    intro _
    refine ⟨by simp, ?_, rfl⟩
    intro j
    simp only [List.range_zero, List.foldl_nil, List.getD_eq_getElem?_getD,
      List.getElem?_replicate, Nat.not_lt_zero, if_false]
    split <;> rfl
  | succ n ih =>
    intro hn
    obtain ⟨h1, h2, h3⟩ := ih (by omega)
    rw [List.range_succ, List.foldl_append]
    simp only [List.foldl_cons, List.foldl_nil]
    refine ⟨by rw [List.length_set]; exact h1, ?_, ?_⟩
    · intro j
      by_cases hj : n = j
      · subst hj
        rw [List.getD_eq_getElem?_getD, List.getElem?_set_self (by rw [h1]; omega),
          if_pos (Nat.lt_succ_self _)]
        rfl
      · rw [List.getD_eq_getElem?_getD, List.getElem?_set_ne hj,
          ← List.getD_eq_getElem?_getD, h2 j]
        by_cases hlt : j < n
        · rw [if_pos hlt, if_pos (by omega)]
        · rw [if_neg hlt, if_neg (by omega)]
    · rw [h3, initEvents_succ]

/-- The initialisation loop run on hands of `nP` players returns their sizes as
scores, and its calls are one `initialize(i)` per registered `i < nP`, in
increasing order of `i`. -/
theorem initLoop_spec (registered : List Nat) (hands : List (List Card)) (nP : Nat)
    (hl : hands.length = nP) :
    initLoop registered hands nP = (hands.map List.length, initEvents registered nP) := by
  obtain ⟨h1, h2, h3⟩ := initLoop_prefix registered hands nP nP (le_refl nP)
  unfold initLoop
  refine Prod.ext ?_ h3
  apply list_eq_of_getD _ _ nP h1 (by rw [List.length_map]; exact hl)
  intro p hp
  rw [h2 p, if_pos hp]
  show _ = (hands.map List.length).getD p 0
  rw [List.getD_eq_getElem?_getD, List.getD_eq_getElem?_getD, List.getElem?_map,
    List.getElem?_eq_getElem (by rw [hl]; exact hp)]
  rfl

/-- In a list made of `initialize` calls followed by calls that are not, every
`initialize` stands before every other call. -/
theorem init_calls_first (A B : List Event)
    (hA : ∀ e, e ∈ A → ∃ a b, e = Event.init a b)
    (hB : ∀ e, e ∈ B → ∀ a b, e ≠ Event.init a b)
    (i j a b : Nat) (e : Event) (hi : (A ++ B)[i]? = some (Event.init a b))
    (hj : (A ++ B)[j]? = some e) (he : ∀ c d, e ≠ Event.init c d) : i < j := by
  have h1 : i < A.length := by
    by_contra hge
    rw [List.getElem?_append_right (by omega)] at hi
    exact hB _ (List.mem_iff_getElem?.2 ⟨_, hi⟩) a b rfl
  have h2 : A.length ≤ j := by
    by_contra hlt
    rw [List.getElem?_append_left (by omega)] at hj
    obtain ⟨c, d, hcd⟩ := hA _ (List.mem_iff_getElem?.2 ⟨_, hj⟩)
    exact he c d hcd
  omega

/-- C21: on a turn of a player `p` with a registered strategy the calls are defined.
On an accepted move of card `c` by `p`, every registered strategy, the one of `p`
included, receives exactly one `observeMove(p, c)`, and the calls of the turn are
only the `selectCardToPlay` of `p` and these notifications, so that no
`observePass` is sent; on a pass the calls of the turn are the `selectCardToPlay`
of `p` followed by one `observePass(p)` to the strategy of `p`, and no other
strategy is called. -/
theorem observation_protocol (registered : List Nat) (idx : Int) (st : RoundState)
    (hnd : registered.Nodup) (hp : st.current_player ∈ registered) :
    ∃ calls, turnEvents registered idx st = some calls ∧
    (∀ c, accepted (st.hands.getD st.current_player []) idx st.table = true →
        (st.hands.getD st.current_player [])[idx.toNat]? = some c →
        (∀ id, id ∈ registered →
          calls.count (Event.observeMove id st.current_player c) = 1) ∧
        calls.count (Event.observeMove st.current_player st.current_player c) = 1 ∧
        (∀ e, e ∈ calls →
          e = Event.selectCardToPlay st.current_player ∨
          ∃ id, id ∈ registered ∧ e = Event.observeMove id st.current_player c) ∧
        (∀ a b, Event.observePass a b ∉ calls)) ∧
    (accepted (st.hands.getD st.current_player []) idx st.table = false →
        calls =
          [Event.selectCardToPlay st.current_player,
           Event.observePass st.current_player st.current_player] ∧
        calls.count (Event.observePass st.current_player st.current_player) = 1 ∧
        (∀ a b c, Event.observeMove a b c ∉ calls) ∧
        (∀ a b, Event.observePass a b ∈ calls →
          a = st.current_player ∧ b = st.current_player)) := by
  obtain ⟨calls, hcalls⟩ := turnEvents_registered registered idx st hp
  refine ⟨calls, hcalls, ?_, ?_⟩
  · intro c ha hc
    have hev : calls = Event.selectCardToPlay st.current_player ::
        registered.map (fun id => Event.observeMove id st.current_player c) :=
      Option.some.inj (hcalls.symm.trans (turnEvents_accept registered idx st c hp ha hc))
    have hcount : ∀ id, id ∈ registered →
        calls.count (Event.observeMove id st.current_player c) = 1 := by
      intro id hid
      rw [hev, List.count_cons_of_ne (by simp)]
      exact List.count_eq_one_of_mem
        (List.Nodup.map (observeMove_injective st.current_player c) hnd)
        (List.mem_map.2 ⟨id, hid, rfl⟩)
    refine ⟨hcount, hcount _ hp, ?_, ?_⟩
    · intro e he
      rw [hev] at he
      rcases List.mem_cons.1 he with h | h
      · exact Or.inl h
      · obtain ⟨id, hid, h2⟩ := List.mem_map.1 h
        exact Or.inr ⟨id, hid, h2.symm⟩
    · intro a b he
      rw [hev] at he
      rcases List.mem_cons.1 he with h | h
      · simp at h
      · obtain ⟨id, _, h2⟩ := List.mem_map.1 h
        simp at h2
  · intro ha
    have hev : calls = [Event.selectCardToPlay st.current_player,
        Event.observePass st.current_player st.current_player] :=
      Option.some.inj (hcalls.symm.trans (turnEvents_pass registered idx st hp ha))
    refine ⟨hev, ?_, ?_, ?_⟩
    · rw [hev]; simp
    · intro a b c he
      rw [hev] at he
      simp at he
    · intro a b he
      rw [hev] at he
      simpa using he

/-- Witness of C21: the turn of player 0 in `exampleState` with the strategies 0
and 1 registered and the returned index 0. -/
theorem observation_protocol_witness :
    (([0, 1] : List Nat).Nodup ∧ exampleState.current_player ∈ ([0, 1] : List Nat)) ∧
    ∃ calls, turnEvents [0, 1] 0 exampleState = some calls ∧
    (∀ c, accepted (exampleState.hands.getD exampleState.current_player []) 0
          exampleState.table = true →
        (exampleState.hands.getD exampleState.current_player [])[(0 : Int).toNat]? = some c →
        (∀ id, id ∈ ([0, 1] : List Nat) →
          calls.count (Event.observeMove id exampleState.current_player c) = 1) ∧
        calls.count
            (Event.observeMove exampleState.current_player exampleState.current_player c)
              = 1 ∧
        (∀ e, e ∈ calls →
          e = Event.selectCardToPlay exampleState.current_player ∨
          ∃ id, id ∈ ([0, 1] : List Nat) ∧
            e = Event.observeMove id exampleState.current_player c) ∧
        (∀ a b, Event.observePass a b ∉ calls)) ∧
    (accepted (exampleState.hands.getD exampleState.current_player []) 0
          exampleState.table = false →
        calls =
          [Event.selectCardToPlay exampleState.current_player,
           Event.observePass exampleState.current_player exampleState.current_player] ∧
        calls.count
          (Event.observePass exampleState.current_player exampleState.current_player) = 1 ∧
        (∀ a b c, Event.observeMove a b c ∉ calls) ∧
        (∀ a b, Event.observePass a b ∈ calls →
          a = exampleState.current_player ∧ b = exampleState.current_player)) :=
  ⟨⟨by decide, by decide⟩,
    observation_protocol [0, 1] 0 exampleState (by decide) (by decide)⟩

/-- C30: in a round with `nP ≥ 1` players who all have a registered strategy, the
calls to the strategies are defined: they are the calls of the initialisation loop
followed by those of the turn loop. The initialisation loop runs on the dealt hands
(it is the loop that reads their sizes into the scores of the round, after the
removal of the opening card); each strategy registered under an id `i < nP`
receives exactly one `initialize(i)` in the round, no other `initialize` is called,
no call of the turn loop is an `initialize`, and every `initialize` stands in the
list of calls before every `selectCardToPlay`, `observeMove` and `observePass`. -/
theorem per_round_initialisation (registered : List Nat) (nP : Nat) (deck : List Card)
    (r : Nat) (sel : Nat → Int) (k : Nat) (hnP : 1 ≤ nP)
    (hreg : ∀ i, i < nP → i ∈ registered) :
    initLoop registered (dealtRound nP deck r).hands nP =
      ((dealtRound nP deck r).scores, initEvents registered nP) ∧
    ∃ calls loopCalls,
      roundEvents registered nP deck r sel k = some calls ∧
      loopEvents registered nP sel k (dealtRound nP deck r) = some loopCalls ∧
      calls = (initLoop registered (dealtRound nP deck r).hands nP).2 ++ loopCalls ∧
      (∀ i, i < nP → calls.count (Event.init i i) = 1) ∧
      (∀ a b, Event.init a b ∈ calls → a = b ∧ a < nP) ∧
      (∀ e, e ∈ loopCalls → ∀ a b, e ≠ Event.init a b) ∧
      (∀ (i j a b : Nat) (e : Event), calls[i]? = some (Event.init a b) →
        calls[j]? = some e → (∀ c d, e ≠ Event.init c d) → i < j) := by
  have hwf := dealtRound_WF nP deck r (by omega)
  have hinit : initLoop registered (dealtRound nP deck r).hands nP =
      ((dealtRound nP deck r).scores, initEvents registered nP) := by
    rw [initLoop_spec registered _ nP hwf.hands_len, hwf.scores_eq]
  obtain ⟨loopCalls, hloop⟩ := loopEvents_some registered nP sel hreg k _ hwf
  have hnot := loopEvents_not_init registered nP sel k _ loopCalls hloop
  have hinit2 : (initLoop registered (dealtRound nP deck r).hands nP).2 =
      initEvents registered nP := by rw [hinit]
  refine ⟨hinit, initEvents registered nP ++ loopCalls, loopCalls, ?_, hloop, ?_, ?_, ?_,
    hnot, ?_⟩
  · unfold roundEvents
    rw [hloop, hinit2]
  · rw [hinit2]
  · intro i hi
    rw [List.count_append,
      List.count_eq_one_of_mem (initEvents_nodup registered nP)
        ((mem_initEvents registered nP _).2 ⟨i, hi, hreg i hi, rfl⟩),
      List.count_eq_zero_of_not_mem]
    intro h
    exact hnot _ h i i rfl
  · intro a b h
    rcases List.mem_append.1 h with h | h
    · obtain ⟨i, h1, _, h3⟩ := (mem_initEvents registered nP _).1 h
      simp at h3
      obtain ⟨rfl, rfl⟩ := h3
      exact ⟨rfl, h1⟩
    · exact absurd rfl (hnot _ h a b)
  · intro i j a b e hi hj he
    refine init_calls_first (initEvents registered nP) loopCalls ?_ hnot i j a b e hi hj he
    intro x hx
    obtain ⟨n, _, _, h3⟩ := (mem_initEvents registered nP _).1 hx
    exact ⟨n, n, h3⟩

/-- Witness of C30: two players who always pass, the strategies registered under
the keys 0, 1 and 5; the strategy of key 5 is not a player and receives no
`initialize`. With the keys 0 and 2 the turn of player 1 has no strategy and the
calls of the round are not defined. -/
theorem per_round_initialisation_witness :
    (1 ≤ 2 ∧ ∀ i, i < 2 → i ∈ ([0, 1, 5] : List Nat)) ∧
    roundEvents [0, 1, 5] 2 standardDeck 0 (fun _ => -1) 2 =
      some [Event.init 0 0, Event.init 1 1, Event.selectCardToPlay 1,
        Event.observePass 1 1, Event.selectCardToPlay 0, Event.observePass 0 0] ∧
    roundEvents [0, 2] 2 standardDeck 0 (fun _ => -1) 2 = none ∧
    (initLoop [0, 1, 5] (dealtRound 2 standardDeck 0).hands 2 =
      ((dealtRound 2 standardDeck 0).scores, initEvents [0, 1, 5] 2) ∧
    ∃ calls loopCalls,
      roundEvents [0, 1, 5] 2 standardDeck 0 (fun _ => -1) 2 = some calls ∧
      loopEvents [0, 1, 5] 2 (fun _ => -1) 2 (dealtRound 2 standardDeck 0) =
        some loopCalls ∧
      calls = (initLoop [0, 1, 5] (dealtRound 2 standardDeck 0).hands 2).2 ++ loopCalls ∧
      (∀ i, i < 2 → calls.count (Event.init i i) = 1) ∧
      (∀ a b, Event.init a b ∈ calls → a = b ∧ a < 2) ∧
      (∀ e, e ∈ loopCalls → ∀ a b, e ≠ Event.init a b) ∧
      (∀ (i j a b : Nat) (e : Event), calls[i]? = some (Event.init a b) →
        calls[j]? = some e → (∀ c d, e ≠ Event.init c d) → i < j)) :=
  ⟨⟨by decide, by decide⟩, by decide, by decide,
    per_round_initialisation [0, 1, 5] 2 standardDeck 0 (fun _ => -1) 2 (by decide)
      (by decide)⟩

/-! ## Callbacks that throw -/

theorem broadcastMove_of_find (throws : Nat → Bool) (id : Nat) :
    ∀ l : List Nat, l.find? throws = some id →
      broadcastMove throws l = (l.takeWhile (fun x => !throws x) ++ [id], true) := by
  intro l
  induction l with
  | nil => intro h; simp at h
  | cons x xs ih =>
    intro h
    by_cases hx : throws x = true
    · rw [List.find?_cons_of_pos _ hx] at h
      injection h with h
      subst h
      simp [broadcastMove, hx]
    · have hx2 : throws x = false := by simpa using hx
      rw [List.find?_cons_of_neg _ hx] at h
      simp [broadcastMove, hx2, ih h]

theorem broadcastMove_of_quiet (throws : Nat → Bool) :
    ∀ l : List Nat, l.find? throws = none → broadcastMove throws l = (l, false) := by
  intro l
  induction l with
  | nil => intro _; rfl
  | cons x xs ih =>
    intro h
    by_cases hx : throws x = true
    · rw [List.find?_cons_of_pos _ hx] at h
      simp at h
    · have hx2 : throws x = false := by simpa using hx
      rw [List.find?_cons_of_neg _ hx] at h
      simp [broadcastMove, hx2, ih h]

theorem resolveObserved_of_quiet (nP : Nat) (registered : List Nat) (throws : Nat → Bool)
    (idx : Int) (st : RoundState) (hq : ∀ id, throws id = false) :
    resolveObserved nP registered throws idx st = Outcome.returned (resolve nP idx st) := by
  have hf : registered.find? throws = none := by
    rw [List.find?_eq_none]
    intro x _
    simp [hq x]
  unfold resolveObserved
  rw [hf, hq]
  simp

theorem turnLoopObserved_quiet (nP : Nat) (registered : List Nat)
    (throws : Nat → Nat → Bool) (sel : Nat → Int) (hq : ∀ k id, throws k id = false) :
    ∀ (fuel : Nat) (st : RoundState),
      turnLoopObserved nP registered throws sel fuel st =
        (turnLoop nP sel fuel st).map Outcome.returned := by
  intro fuel
  induction fuel with
  | zero =>
    intro st
    unfold turnLoopObserved turnLoop
    by_cases h : st.game_over = true
    · simp [h]
    · simp [h]
  | succ n ih =>
    intro st
    unfold turnLoopObserved turnLoop
    by_cases h : st.game_over = true
    · simp [h]
    · rw [if_neg h, if_neg h]
      by_cases hb : inBounds nP st = true
      · rw [if_pos hb, resolveObserved_of_quiet _ _ _ _ _ (hq st.turns), turn_of_inBounds _ _ _ hb]
        exact ih _
      · rw [if_neg hb]
        unfold turn
        rw [if_neg hb]
        rfl

theorem turnLoopObserved_throw (nP : Nat) (registered : List Nat)
    (throws : Nat → Nat → Bool) (sel : Nat → Int) (id : Nat) :
    ∀ (k : Nat) (st0 : RoundState), WF nP st0 →
      (∀ j, j ≤ k → (stateAfter nP sel st0 j).game_over = false) →
      (∀ j, j < k →
        resolveObserved nP registered (throws (stateAfter nP sel st0 j).turns)
          (sel (stateAfter nP sel st0 j).turns) (stateAfter nP sel st0 j) =
        Outcome.returned
          (resolve nP (sel (stateAfter nP sel st0 j).turns) (stateAfter nP sel st0 j))) →
      resolveObserved nP registered (throws (stateAfter nP sel st0 k).turns)
          (sel (stateAfter nP sel st0 k).turns) (stateAfter nP sel st0 k) =
        Outcome.threw id →
      ∀ fuel, k < fuel →
        turnLoopObserved nP registered throws sel fuel st0 = some (Outcome.threw id) := by
  intro k
  induction k with
  | zero =>
    intro st0 h0 hgo _ hthrow fuel hf
    obtain ⟨f, rfl⟩ : ∃ f, fuel = f + 1 := ⟨fuel - 1, by omega⟩
    have hg : st0.game_over = false := hgo 0 (Nat.le_refl 0)
    have hthrow0 : resolveObserved nP registered (throws st0.turns) (sel st0.turns) st0 =
        Outcome.threw id := hthrow
    unfold turnLoopObserved
    rw [if_neg (by rw [hg]; exact Bool.false_ne_true), if_pos h0.inBounds, hthrow0]
  | succ k ih =>
    intro st0 h0 hgo hret hthrow fuel hf
    obtain ⟨f, rfl⟩ : ∃ f, fuel = f + 1 := ⟨fuel - 1, by omega⟩
    have hg : st0.game_over = false := hgo 0 (Nat.zero_le _)
    have hret0 : resolveObserved nP registered (throws st0.turns) (sel st0.turns) st0 =
        Outcome.returned (resolve nP (sel st0.turns) st0) := hret 0 (Nat.succ_pos k)
    have hsh : ∀ j, stateAfter nP sel st0 (j + 1) =
        stateAfter nP sel (resolve nP (sel st0.turns) st0) j :=
      fun j => stateAfter_shift nP sel st0 h0 hg j
    unfold turnLoopObserved
    rw [if_neg (by rw [hg]; exact Bool.false_ne_true), if_pos h0.inBounds, hret0]
    refine ih (resolve nP (sel st0.turns) st0) (resolve_WF nP _ st0 h0) ?_ ?_ ?_ f (by omega)
    · intro j hj
      rw [← hsh]
      exact hgo (j + 1) (by omega)
    · intro j hj
      rw [← hsh]
      exact hret (j + 1) (by omega)
    · rw [← hsh]
      exact hthrow


/-- C22, counterexample: two strategies registered under 0 and 1, and the
observation callbacks of strategy 0 throw. An accepted move of player 0 in
`exampleState` is left by the exception before strategy 1 is called and before the
hand is updated, and a round of the standard deck in which both players pass ends
with the exception of strategy 0 instead of the ranking that the same round gives
without exception. -/
theorem observer_failure_aborts :
    accepted (exampleState.hands.getD exampleState.current_player []) 0
      exampleState.table = true ∧
    resolveObserved 2 [0, 1] (fun id => decide (id = 0)) 0 exampleState =
      Outcome.threw 0 ∧
    broadcastMove (fun id => decide (id = 0)) [0, 1] = ([0], true) ∧
    compute_game_progress_observed insertionStdSort 200 2 standardDeck 0 (fun _ => -1)
      [0, 1] (fun _ id => decide (id = 0)) = some (Outcome.threw 0) ∧
    compute_game_progress insertionStdSort 200 2 standardDeck 0 (fun _ => -1) =
      some [(0, 25), (1, 26)] := by
  refine ⟨by decide, ?_, by decide, by decide, by decide⟩
  unfold resolveObserved
  rw [if_pos (by decide)]
  rfl

/-- C22, amended: observer failures are fatal. On an accepted move the first
strategy whose `observeMove` throws ends the turn, the strategies after it in the
iteration order are not called; on a pass a throwing `observePass` ends the turn;
an exception in the iteration `k` of the turn loop makes `compute_game_progress`
end with that exception, without ranking; and when no callback throws the function
returns the ranking of `compute_game_progress`. -/
theorem observer_failure_propagates (srt : StdSort (Nat × Nat) scoreLess) (nP : Nat)
    (registered : List Nat) (throws : Nat → Nat → Bool) (sel : Nat → Int) :
    (∀ (idx : Int) (st : RoundState) (id : Nat),
      accepted (st.hands.getD st.current_player []) idx st.table = true →
      registered.find? (throws st.turns) = some id →
      resolveObserved nP registered (throws st.turns) idx st = Outcome.threw id ∧
      broadcastMove (throws st.turns) registered =
        (registered.takeWhile (fun x => !throws st.turns x) ++ [id], true)) ∧
    (∀ (idx : Int) (st : RoundState),
      accepted (st.hands.getD st.current_player []) idx st.table = false →
      throws st.turns st.current_player = true →
      resolveObserved nP registered (throws st.turns) idx st =
        Outcome.threw st.current_player) ∧
    (∀ (deck : List Card) (r k id : Nat), 1 ≤ nP →
      (∀ j, j ≤ k → (stateAfter nP sel (dealtRound nP deck r) j).game_over = false) →
      (∀ j, j < k →
        resolveObserved nP registered
          (throws (stateAfter nP sel (dealtRound nP deck r) j).turns)
          (sel (stateAfter nP sel (dealtRound nP deck r) j).turns)
          (stateAfter nP sel (dealtRound nP deck r) j) =
        Outcome.returned
          (resolve nP (sel (stateAfter nP sel (dealtRound nP deck r) j).turns)
            (stateAfter nP sel (dealtRound nP deck r) j))) →
      resolveObserved nP registered
          (throws (stateAfter nP sel (dealtRound nP deck r) k).turns)
          (sel (stateAfter nP sel (dealtRound nP deck r) k).turns)
          (stateAfter nP sel (dealtRound nP deck r) k) = Outcome.threw id →
      ∀ fuel, k < fuel →
        compute_game_progress_observed srt fuel nP deck r sel registered throws =
          some (Outcome.threw id)) ∧
    ((∀ k id, throws k id = false) →
      ∀ (fuel : Nat) (deck : List Card) (r : Nat),
        compute_game_progress_observed srt fuel nP deck r sel registered throws =
          (compute_game_progress srt fuel nP deck r sel).map Outcome.returned) := by
  refine ⟨?_, ?_, ?_, ?_⟩
  · intro idx st id ha hf
    refine ⟨?_, broadcastMove_of_find _ _ _ hf⟩
    unfold resolveObserved
    rw [if_pos ha, hf]
  · intro idx st ha ht
    unfold resolveObserved
    rw [if_neg (by rw [ha]; exact Bool.false_ne_true), if_pos ht]
  · intro deck r k id hnP hgo hret hthrow fuel hf
    have hloop := turnLoopObserved_throw nP registered throws sel id k
      (dealtRound nP deck r) (dealtRound_WF nP deck r (by omega)) hgo hret hthrow fuel hf
    unfold compute_game_progress_observed
    rw [if_neg (by omega), hloop]
  · intro hq fuel deck r
    unfold compute_game_progress_observed compute_game_progress playRound
    by_cases hn : nP = 0
    · rw [if_pos hn, if_pos hn]
      rfl
    · rw [if_neg hn, if_neg hn, turnLoopObserved_quiet nP registered throws sel hq]
      cases turnLoop nP sel fuel (dealtRound nP deck r) with
      | none => rfl
      | some st => rfl

theorem observer_failure_propagates_witness :
    resolveObserved 2 [0, 1] (fun id => decide (id = 1)) 0 exampleState =
      Outcome.threw 1 ∧
    broadcastMove (fun id => decide (id = 1)) [0, 1] = ([0, 1], true) ∧
    resolveObserved 2 [0, 1] (fun id => decide (id = 0)) (-1) exampleState =
      Outcome.threw 0 ∧
    compute_game_progress_observed insertionStdSort 5 2 standardDeck 0 (fun _ => -1)
      [0, 1] (fun _ id => decide (id = 1)) = some (Outcome.threw 1) ∧
    compute_game_progress_observed insertionStdSort 200 2 standardDeck 0 (fun _ => -1)
      [0, 1] (fun _ _ => false) =
      (compute_game_progress insertionStdSort 200 2 standardDeck 0
        (fun _ => -1)).map Outcome.returned := by
  have h := observer_failure_propagates insertionStdSort 2 [0, 1]
    (fun _ id => decide (id = 1)) (fun _ => -1)
  have h1 := h.1 0 exampleState 1 (by decide) (by decide)
  have h2 := (observer_failure_propagates insertionStdSort 2 [0, 1]
    (fun _ id => decide (id = 0)) (fun _ => -1)).2.1 (-1) exampleState (by decide)
    (by decide)
  have h3 := h.2.2.1 standardDeck 0 0 1 (by decide)
    (fun j hj => by
      obtain rfl : j = 0 := by omega
      rfl)
    (fun j hj => absurd hj (Nat.not_lt_zero j))
    (by
      show resolveObserved 2 [0, 1] (fun id => decide (id = 1)) (-1)
        (dealtRound 2 standardDeck 0) = Outcome.threw 1
      unfold resolveObserved
      rw [if_neg (by decide)]
      rfl)
    5 (by decide)
  have h4 := (observer_failure_propagates insertionStdSort 2 [0, 1]
    (fun _ _ => false) (fun _ => -1)).2.2.2 (fun _ _ => rfl) 200 standardDeck 0
  exact ⟨h1.1, h1.2, h2, h3, h4⟩


/-! ## A deck without the opening card -/

theorem removeOpening_of_absent (hands : List (List Card))
    (h : ∀ hand, hand ∈ hands → ∀ c, c ∈ hand → isOpening c = false) :
    removeOpening hands = hands := by
  induction hands with
  | nil => rfl
  | cons x xs ih =>
    have hx : ¬ (x.any isOpening = true) := by
      intro hx
      obtain ⟨c, hc, hp⟩ := List.any_eq_true.1 hx
      rw [h x (List.mem_cons_self x xs) c hc] at hp
      exact Bool.false_ne_true hp
    simp only [removeOpening]
    rw [if_neg hx, ih (fun hand hm => h hand (List.mem_cons_of_mem x hm))]

theorem mem_deck_of_dealt (nP start : Nat) (deck : List Card) (hnP : 0 < nP)
    (hand : List Card) (hh : hand ∈ deal nP start deck) (c : Card) (hc : c ∈ hand) :
    c ∈ deck :=
  (deal_spec nP start deck hnP).2.mem_iff.1 (List.mem_flatten.2 ⟨hand, hh, hc⟩)

theorem stateAfter_turns (nP : Nat) (sel : Nat → Int) (st0 : RoundState) (h0 : WF nP st0) :
    ∀ k, (∀ j, j < k → (stateAfter nP sel st0 j).game_over = false) →
      (stateAfter nP sel st0 k).turns = st0.turns + k := by
  intro k
  induction k with
  | zero => intro _; rfl
  | succ k ih =>
    intro h
    rw [stateAfter_succ_of_WF nP sel st0 k (stateAfter_WF nP sel st0 h0 k)
      (h k (Nat.lt_succ_self k))]
    show (stateAfter nP sel st0 k).turns + 1 = st0.turns + (k + 1)
    rw [ih (fun j hj => h j (by omega))]
    omega

/-- C23, counterexample: the standard deck without the 7 of suit 2 is dealt to two
players. No hand holds the opening card while the table has it marked, and the
round is played without any error: player 1 plays the 6 of suit 2 next to the
marked 7, both players then pass, and a ranking is returned after three turns. -/
theorem opening_mismatch_is_played :
    (⟨2, 7⟩ : Card) ∉ standardDeck.erase ⟨2, 7⟩ ∧
    (∀ hand, hand ∈ (dealtRound 2 (standardDeck.erase ⟨2, 7⟩) 0).hands →
      (⟨2, 7⟩ : Card) ∉ hand) ∧
    isOn (dealtRound 2 (standardDeck.erase ⟨2, 7⟩) 0).table 2 7 = true ∧
    (playRound 200 2 (standardDeck.erase ⟨2, 7⟩) 0
      (fun k => if k = 0 then 15 else -1)).map (fun st => (st.turns, st.moves)) =
      some (3, 1) ∧
    compute_game_progress insertionStdSort 200 2 (standardDeck.erase ⟨2, 7⟩) 0
      (fun k => if k = 0 then 15 else -1) = some [(1, 24), (0, 26)] := by
  refine ⟨by decide, by decide, by decide, by decide, by decide⟩

/-- C23, amended: when the deck handed to the dealing step does not contain the
opening card (2, 7), no card is removed from the dealt hands, the table still has
the 7 of suit 2 marked, and the round is played as usual: with enough fuel the turn
loop takes at least one turn and a ranking of the `nP` players is returned. -/
theorem opening_card_mismatch (srt : StdSort (Nat × Nat) scoreLess) (nP : Nat)
    (deck : List Card) (r : Nat) (sel : Nat → Int) (hnP : 1 ≤ nP)
    (hno : (⟨2, 7⟩ : Card) ∉ deck) :
    (dealtRound nP deck r).hands = deal nP (startPlayer nP r) deck ∧
    cardsHeld (dealtRound nP deck r) = deck.length ∧
    isOn (dealtRound nP deck r).table 2 7 = true ∧
    ∀ fuel, roundFuel nP deck.length ≤ fuel →
      ∃ st res, playRound fuel nP deck r sel = some st ∧ 1 ≤ st.turns ∧
        compute_game_progress srt fuel nP deck r sel = some res ∧
        res.length = nP := by
  have hrem : removeOpening (deal nP (startPlayer nP r) deck) =
      deal nP (startPlayer nP r) deck := by
    apply removeOpening_of_absent
    intro hand hh c hc
    cases hb : isOpening c with
    | false => rfl
    | true =>
      rw [isOpening_iff] at hb
      subst hb
      exact absurd (mem_deck_of_dealt nP _ deck (by omega) hand hh _ hc) hno
  have hhands : (dealtRound nP deck r).hands = deal nP (startPlayer nP r) deck := by
    unfold dealtRound
    rw [hrem]
    rfl
  have htab : isOn (dealtRound nP deck r).table 2 7 = true := by
    show isOn read_game 2 7 = true
    decide
  refine ⟨hhands, ?_, htab, ?_⟩
  · unfold cardsHeld
    rw [hhands, ← List.length_flatten]
    exact (deal_spec nP _ deck (by omega)).2.length_eq
  · intro fuel hf
    obtain ⟨k, _, hover, hbefore, hplay⟩ := playRound_result nP deck r sel (by omega)
    have hk : 1 ≤ k := by
      rcases Nat.eq_zero_or_pos k with h | h
      · subst h
        have h0 : (dealtRound nP deck r).game_over = false := rfl
        have h1 : (dealtRound nP deck r).game_over = true := hover
        rw [h0] at h1
        exact absurd h1 Bool.false_ne_true
      · exact h
    have hturns := stateAfter_turns nP sel (dealtRound nP deck r)
      (dealtRound_WF nP deck r (by omega)) k hbefore
    have ht0 : (dealtRound nP deck r).turns = 0 := rfl
    refine ⟨stateAfter nP sel (dealtRound nP deck r) k,
      srt.run (scoreWithId nP (stateAfter nP sel (dealtRound nP deck r) k).scores),
      hplay fuel hf, by omega, ?_, ?_⟩
    · unfold compute_game_progress
      rw [hplay fuel hf]
      rfl
    · rw [(srt.perm _).length_eq]
      unfold scoreWithId
      simp

theorem opening_card_mismatch_witness :
    1 ≤ 3 ∧ (⟨2, 7⟩ : Card) ∉ standardDeck.erase ⟨2, 7⟩ ∧
    (dealtRound 3 (standardDeck.erase ⟨2, 7⟩) 4).hands =
      deal 3 (startPlayer 3 4) (standardDeck.erase ⟨2, 7⟩) ∧
    cardsHeld (dealtRound 3 (standardDeck.erase ⟨2, 7⟩) 4) =
      (standardDeck.erase ⟨2, 7⟩).length ∧
    isOn (dealtRound 3 (standardDeck.erase ⟨2, 7⟩) 4).table 2 7 = true ∧
    ∀ fuel, roundFuel 3 (standardDeck.erase ⟨2, 7⟩).length ≤ fuel →
      ∃ st res, playRound fuel 3 (standardDeck.erase ⟨2, 7⟩) 4 (fun _ => 0) = some st ∧
        1 ≤ st.turns ∧
        compute_game_progress insertionStdSort fuel 3 (standardDeck.erase ⟨2, 7⟩) 4
          (fun _ => 0) = some res ∧
        res.length = 3 :=
  ⟨by decide, by decide,
    opening_card_mismatch insertionStdSort 3 (standardDeck.erase ⟨2, 7⟩) 4 (fun _ => 0)
      (by decide) (by decide)⟩


/-! ## Loading a strategy from a shared library -/

/-- The three messages of `loadFromLibrary` differ by their first character, whatever
the path and the texts appended. -/
theorem load_messages_distinct (p1 e1 e2 p3 : String) :
    "Impossible de charger la bibliothèque : " ++ p1 ++ "\nErreur : " ++ e1 ≠
      "Erreur lors du chargement de createStrategy : " ++ e2 ∧
    "Impossible de charger la bibliothèque : " ++ p1 ++ "\nErreur : " ++ e1 ≠
      "Échec de la création de la stratégie depuis " ++ p3 ∧
    "Erreur lors du chargement de createStrategy : " ++ e2 ≠
      "Échec de la création de la stratégie depuis " ++ p3 := by
  refine ⟨?_, ?_, ?_⟩
  · intro h
    have h2 := congrArg (fun s => s.data.head?) h
    simp [String.data_append] at h2
  · intro h
    have h2 := congrArg (fun s => s.data.head?) h
    simp [String.data_append] at h2
  · intro h
    have h2 := congrArg (fun s => s.data.head?) h
    simp [String.data_append] at h2

/-- C24: `loadFromLibrary` returns a strategy exactly when the library opens, the
symbol `createStrategy` resolves in it and the factory returns a non-null instance,
and the strategy returned is that instance; in the three other cases it throws, with
a message that depends on the cause: the message starts with a text proper to the
cause, followed by the path and the text of `dlerror()` (library not opened), by
what is read in the buffer of `dlerror()` after `dlclose` (symbol not found) or by
the path (null instance), and the three messages are different from one another
whatever the texts that follow; when it throws, the loading loop of `main` leaves
the registered strategies unchanged, and otherwise it registers the instance. -/
theorem plugin_loading {Handle Strategy : Type} (dl : DynamicLoader Handle Strategy)
    (libraryPath : String) :
    (∀ s, loadFromLibrary dl libraryPath = Except.ok s ↔
      ∃ handle create, dl.dlopen libraryPath = Except.ok handle ∧
        dl.dlsym handle "createStrategy" = Except.ok create ∧ create () = some s) ∧
    (∀ err, dl.dlopen libraryPath = Except.error err →
      loadFromLibrary dl libraryPath = Except.error
        ("Impossible de charger la bibliothèque : " ++ libraryPath ++ "\nErreur : " ++
          err)) ∧
    (∀ handle error, dl.dlopen libraryPath = Except.ok handle →
      dl.dlsym handle "createStrategy" = Except.error error →
      loadFromLibrary dl libraryPath = Except.error
        ("Erreur lors du chargement de createStrategy : " ++
          dl.afterClose handle error)) ∧
    (∀ handle create, dl.dlopen libraryPath = Except.ok handle →
      dl.dlsym handle "createStrategy" = Except.ok create → create () = none →
      loadFromLibrary dl libraryPath = Except.error
        ("Échec de la création de la stratégie depuis " ++ libraryPath)) ∧
    (∀ p1 e1 e2 p3 : String,
      "Impossible de charger la bibliothèque : " ++ p1 ++ "\nErreur : " ++ e1 ≠
        "Erreur lors du chargement de createStrategy : " ++ e2 ∧
      "Impossible de charger la bibliothèque : " ++ p1 ++ "\nErreur : " ++ e1 ≠
        "Échec de la création de la stratégie depuis " ++ p3 ∧
      "Erreur lors du chargement de createStrategy : " ++ e2 ≠
        "Échec de la création de la stratégie depuis " ++ p3) ∧
    (∀ (strategies : UMap Strategy) (i : Nat) (msg : String),
      loadFromLibrary dl libraryPath = Except.error msg →
      loadAndRegister dl strategies i libraryPath = (strategies, some msg)) ∧
    (∀ (strategies : UMap Strategy) (i : Nat) (s : Strategy),
      loadFromLibrary dl libraryPath = Except.ok s →
      loadAndRegister dl strategies i libraryPath = (strategies.set i s, none)) := by
  refine ⟨?_, ?_, ?_, ?_, load_messages_distinct, ?_, ?_⟩
  · intro s
    unfold loadFromLibrary
    cases ho : dl.dlopen libraryPath with
    | error err => simp
    | ok handle =>
      cases hs : dl.dlsym handle "createStrategy" with
      | error error => simp [hs]
      | ok create =>
        cases hc : create () with
        | none => simp [hs, hc]
        | some s1 => simp [hs, hc]
  · intro err ho
    unfold loadFromLibrary
    rw [ho]
  · intro handle error ho hs
    unfold loadFromLibrary
    rw [ho]
    simp only [hs]
  · intro handle create ho hs hc
    unfold loadFromLibrary
    rw [ho]
    simp only [hs, hc]
  · intro strategies i msg h
    unfold loadAndRegister
    rw [h]
  · intro strategies i s h
    unfold loadAndRegister
    rw [h]
    rfl

/-- Witness of C24: the four outcomes on the example loader; the message for the
missing symbol carries the bytes read after `dlclose`, not the text
`undefined symbol` of `dlerror()`. -/
theorem plugin_loading_witness :
    loadFromLibrary exampleLoader "good.so" = Except.ok 7 ∧
    loadFromLibrary exampleLoader "absent.so" = Except.error
      "Impossible de charger la bibliothèque : absent.so\nErreur : cannot open shared object file" ∧
    loadFromLibrary exampleLoader "nosym.so" = Except.error
      "Erreur lors du chargement de createStrategy : \x10@" ∧
    loadFromLibrary exampleLoader "null.so" = Except.error
      "Échec de la création de la stratégie depuis null.so" ∧
    loadAndRegister exampleLoader UMap.empty 0 "null.so" =
      (UMap.empty, some "Échec de la création de la stratégie depuis null.so") ∧
    loadAndRegister exampleLoader UMap.empty 0 "good.so" =
      ((UMap.empty : UMap Nat).set 0 7, none) := by
  have hg := plugin_loading exampleLoader "good.so"
  have ha := plugin_loading exampleLoader "absent.so"
  have hn := plugin_loading exampleLoader "nosym.so"
  have hz := plugin_loading exampleLoader "null.so"
  have h1 : loadFromLibrary exampleLoader "good.so" = Except.ok 7 :=
    (hg.1 7).2 ⟨1, fun _ => some 7, rfl, rfl, rfl⟩
  have h4 : loadFromLibrary exampleLoader "null.so" = Except.error
      "Échec de la création de la stratégie depuis null.so" :=
    hz.2.2.2.1 2 (fun _ => none) (rfl) (rfl) rfl
  exact ⟨h1, ha.2.1 "cannot open shared object file" (rfl),
    hn.2.2.1 3 "undefined symbol" (rfl) (rfl), h4,
    hz.2.2.2.2.2.1 UMap.empty 0 _ h4, hg.2.2.2.2.2.2 UMap.empty 0 7 h1⟩


/-! ## Strategies -/

theorem sevenNotOnTable_eq (T : Table) (s : Nat) : sevenNotOnTable T s = !isOn T s 7 := by
  unfold sevenNotOnTable isOn
  cases T s with
  | none => rfl
  | some row =>
    cases hr : row 7 with
    | none => simp [hr]
    | some b => simp [hr]

theorem mem_enum_filter (test : Card → Bool) (hand : List Card) (i : Nat) (c : Card) :
    (i, c) ∈ hand.enum.filter (fun p => test p.2) ↔ hand[i]? = some c ∧ test c = true := by
  rw [List.mem_filter, List.mk_mem_enum_iff_getElem?]

theorem enum_filter_isEmpty (test : Card → Bool) (hand : List Card) :
    (hand.enum.filter (fun p => test p.2)).isEmpty = true ↔
      ∀ c, c ∈ hand → test c = false := by
  rw [List.isEmpty_iff, List.filter_eq_nil_iff]
  constructor
  · intro h c hc
    obtain ⟨i, hi⟩ := List.mem_iff_getElem?.1 hc
    have := h (i, c) (List.mk_mem_enum_iff_getElem?.2 hi)
    simpa using this
  · intro h p hp
    have hm : p.2 ∈ hand := by
      have h2 : (p.1, p.2) ∈ hand.enum := hp
      rw [List.mk_mem_enum_iff_getElem?] at h2
      exact List.mem_iff_getElem?.2 ⟨p.1, h2⟩
    rw [h p.2 hm]
    exact Bool.false_ne_true

theorem u64_rank_facts (r : Int) (h1 : 1 ≤ r) (h13 : r ≤ 13) :
    ∃ n : Nat, r = (n : Int) ∧ 1 ≤ n ∧ n ≤ 13 ∧ u64 r = n ∧ u64 (r - 1) = n - 1 ∧
      u64 (r + 1) = n + 1 := by
  refine ⟨r.toNat, by omega, by omega, by omega, ?_, ?_, ?_⟩
  · have h := u64_ofNat r.toNat (by omega)
    rwa [Int.toNat_of_nonneg (by omega)] at h
  · have h := u64_ofNat (r.toNat - 1) (by omega)
    have e : ((r.toNat - 1 : Nat) : Int) = r - 1 := by omega
    rwa [e] at h
  · have h := u64_ofNat (r.toNat + 1) (by omega)
    have e : ((r.toNat + 1 : Nat) : Int) = r + 1 := by omega
    rwa [e] at h

theorem RandomAgressive_playable_eq (c : Card) (T : Table)
    (hr : 1 ≤ c.rank ∧ c.rank ≤ 13) (hfresh : isOn T (u64 c.suit) (u64 c.rank) = false) :
    RandomAgressive_playable c T = isPlayable c T := by
  obtain ⟨n, hn, h1, h13, e0, e1, e2⟩ := u64_rank_facts c.rank hr.1 hr.2
  unfold RandomAgressive_playable
  simp only [e0]
  rw [e0] at hfresh
  by_cases h7 : c.rank = 7
  · have hn7 : n = 7 := by omega
    subst hn7
    rw [isPlayable_seven T c h7, sevenNotOnTable_eq, hfresh]
    simp
  · have hn7 : n ≠ 7 := by omega
    rw [isPlayable_other T c h7, e1, e2, if_neg (fun h => hn7 h.1)]
    have d1 : decide (n > 1) = decide (c.rank > 1) := by
      rw [decide_eq_decide]; omega
    have d2 : decide (n < 13) = decide (c.rank < 13) := by
      rw [decide_eq_decide]; omega
    simp only [d1, d2]

/-- C25: for a hand of valid cards none of which is marked played on the table and
for every value `d` drawn by the generator, `RandomAgressiveStrategy::selectCardToPlay`
returns a result, which is -1 exactly when no card of the hand satisfies the
`isPlayable` of the engine, and is otherwise an index within the hand of a card that
satisfies it. -/
theorem randomAgressive_select (hand : List Card) (T : Table) (d : Nat)
    (hvalid : ∀ c, c ∈ hand → 0 ≤ c.suit ∧ c.suit ≤ 3 ∧ 1 ≤ c.rank ∧ c.rank ≤ 13)
    (hfresh : ∀ c, c ∈ hand → isOn T (u64 c.suit) (u64 c.rank) = false) :
    ∃ res, RandomAgressive_selectCardToPlay hand T d = some res ∧
      (res = -1 ↔ ∀ c, c ∈ hand → isPlayable c T = false) ∧
      (res ≠ -1 → ∃ (i : Nat) (c : Card), res = (i : Int) ∧ i < hand.length ∧
        hand[i]? = some c ∧ isPlayable c T = true) := by
  have heq : ∀ c, c ∈ hand → RandomAgressive_playable c T = isPlayable c T :=
    fun c hc => RandomAgressive_playable_eq c T (hvalid c hc).2.2 (hfresh c hc)
  unfold RandomAgressive_selectCardToPlay
  by_cases hem : (hand.enum.filter (fun p => RandomAgressive_playable p.2 T)).isEmpty = true
  · have hnone : ∀ c, c ∈ hand → isPlayable c T = false := by
      intro c hc
      rw [← heq c hc]
      exact (enum_filter_isEmpty (fun c => RandomAgressive_playable c T) hand).1 hem c hc
    refine ⟨-1, ?_, ⟨fun _ => hnone, fun _ => rfl⟩, fun h => absurd rfl h⟩
    simp only [List.isEmpty_iff] at hem
    simp [hem]
  · have hne : hand.enum.filter (fun p => RandomAgressive_playable p.2 T) ≠ [] := by
      intro h
      exact hem (by rw [h]; rfl)
    have hpos : 0 < (hand.enum.filter (fun p => RandomAgressive_playable p.2 T)).length :=
      List.length_pos.2 hne
    have hlt : d % (hand.enum.filter (fun p => RandomAgressive_playable p.2 T)).length <
        (hand.enum.filter (fun p => RandomAgressive_playable p.2 T)).length :=
      Nat.mod_lt _ hpos
    obtain ⟨p, hp⟩ : ∃ p, (hand.enum.filter (fun p => RandomAgressive_playable p.2 T))[
        d % (hand.enum.filter (fun p => RandomAgressive_playable p.2 T)).length]? = some p :=
      ⟨_, List.getElem?_eq_getElem hlt⟩
    have hmem : (p.1, p.2) ∈ hand.enum.filter (fun p => RandomAgressive_playable p.2 T) :=
      List.mem_iff_getElem?.2 ⟨_, hp⟩
    rw [mem_enum_filter (fun c => RandomAgressive_playable c T)] at hmem
    have hin : p.2 ∈ hand := List.mem_iff_getElem?.2 ⟨p.1, hmem.1⟩
    have hplay : isPlayable p.2 T = true := by rw [← heq p.2 hin]; exact hmem.2
    have hilt : p.1 < hand.length := by
      have := List.getElem?_eq_some_iff.1 hmem.1
      exact this.1
    refine ⟨(p.1 : Int), ?_, ⟨?_, ?_⟩, fun _ => ⟨p.1, p.2, rfl, hilt, hmem.1, hplay⟩⟩
    · simp only [List.isEmpty_iff, List.map_eq_nil_iff, hne, if_false, List.length_map,
        List.getElem?_map, hp, Option.map_some']
    · intro h
      omega
    · intro h
      rw [h p.2 hin] at hplay
      exact absurd hplay Bool.false_ne_true

theorem randomAgressive_select_witness :
    ∃ res, RandomAgressive_selectCardToPlay exampleHand read_game 4 = some res ∧
      (res = -1 ↔ ∀ c, c ∈ exampleHand → isPlayable c read_game = false) ∧
      (res ≠ -1 → ∃ (i : Nat) (c : Card), res = (i : Int) ∧ i < exampleHand.length ∧
        exampleHand[i]? = some c ∧ isPlayable c read_game = true) :=
  randomAgressive_select exampleHand read_game 4 (by decide) (by decide)


theorem Prudent_score_isSome (hand : List Card) (c : Card) (T : Table)
    (hr : 1 ≤ c.rank ∧ c.rank ≤ 13) (hfresh : isOn T (u64 c.suit) (u64 c.rank) = false) :
    (Prudent_score hand T c).isSome = isPlayable c T := by
  obtain ⟨n, hn, h1, h13, e0, e1, e2⟩ := u64_rank_facts c.rank hr.1 hr.2
  unfold Prudent_score
  simp only [e0]
  rw [e0] at hfresh
  by_cases h7 : c.rank = 7
  · have hn7 : n = 7 := by omega
    subst hn7
    rw [isPlayable_seven T c h7, hfresh]
    simp
  · have hn7 : n ≠ 7 := by omega
    rw [isPlayable_other T c h7, e1, e2]
    have d1 : decide (n > 1) = decide (c.rank > 1) := by
      rw [decide_eq_decide]; omega
    have d2 : decide (n < 13) = decide (c.rank < 13) := by
      rw [decide_eq_decide]; omega
    have d7 : decide (n = 7) = false := by simpa using hn7
    simp only [d1, d2, d7, Bool.false_and]
    cases hb : (decide (c.rank > 1) && isOn T (u64 c.suit) (n - 1) ||
      decide (c.rank < 13) && isOn T (u64 c.suit) (n + 1)) with
    | false => simp
    | true => simp

theorem mem_scoredChoices (hand : List Card) (T : Table) (i : Nat) (s : Int) :
    (i, s) ∈ hand.enum.filterMap
        (fun p => (Prudent_score hand T p.2).map (fun score => (p.1, score))) ↔
      ∃ c, hand[i]? = some c ∧ Prudent_score hand T c = some s := by
  rw [List.mem_filterMap]
  constructor
  · rintro ⟨p, hp, hs⟩
    have hp2 : (p.1, p.2) ∈ hand.enum := hp
    rw [List.mk_mem_enum_iff_getElem?] at hp2
    cases hsc : Prudent_score hand T p.2 with
    | none => rw [hsc] at hs; cases hs
    | some s1 =>
      rw [hsc] at hs
      simp only [Option.map_some', Option.some.injEq, Prod.mk.injEq] at hs
      obtain ⟨rfl, rfl⟩ := hs
      exact ⟨p.2, hp2, hsc⟩
  · rintro ⟨c, hc, hs⟩
    refine ⟨(i, c), List.mk_mem_enum_iff_getElem?.2 hc, ?_⟩
    simp only [hs, Option.map_some']

/-- C26: for a hand of valid cards none of which is marked played on the table,
`PrudentStrategy::selectCardToPlay` returns a result, which is -1 exactly when no
card of the hand satisfies the `isPlayable` of the engine, and is otherwise an index
within the hand of a card that satisfies it and whose score is at least the score of
every card of the hand that satisfies it. -/
theorem prudent_select (srt : StdSort (Nat × Int) Prudent_less) (hand : List Card)
    (T : Table)
    (hvalid : ∀ c, c ∈ hand → 0 ≤ c.suit ∧ c.suit ≤ 3 ∧ 1 ≤ c.rank ∧ c.rank ≤ 13)
    (hfresh : ∀ c, c ∈ hand → isOn T (u64 c.suit) (u64 c.rank) = false) :
    ∃ res, Prudent_selectCardToPlay srt hand T = some res ∧
      (res = -1 ↔ ∀ c, c ∈ hand → isPlayable c T = false) ∧
      (res ≠ -1 → ∃ (i : Nat) (c : Card) (s : Int), res = (i : Int) ∧ i < hand.length ∧
        hand[i]? = some c ∧ isPlayable c T = true ∧ Prudent_score hand T c = some s ∧
        ∀ c2, c2 ∈ hand → isPlayable c2 T = true →
          ∃ s2, Prudent_score hand T c2 = some s2 ∧ s2 ≤ s) := by
  have heq : ∀ c, c ∈ hand → (Prudent_score hand T c).isSome = isPlayable c T :=
    fun c hc => Prudent_score_isSome hand c T (hvalid c hc).2.2 (hfresh c hc)
  unfold Prudent_selectCardToPlay
  generalize hsc : hand.enum.filterMap
    (fun p => (Prudent_score hand T p.2).map (fun score => (p.1, score))) = sc
  have hmem : ∀ i s, (i, s) ∈ sc ↔
      ∃ c, hand[i]? = some c ∧ Prudent_score hand T c = some s := by
    intro i s
    rw [← hsc]
    exact mem_scoredChoices hand T i s
  by_cases hem : sc = []
  · have hnone : ∀ c, c ∈ hand → isPlayable c T = false := by
      intro c hc
      rw [← heq c hc]
      cases hs : Prudent_score hand T c with
      | none => rfl
      | some s =>
        obtain ⟨i, hi⟩ := List.mem_iff_getElem?.1 hc
        have := (hmem i s).2 ⟨c, hi, hs⟩
        rw [hem] at this
        cases this
    refine ⟨-1, ?_, ⟨fun _ => hnone, fun _ => rfl⟩, fun h => absurd rfl h⟩
    simp [hem]
  · have hperm := srt.perm sc
    have hsorted := srt.sorted sc
    cases hrun : srt.run sc with
    | nil =>
      rw [hrun] at hperm
      exact absurd hperm.symm.eq_nil hem
    | cons best rest =>
      rw [hrun] at hperm hsorted
      have hbest : (best.1, best.2) ∈ sc := hperm.mem_iff.1 (List.mem_cons_self best rest)
      obtain ⟨c, hc, hs⟩ := (hmem best.1 best.2).1 hbest
      have hin : c ∈ hand := List.mem_iff_getElem?.2 ⟨best.1, hc⟩
      have hplay : isPlayable c T = true := by rw [← heq c hin, hs]; rfl
      have hilt : best.1 < hand.length := (List.getElem?_eq_some_iff.1 hc).1
      have hmax : ∀ c2, c2 ∈ hand → isPlayable c2 T = true →
          ∃ s2, Prudent_score hand T c2 = some s2 ∧ s2 ≤ best.2 := by
        intro c2 hc2 hp2
        rw [← heq c2 hc2] at hp2
        obtain ⟨s2, hs2⟩ := Option.isSome_iff_exists.1 hp2
        refine ⟨s2, hs2, ?_⟩
        obtain ⟨j, hj⟩ := List.mem_iff_getElem?.1 hc2
        have hm : (j, s2) ∈ best :: rest := hperm.mem_iff.2 ((hmem j s2).2 ⟨c2, hj, hs2⟩)
        rcases List.mem_cons.1 hm with h | h
        · rw [← h]
        · have := (List.pairwise_cons.1 hsorted).1 (j, s2) h
          simp only [Prudent_less, decide_eq_false_iff_not] at this
          omega
      refine ⟨(best.1 : Int), ?_, ⟨?_, ?_⟩,
        fun _ => ⟨best.1, c, best.2, rfl, hilt, hc, hplay, hs, hmax⟩⟩
      · simp [hem, hrun]
      · intro h
        omega
      · intro h
        rw [h c hin] at hplay
        exact absurd hplay Bool.false_ne_true

theorem prudent_select_witness :
    ∃ res, Prudent_selectCardToPlay insertionPrudentSort exampleHand read_game = some res ∧
      (res = -1 ↔ ∀ c, c ∈ exampleHand → isPlayable c read_game = false) ∧
      (res ≠ -1 → ∃ (i : Nat) (c : Card) (s : Int), res = (i : Int) ∧
        i < exampleHand.length ∧ exampleHand[i]? = some c ∧
        isPlayable c read_game = true ∧ Prudent_score exampleHand read_game c = some s ∧
        ∀ c2, c2 ∈ exampleHand → isPlayable c2 read_game = true →
          ∃ s2, Prudent_score exampleHand read_game c2 = some s2 ∧ s2 ≤ s) :=
  prudent_select insertionPrudentSort exampleHand read_game (by decide) (by decide)


theorem adjacent_match_eq (c : Card) (T : Table) :
    ((match T (u64 c.suit) with
      | some row => decide (c.rank > 1) && rowHas row (u64 (c.rank - 1))
      | none => false) ||
     (match T (u64 c.suit) with
      | some row => decide (c.rank < 13) && rowHas row (u64 (c.rank + 1))
      | none => false)) =
    ((decide (c.rank > 1) && isOn T (u64 c.suit) (u64 (c.rank - 1))) ||
     (decide (c.rank < 13) && isOn T (u64 c.suit) (u64 (c.rank + 1)))) := by
  unfold isOn
  cases T (u64 c.suit) with
  | none => simp
  | some row => rfl

theorem Calculative_isPlayable_eq (c : Card) (T : Table) :
    Calculative_isPlayable c T = isPlayable c T := by
  unfold Calculative_isPlayable
  by_cases h7 : c.rank = 7
  · rw [if_pos h7, sevenNotOnTable_eq, isPlayable_seven T c h7]
  · rw [if_neg h7, isPlayable_other T c h7]
    exact adjacent_match_eq c T

theorem Sentinel7_isPlayable_eq (c : Card) (T : Table) :
    Sentinel7_isPlayable c T = isPlayable c T := by
  unfold Sentinel7_isPlayable
  by_cases h7 : c.rank = 7
  · rw [if_pos h7, sevenNotOnTable_eq, isPlayable_seven T c h7]
  · rw [if_neg h7, isPlayable_other T c h7]
    unfold Sentinel7_hasAdjacent
    exact adjacent_match_eq c T

theorem pickTop_mem {S : Type} (near : S → S → Bool) (d : Nat) (moves : List (S × Nat))
    (hne : moves ≠ []) : ∃ m, m ∈ moves ∧ pickTop near d moves = some (m.2 : Int) := by
  cases moves with
  | nil => exact absurd rfl hne
  | cons top rest =>
    unfold pickTop
    simp only
    generalize hti : (if (top :: rest).length > 1 then
        ((top :: rest).takeWhile (fun m => near m.1 top.1)).map (fun m => m.2)
      else []) = ti
    have hsub : ∀ idx, idx ∈ ti → ∃ m, m ∈ top :: rest ∧ m.2 = idx := by
      intro idx hidx
      rw [← hti] at hidx
      split at hidx
      · obtain ⟨m, hm, hmi⟩ := List.mem_map.1 hidx
        exact ⟨m, (List.takeWhile_sublist _).subset hm, hmi⟩
      · cases hidx
    by_cases hlen : ti.length > 1
    · rw [if_pos hlen]
      have hlt : d % ti.length < ti.length := Nat.mod_lt _ (by omega)
      have hget : ti[d % ti.length]? = some (ti[d % ti.length]) :=
        List.getElem?_eq_getElem hlt
      obtain ⟨m, hm, hmi⟩ := hsub _ (List.getElem_mem hlt)
      refine ⟨m, hm, ?_⟩
      rw [hget, hmi]
      rfl
    · rw [if_neg hlen]
      exact ⟨top, List.mem_cons_self top rest, rfl⟩

theorem pickTop_legal {S : Type} (near : S → S → Bool) (d : Nat) (hand : List Card)
    (T : Table) (moves : List (S × Nat)) (hne : moves ≠ [])
    (hidx : ∀ m, m ∈ moves → ∃ c, hand[m.2]? = some c ∧ isPlayable c T = true) :
    ∃ res, pickTop near d moves = some res ∧
      (res = -1 ↔ ∀ c, c ∈ hand → isPlayable c T = false) ∧
      (res ≠ -1 → ∃ (i : Nat) (c : Card), res = (i : Int) ∧ i < hand.length ∧
        hand[i]? = some c ∧ isPlayable c T = true) := by
  obtain ⟨m, hm, hres⟩ := pickTop_mem near d moves hne
  obtain ⟨c, hc, hplay⟩ := hidx m hm
  have hin : c ∈ hand := List.mem_iff_getElem?.2 ⟨m.2, hc⟩
  refine ⟨(m.2 : Int), hres, ⟨?_, ?_⟩,
    fun _ => ⟨m.2, c, rfl, (List.getElem?_eq_some_iff.1 hc).1, hc, hplay⟩⟩
  · intro h
    omega
  · intro h
    rw [h c hin] at hplay
    exact absurd hplay Bool.false_ne_true

/-- C27: the private `isPlayable` of `CalculativeStrategy` agrees with the one of
the engine on every card and table, and for every hand, table, score function (hence
every tracking state) and value `d` drawn by the generator, `selectCardToPlay`
returns a result, which is -1 exactly when no card of the hand satisfies the
`isPlayable` of the engine, and is otherwise an index within the hand of a card that
satisfies it. -/
theorem calculative_select {S : Type} (gt near : S → S → Bool)
    (srt : StdSort (S × Nat) (scoreGreater gt)) (calculateMoveScore : Card → S)
    (hand : List Card) (T : Table) (d : Nat) :
    (∀ card table, Calculative_isPlayable card table = isPlayable card table) ∧
    ∃ res, Calculative_selectCardToPlay gt near srt calculateMoveScore hand T d =
        some res ∧
      (res = -1 ↔ ∀ c, c ∈ hand → isPlayable c T = false) ∧
      (res ≠ -1 → ∃ (i : Nat) (c : Card), res = (i : Int) ∧ i < hand.length ∧
        hand[i]? = some c ∧ isPlayable c T = true) := by
  refine ⟨Calculative_isPlayable_eq, ?_⟩
  unfold Calculative_selectCardToPlay
  by_cases hem : (hand.enum.filter (fun p => Calculative_isPlayable p.2 T)).isEmpty = true
  · have hnone : ∀ c, c ∈ hand → isPlayable c T = false := by
      intro c hc
      rw [← Calculative_isPlayable_eq]
      exact (enum_filter_isEmpty (fun c => Calculative_isPlayable c T) hand).1 hem c hc
    refine ⟨-1, ?_, ⟨fun _ => hnone, fun _ => rfl⟩, fun h => absurd rfl h⟩
    simp only [hem, if_true]
  · simp only [hem]
    have hne : hand.enum.filter (fun p => Calculative_isPlayable p.2 T) ≠ [] := by
      intro h
      exact hem (by rw [h]; rfl)
    apply pickTop_legal
    · intro h
      have hp := srt.perm
        ((hand.enum.filter (fun p => Calculative_isPlayable p.2 T)).map
          (fun p => (calculateMoveScore p.2, p.1)))
      rw [h] at hp
      exact hne (List.map_eq_nil_iff.1 hp.symm.eq_nil)
    · intro m hm
      have hm2 := (srt.perm _).mem_iff.1 hm
      obtain ⟨p, hp, rfl⟩ := List.mem_map.1 hm2
      have hp2 : (p.1, p.2) ∈ hand.enum.filter (fun p => Calculative_isPlayable p.2 T) := hp
      rw [mem_enum_filter (fun c => Calculative_isPlayable c T)] at hp2
      exact ⟨p.2, hp2.1, by rw [← Calculative_isPlayable_eq]; exact hp2.2⟩

theorem calculative_select_witness :
    (∀ card table, Calculative_isPlayable card table = isPlayable card table) ∧
    ∃ res, Calculative_selectCardToPlay intGreater intNear insertionMoveSort
        (fun c => c.rank) exampleHand read_game 3 = some res ∧
      (res = -1 ↔ ∀ c, c ∈ exampleHand → isPlayable c read_game = false) ∧
      (res ≠ -1 → ∃ (i : Nat) (c : Card), res = (i : Int) ∧ i < exampleHand.length ∧
        exampleHand[i]? = some c ∧ isPlayable c read_game = true) :=
  calculative_select intGreater intNear insertionMoveSort (fun c => c.rank) exampleHand
    read_game 3


theorem countP_lt_countP (l : List Card) (p q : Card → Bool)
    (himp : ∀ c, q c = true → p c = true) (x : Card) (hx : x ∈ l) (hpx : p x = true)
    (hqx : q x = false) : l.countP q < l.countP p := by
  induction l with
  | nil => cases hx
  | cons a l ih =>
    have hle : l.countP q ≤ l.countP p := List.countP_mono_left (fun c _ hc => himp c hc)
    by_cases hqa : q a = true
    · rw [List.countP_cons_of_pos _ _ hqa, List.countP_cons_of_pos _ _ (himp a hqa)]
      rcases List.mem_cons.1 hx with h | h
      · subst h
        rw [hqx] at hqa
        exact absurd hqa Bool.false_ne_true
      · have := ih h
        omega
    · rw [List.countP_cons_of_neg _ _ hqa]
      by_cases hpa : p a = true
      · rw [List.countP_cons_of_pos _ _ hpa]
        omega
      · rw [List.countP_cons_of_neg _ _ hpa]
        rcases List.mem_cons.1 hx with h | h
        · subst h
          exact absurd hpx hpa
        · exact ih h

theorem runLoop_up (suit maxRank : Int) (hand : List Card) :
    ∀ (fuel : Nat) (rank : Int) (layout : Table) (length : Nat),
      hand.countP (fun c => decide (rank ≤ c.rank)) < fuel →
      ∃ n, Sentinel7_runLoop suit 1 maxRank hand fuel rank layout length = some n := by
  intro fuel
  induction fuel with
  | zero =>
    intro rank layout length h
    omega
  | succ f ih =>
    intro rank layout length h
    unfold Sentinel7_runLoop
    by_cases hmax : rank = maxRank
    · rw [if_pos hmax]
      exact ⟨_, rfl⟩
    · rw [if_neg hmax]
      by_cases hany : hand.any (fun handCard =>
          decide (handCard.suit = suit ∧ handCard.rank = rank) &&
            Sentinel7_isPlayable handCard layout) = true
      · rw [if_pos hany]
        apply ih
        obtain ⟨x, hx, hpx⟩ := List.any_eq_true.1 hany
        have hxr : x.rank = rank := by
          simp only [Bool.and_eq_true, decide_eq_true_eq] at hpx
          exact hpx.1.2
        have := countP_lt_countP hand (fun c => decide (rank ≤ c.rank))
          (fun c => decide (rank + 1 ≤ c.rank))
          (fun c hc => by
            simp only [decide_eq_true_eq] at hc ⊢
            omega)
          x hx (by simp only [decide_eq_true_eq]; omega)
          (by simp only [decide_eq_false_iff_not]; omega)
        omega
      · rw [if_neg hany]
        exact ⟨_, rfl⟩

theorem runLoop_down (suit maxRank : Int) (hand : List Card) :
    ∀ (fuel : Nat) (rank : Int) (layout : Table) (length : Nat),
      hand.countP (fun c => decide (c.rank ≤ rank)) < fuel →
      ∃ n, Sentinel7_runLoop suit (-1) maxRank hand fuel rank layout length = some n := by
  intro fuel
  induction fuel with
  | zero =>
    intro rank layout length h
    omega
  | succ f ih =>
    intro rank layout length h
    unfold Sentinel7_runLoop
    by_cases hmax : rank = maxRank
    · rw [if_pos hmax]
      exact ⟨_, rfl⟩
    · rw [if_neg hmax]
      by_cases hany : hand.any (fun handCard =>
          decide (handCard.suit = suit ∧ handCard.rank = rank) &&
            Sentinel7_isPlayable handCard layout) = true
      · rw [if_pos hany]
        apply ih
        obtain ⟨x, hx, hpx⟩ := List.any_eq_true.1 hany
        have hxr : x.rank = rank := by
          simp only [Bool.and_eq_true, decide_eq_true_eq] at hpx
          exact hpx.1.2
        have := countP_lt_countP hand (fun c => decide (c.rank ≤ rank))
          (fun c => decide (c.rank ≤ rank + -1))
          (fun c hc => by
            simp only [decide_eq_true_eq] at hc ⊢
            omega)
          x hx (by simp only [decide_eq_true_eq]; omega)
          (by simp only [decide_eq_false_iff_not]; omega)
        omega
      · rw [if_neg hany]
        exact ⟨_, rfl⟩

theorem runLength_terminates (fuel : Nat) (suit startRank : Int) (hand : List Card)
    (layout : Table) (hfuel : hand.length + 1 ≤ fuel) :
    (∃ up, Sentinel7_runLength fuel suit startRank 1 hand layout = some up) ∧
    (∃ down, Sentinel7_runLength fuel suit startRank (-1) hand layout = some down) := by
  constructor
  · unfold Sentinel7_runLength
    apply runLoop_up
    have := List.countP_le_length (fun c : Card => decide (startRank + 1 ≤ c.rank))
      (l := hand)
    omega
  · unfold Sentinel7_runLength
    apply runLoop_down
    have := List.countP_le_length (fun c : Card => decide (c.rank ≤ startRank + -1))
      (l := hand)
    omega

theorem suitCounts_fold (l : List Card) :
    ∀ (m : Int → Option Nat) (k : Int),
      ((m k).isSome = true ∨ ∃ c, c ∈ l ∧ c.suit = k) →
      ((l.foldl
        (fun counts card k => if k = card.suit then some ((counts card.suit).getD 0 + 1)
          else counts k) m) k).isSome = true := by
  induction l with
  | nil =>
    intro m k h
    rcases h with h | ⟨c, hc, _⟩
    · exact h
    · cases hc
  | cons a l ih =>
    intro m k h
    rw [List.foldl_cons]
    apply ih
    by_cases hk : k = a.suit
    · left
      rw [if_pos hk]
      rfl
    · rcases h with h | ⟨c, hc, hck⟩
      · left
        rw [if_neg hk]
        exact h
      · rcases List.mem_cons.1 hc with h2 | h2
        · subst h2
          exact absurd hck.symm hk
        · exact Or.inr ⟨c, h2, hck⟩

theorem Sentinel7_suitCounts_mem (hand : List Card) (c : Card) (hc : c ∈ hand) :
    ∃ n, Sentinel7_suitCounts hand c.suit = some n :=
  Option.isSome_iff_exists.1
    (suitCounts_fold hand (fun _ => none) c.suit (Or.inr ⟨c, hc, rfl⟩))

theorem Sentinel7_score_returns {S : Type} (combine : Card → Nat → Nat → S) (fuel : Nat)
    (hand : List Card) (T : Table) (hfuel : hand.length + 1 ≤ fuel) (c : Card)
    (hc : c ∈ hand) :
    ∃ s, Sentinel7_calculateMoveScore combine fuel c hand T (Sentinel7_suitCounts hand) =
      some s := by
  obtain ⟨n, hn⟩ := Sentinel7_suitCounts_mem hand c hc
  obtain ⟨⟨up, hup⟩, ⟨down, hdown⟩⟩ := runLength_terminates fuel c.suit c.rank hand
    (markPlayed T (u64 c.suit) (u64 c.rank)) hfuel
  refine ⟨combine c n (1 + up + down), ?_⟩
  unfold Sentinel7_calculateMoveScore Sentinel7_calculatePotentialRun
  rw [hn, hup, hdown]

theorem Sentinel7_scoreMoves_returns {S : Type} (score : Card → Option S) :
    ∀ l : List (Nat × Card), (∀ p, p ∈ l → ∃ s, score p.2 = some s) →
      ∃ moves, Sentinel7_scoreMoves score l = some moves ∧
        moves.map (fun m => m.2) = l.map (fun p => p.1) := by
  intro l
  induction l with
  | nil => intro _; exact ⟨[], rfl, rfl⟩
  | cons p rest ih =>
    intro h
    obtain ⟨s, hs⟩ := h p (List.mem_cons_self p rest)
    obtain ⟨moves, hm, hmap⟩ := ih (fun q hq => h q (List.mem_cons_of_mem p hq))
    refine ⟨(s, p.1) :: moves, ?_, ?_⟩
    · unfold Sentinel7_scoreMoves
      rw [hs, hm]
    · rw [List.map_cons, List.map_cons, hmap]


/-- C28: for every hand, table, tracking state (the score arithmetic `combine`) and
value `d` drawn by the generator, `Sentinel7::selectCardToPlay` completes with fuel
`hand.length + 1`: the lookup of the suit count succeeds for every card of the hand,
the two loops of `runLength` end for every start, and the result is -1 exactly when
no card of the hand satisfies the `isPlayable` of the engine, and is otherwise an
index within the hand of a card that satisfies it; the private `isPlayable` agrees
with the one of the engine. -/
theorem sentinel7_select {S : Type} (gt near : S → S → Bool)
    (srt : StdSort (S × Nat) (scoreGreater gt)) (combine : Card → Nat → Nat → S)
    (fuel : Nat) (hand : List Card) (T : Table) (d : Nat)
    (hfuel : hand.length + 1 ≤ fuel) :
    (∀ card table, Sentinel7_isPlayable card table = isPlayable card table) ∧
    (∀ c, c ∈ hand → ∃ n, Sentinel7_suitCounts hand c.suit = some n) ∧
    (∀ (suit startRank : Int) (layout : Table),
      (∃ up, Sentinel7_runLength fuel suit startRank 1 hand layout = some up) ∧
      (∃ down, Sentinel7_runLength fuel suit startRank (-1) hand layout = some down)) ∧
    ∃ res, Sentinel7_selectCardToPlay gt near srt combine fuel hand T d = some res ∧
      (res = -1 ↔ ∀ c, c ∈ hand → isPlayable c T = false) ∧
      (res ≠ -1 → ∃ (i : Nat) (c : Card), res = (i : Int) ∧ i < hand.length ∧
        hand[i]? = some c ∧ isPlayable c T = true) := by
  refine ⟨Sentinel7_isPlayable_eq, Sentinel7_suitCounts_mem hand,
    fun suit startRank layout => runLength_terminates fuel suit startRank hand layout hfuel,
    ?_⟩
  unfold Sentinel7_selectCardToPlay
  by_cases hem : (hand.enum.filter (fun p => Sentinel7_isPlayable p.2 T)).isEmpty = true
  · have hnone : ∀ c, c ∈ hand → isPlayable c T = false := by
      intro c hc
      rw [← Sentinel7_isPlayable_eq]
      exact (enum_filter_isEmpty (fun c => Sentinel7_isPlayable c T) hand).1 hem c hc
    refine ⟨-1, ?_, ⟨fun _ => hnone, fun _ => rfl⟩, fun h => absurd rfl h⟩
    simp only [hem, if_true]
  · simp only [hem]
    have hne : hand.enum.filter (fun p => Sentinel7_isPlayable p.2 T) ≠ [] := by
      intro h
      exact hem (by rw [h]; rfl)
    have hpl : ∀ p, p ∈ hand.enum.filter (fun p => Sentinel7_isPlayable p.2 T) →
        hand[p.1]? = some p.2 ∧ Sentinel7_isPlayable p.2 T = true := by
      intro p hp
      have hp2 : (p.1, p.2) ∈ hand.enum.filter (fun p => Sentinel7_isPlayable p.2 T) := hp
      rwa [mem_enum_filter (fun c => Sentinel7_isPlayable c T)] at hp2
    obtain ⟨moves, hmoves, hmap⟩ := Sentinel7_scoreMoves_returns
      (fun card => Sentinel7_calculateMoveScore combine fuel card hand T
        (Sentinel7_suitCounts hand))
      (hand.enum.filter (fun p => Sentinel7_isPlayable p.2 T))
      (fun p hp => Sentinel7_score_returns combine fuel hand T hfuel p.2
        (List.mem_iff_getElem?.2 ⟨p.1, (hpl p hp).1⟩))
    rw [hmoves]
    apply pickTop_legal
    · intro h
      have hp := srt.perm moves
      rw [h] at hp
      have hm0 : moves = [] := hp.symm.eq_nil
      rw [hm0] at hmap
      exact hne (List.map_eq_nil_iff.1 hmap.symm)
    · intro m hm
      have hm2 : m ∈ moves := (srt.perm moves).mem_iff.1 hm
      have hm3 : m.2 ∈ (hand.enum.filter (fun p => Sentinel7_isPlayable p.2 T)).map
          (fun p => p.1) := by
        rw [← hmap]
        exact List.mem_map.2 ⟨m, hm2, rfl⟩
      obtain ⟨p, hp, hpi⟩ := List.mem_map.1 hm3
      have := hpl p hp
      rw [← hpi]
      exact ⟨p.2, this.1, by rw [← Sentinel7_isPlayable_eq]; exact this.2⟩

theorem sentinel7_select_witness :
    exampleHand.length + 1 ≤ 4 ∧
    (∀ card table, Sentinel7_isPlayable card table = isPlayable card table) ∧
    (∀ c, c ∈ exampleHand → ∃ n, Sentinel7_suitCounts exampleHand c.suit = some n) ∧
    (∀ (suit startRank : Int) (layout : Table),
      (∃ up, Sentinel7_runLength 4 suit startRank 1 exampleHand layout = some up) ∧
      (∃ down, Sentinel7_runLength 4 suit startRank (-1) exampleHand layout = some down)) ∧
    ∃ res, Sentinel7_selectCardToPlay intGreater intNear insertionMoveSort
        (fun c n r => c.rank + n + r) 4 exampleHand read_game 3 = some res ∧
      (res = -1 ↔ ∀ c, c ∈ exampleHand → isPlayable c read_game = false) ∧
      (res ≠ -1 → ∃ (i : Nat) (c : Card), res = (i : Int) ∧ i < exampleHand.length ∧
        exampleHand[i]? = some c ∧ isPlayable c read_game = true) :=
  ⟨by decide,
    sentinel7_select intGreater intNear insertionMoveSort (fun c n r => c.rank + n + r) 4
      exampleHand read_game 3 (by decide)⟩


/-! ## Wrapper with player names -/

theorem nameResults_spec (names : List String) :
    ∀ results : List (Nat × Nat), (∀ e, e ∈ results → e.1 < names.length) →
      ∃ named, nameResults names results = some named ∧
        named.length = results.length ∧
        ∀ (j : Nat) (e : Nat × Nat), results[j]? = some e →
          ∃ name, names[e.1]? = some name ∧ named[j]? = some (name, e.2) := by
  intro results
  induction results with
  | nil =>
    intro _
    exact ⟨[], rfl, rfl, fun j e h => by simp at h⟩
  | cons x rest ih =>
    intro h
    obtain ⟨named, hn, hl, hget⟩ := ih (fun e he => h e (List.mem_cons_of_mem x he))
    have hx : x.1 < names.length := h x (List.mem_cons_self x rest)
    refine ⟨(names[x.1], x.2) :: named, ?_, ?_, ?_⟩
    · unfold nameResults
      rw [List.getElem?_eq_getElem hx, hn]
    · rw [List.length_cons, List.length_cons, hl]
    · intro j e hj
      cases j with
      | zero =>
        rw [List.getElem?_cons_zero] at hj
        injection hj with hj
        subst hj
        exact ⟨names[x.1], List.getElem?_eq_getElem hx, by rw [List.getElem?_cons_zero]⟩
      | succ j =>
        rw [List.getElem?_cons_succ] at hj
        obtain ⟨name, h1, h2⟩ := hget j e hj
        exact ⟨name, h1, by rw [List.getElem?_cons_succ]; exact h2⟩

/-- C31: for a non-empty list of names and enough fuel, the wrapper runs the round
with `nP = names.length` and returns a list with the length of the id-based ranking
whose entry at each position `j` is the entry `(id, count)` of the ranking with
`names[id]` in place of `id`. -/
theorem named_wrapper (srt : StdSort (Nat × Nat) scoreLess) (names : List String)
    (deck : List Card) (r : Nat) (sel : Nat → Int) (fuel : Nat)
    (hne : names ≠ []) (hf : roundFuel names.length deck.length ≤ fuel) :
    ∃ results named,
      compute_game_progress srt fuel names.length deck r sel = some results ∧
      compute_game_progress_names srt fuel names deck r sel = some named ∧
      results.length = names.length ∧
      named.length = results.length ∧
      ∀ (j : Nat) (e : Nat × Nat), results[j]? = some e →
        ∃ name, names[e.1]? = some name ∧ named[j]? = some (name, e.2) := by
  have hpos : 0 < names.length := List.length_pos.2 hne
  obtain ⟨k, _, _, _, hplay⟩ := playRound_result names.length deck r sel hpos
  have hres : compute_game_progress srt fuel names.length deck r sel =
      some (srt.run (scoreWithId names.length
        (stateAfter names.length sel (dealtRound names.length deck r) k).scores)) := by
    unfold compute_game_progress
    rw [hplay fuel hf]
    rfl
  have hid : ∀ e, e ∈ srt.run (scoreWithId names.length
      (stateAfter names.length sel (dealtRound names.length deck r) k).scores) →
      e.1 < names.length := by
    intro e he
    obtain ⟨i, hi, rfl⟩ := (mem_scoreWithId _ _ e).1 ((srt.perm _).mem_iff.1 he)
    exact hi
  obtain ⟨named, hn, hl, hget⟩ := nameResults_spec names _ hid
  refine ⟨_, named, hres, ?_, ?_, hl, hget⟩
  · unfold compute_game_progress_names
    rw [hres]
    exact hn
  · rw [(srt.perm _).length_eq]
    unfold scoreWithId
    simp

theorem named_wrapper_witness :
    ∃ results named,
      compute_game_progress insertionStdSort 200 (["ann", "bob"] : List String).length
        standardDeck 0 (fun _ => -1) = some results ∧
      compute_game_progress_names insertionStdSort 200 ["ann", "bob"] standardDeck 0
        (fun _ => -1) = some named ∧
      results.length = (["ann", "bob"] : List String).length ∧
      named.length = results.length ∧
      ∀ (j : Nat) (e : Nat × Nat), results[j]? = some e →
        ∃ name, (["ann", "bob"] : List String)[e.1]? = some name ∧
          named[j]? = some (name, e.2) :=
  named_wrapper insertionStdSort ["ann", "bob"] standardDeck 0 (fun _ => -1) 200
    (by decide) (by decide)

/-! ## Monotonicity for the cards other than a 7 -/

/-- C34: for a card whose rank is not 7, if every pair marked played in `T` is
marked played in `T2`, then `isPlayable` on `T` implies `isPlayable` on `T2`. -/
theorem isPlayable_monotone_other (T T2 : Table) (c : Card) (h7 : c.rank ≠ 7)
    (hsub : ∀ s r, isOn T s r = true → isOn T2 s r = true)
    (h : isPlayable c T = true) : isPlayable c T2 = true := by
  rw [isPlayable_other T c h7] at h
  rw [isPlayable_other T2 c h7]
  rw [Bool.or_eq_true] at h ⊢
  rcases h with h | h
  · left
    rw [Bool.and_eq_true] at h ⊢
    exact ⟨h.1, hsub _ _ h.2⟩
  · right
    rw [Bool.and_eq_true] at h ⊢
    exact ⟨h.1, hsub _ _ h.2⟩

theorem isPlayable_monotone_other_witness :
    isPlayable ⟨2, 8⟩ read_game = true ∧ isPlayable ⟨2, 8⟩ (markPlayed read_game 2 6) = true :=
  ⟨by decide,
    isPlayable_monotone_other read_game (markPlayed read_game 2 6) ⟨2, 8⟩ (by decide)
      (fun s r h => isOn_markPlayed_mono read_game 2 6 s r h) (by decide)⟩


/-! ## The first turn -/

theorem first_card_to_start (nP s : Nat) (deck : List Card) (hs : s < nP) (c : Card)
    (hc : deck[0]? = some c) :
    ∃ hand, (deal nP s deck)[s]? = some hand ∧ hand[0]? = some c := by
  refine ⟨_, deal_getElem? nP s deck s hs, ?_⟩
  cases deck with
  | nil => simp at hc
  | cons x rest =>
    rw [List.getElem?_cons_zero] at hc
    injection hc with hc
    subst hc
    have hmod : (s + 0) % nP = s := by
      rw [Nat.add_zero]
      exact Nat.mod_eq_of_lt hs
    rw [List.enum_cons, List.filter_cons_of_pos (by simpa using hmod), List.map_cons,
      List.getElem?_cons_zero]

theorem stateAfter_current_player (nP : Nat) (sel : Nat → Int) (st0 : RoundState)
    (h0 : WF nP st0) :
    ∀ k, (∀ j, j < k → (stateAfter nP sel st0 j).game_over = false) →
      (stateAfter nP sel st0 k).current_player = (st0.current_player + k) % nP := by
  intro k
  induction k with
  | zero =>
    intro _
    exact (Nat.mod_eq_of_lt h0.cur_lt).symm
  | succ k ih =>
    intro h
    rw [stateAfter_succ_of_WF nP sel st0 k (stateAfter_WF nP sel st0 h0 k)
      (h k (Nat.lt_succ_self k)), resolve_current_player,
      ih (fun j hj => h j (by omega)), Nat.add_mod, Nat.mod_mod, ← Nat.add_mod]
    rfl

/-- C35, counterexample: with one player the start player is player 0, who receives
the first card of the deck, and the first turn is taken by that same player. -/
theorem first_turn_single_player :
    1 ≤ 1 ∧ startPlayer 1 5 = 0 ∧
    (∃ hand, (deal 1 (startPlayer 1 5) standardDeck)[startPlayer 1 5]? = some hand ∧
      hand[0]? = standardDeck[0]?) ∧
    (dealtRound 1 standardDeck 5).game_over = false ∧
    (dealtRound 1 standardDeck 5).current_player = (startPlayer 1 5 + 1) % 1 ∧
    (dealtRound 1 standardDeck 5).current_player = startPlayer 1 5 := by
  refine ⟨by decide, by decide, ⟨_, rfl, by decide⟩, rfl, rfl, rfl⟩

/-- C35, amended: for `nP ≥ 1` the player `s` chosen at random receives the first
card of the deck, the first turn is taken by player `(s + 1) % nP`, who is another
player than `s` exactly when `nP ≥ 2`, and as long as the round is not over the
`k`-th turn (from 0) is taken by player `(s + 1 + k) % nP`. -/
theorem first_turn (nP : Nat) (deck : List Card) (r : Nat) (sel : Nat → Int)
    (hnP : 1 ≤ nP) :
    (∀ c, deck[0]? = some c →
      ∃ hand, (deal nP (startPlayer nP r) deck)[startPlayer nP r]? = some hand ∧
        hand[0]? = some c) ∧
    (dealtRound nP deck r).game_over = false ∧
    (dealtRound nP deck r).current_player = (startPlayer nP r + 1) % nP ∧
    ((dealtRound nP deck r).current_player ≠ startPlayer nP r ↔ 2 ≤ nP) ∧
    ∀ k, (∀ j, j < k → (stateAfter nP sel (dealtRound nP deck r) j).game_over = false) →
      (stateAfter nP sel (dealtRound nP deck r) k).current_player =
        (startPlayer nP r + 1 + k) % nP := by
  have hs : startPlayer nP r < nP := Nat.mod_lt _ (by omega)
  have hcur : (dealtRound nP deck r).current_player = (startPlayer nP r + 1) % nP := rfl
  refine ⟨fun c hc => first_card_to_start nP _ deck hs c hc, rfl, hcur, ?_, ?_⟩
  · rw [hcur]
    constructor
    · intro h
      by_contra hlt
      have h1 : nP = 1 := by omega
      subst h1
      apply h
      rw [Nat.mod_one]
      omega
    · intro h2 heq
      by_cases hlast : startPlayer nP r + 1 = nP
      · rw [hlast, Nat.mod_self] at heq
        omega
      · rw [Nat.mod_eq_of_lt (by omega)] at heq
        omega
  · intro k hk
    rw [stateAfter_current_player nP sel _ (dealtRound_WF nP deck r (by omega)) k hk, hcur,
      Nat.add_mod, Nat.mod_mod, ← Nat.add_mod]

theorem first_turn_witness :
    1 ≤ 3 ∧
    (dealtRound 3 standardDeck 5).current_player = (startPlayer 3 5 + 1) % 3 ∧
    ((dealtRound 3 standardDeck 5).current_player ≠ startPlayer 3 5 ↔ 2 ≤ 3) ∧
    (stateAfter 3 (fun _ => -1) (dealtRound 3 standardDeck 5) 2).current_player =
      (startPlayer 3 5 + 1 + 2) % 3 :=
  ⟨by decide, (first_turn 3 standardDeck 5 (fun _ => -1) (by decide)).2.2.1,
    (first_turn 3 standardDeck 5 (fun _ => -1) (by decide)).2.2.2.1,
    (first_turn 3 standardDeck 5 (fun _ => -1) (by decide)).2.2.2.2 2
      (fun j hj => by
        have hj2 : j = 0 ∨ j = 1 := by omega
        rcases hj2 with rfl | rfl
        · rfl
        · rfl)⟩


/-! ## Blocking-gap heuristic -/

theorem blocking_gap_false (T : Table) (c : Card)
    (hT : ∀ s : Nat, (∀ r, isOn T s r = false) ∨
      ∃ lo hi : Nat, lo ≤ 7 ∧ 7 ≤ hi ∧ ∀ r, isOn T s r = true ↔ lo ≤ r ∧ r ≤ hi)
    (hr : 1 ≤ c.rank ∧ c.rank ≤ 13) (hfresh : isOn T (u64 c.suit) (u64 c.rank) = false)
    (hplay : isPlayable c T = true) :
    (c.rank ≤ 5 → isOn T (u64 c.suit) (u64 (c.rank + 1)) = true) ∧
    (c.rank ≥ 9 → isOn T (u64 c.suit) (u64 (c.rank - 1)) = true) := by
  obtain ⟨n, hn, h1, h13, e0, e1, e2⟩ := u64_rank_facts c.rank hr.1 hr.2
  rw [e0] at hfresh
  rw [e1, e2]
  rcases hT (u64 c.suit) with hempty | ⟨lo, hi, hlo, hhi, hiff⟩
  · have h7 : c.rank ≠ 7 ∨ c.rank = 7 := by omega
    constructor
    · intro h5
      rw [isPlayable_other T c (by omega), e1, e2, hempty, hempty] at hplay
      simp at hplay
    · intro h9
      rw [isPlayable_other T c (by omega), e1, e2, hempty, hempty] at hplay
      simp at hplay
  · have hnot : ¬ (lo ≤ n ∧ n ≤ hi) := by
      intro h
      rw [(hiff n).2 h] at hfresh
      exact Bool.false_ne_true hfresh.symm
    constructor
    · intro h5
      rw [isPlayable_other T c (by omega), e1, e2, Bool.or_eq_true, Bool.and_eq_true,
        Bool.and_eq_true] at hplay
      rcases hplay with ⟨_, h⟩ | ⟨_, h⟩
      · have := (hiff (n - 1)).1 h
        exact absurd ⟨by omega, by omega⟩ hnot
      · exact h
    · intro h9
      rw [isPlayable_other T c (by omega), e1, e2, Bool.or_eq_true, Bool.and_eq_true,
        Bool.and_eq_true] at hplay
      rcases hplay with ⟨_, h⟩ | ⟨_, h⟩
      · exact h
      · have := (hiff (n + 1)).1 h
        exact absurd ⟨by omega, by omega⟩ hnot

/-- C39: on a table in which the played ranks of every suit are empty or an
interval containing 7, for a card of rank 1..13 that is not marked played and
satisfies `isPlayable`, `wouldCreateBlockingGap` is false in `CalculativeStrategy`
and in `Sentinel7`, so that the blocking bonus added to the score is 0 whatever the
tracking state. -/
theorem blocking_gap_inert (T : Table) (c : Card)
    (hT : ∀ s : Nat, (∀ r, isOn T s r = false) ∨
      ∃ lo hi : Nat, lo ≤ 7 ∧ 7 ≤ hi ∧ ∀ r, isOn T s r = true ↔ lo ≤ r ∧ r ≤ hi)
    (hr : 1 ≤ c.rank ∧ c.rank ≤ 13) (hfresh : isOn T (u64 c.suit) (u64 c.rank) = false)
    (hplay : isPlayable c T = true) :
    Calculative_wouldCreateBlockingGap c T = false ∧
    Sentinel7_wouldCreateBlockingGap c T = false ∧
    ∀ isSuitStrengthForOpponent : Bool,
      blockingBonus isSuitStrengthForOpponent (Calculative_wouldCreateBlockingGap c T) = 0 ∧
      blockingBonus isSuitStrengthForOpponent (Sentinel7_wouldCreateBlockingGap c T) = 0 := by
  obtain ⟨hlow, hhigh⟩ := blocking_gap_false T c hT hr hfresh hplay
  have hC : Calculative_wouldCreateBlockingGap c T = false := by
    unfold Calculative_wouldCreateBlockingGap
    by_cases h5 : c.rank ≤ 5
    · rw [if_pos h5]
      simp [hlow h5]
    · rw [if_neg h5]
      by_cases h9 : c.rank ≥ 9
      · rw [if_pos h9]
        simp [hhigh h9]
      · rw [if_neg h9]
  have hS : Sentinel7_wouldCreateBlockingGap c T = false := by
    unfold Sentinel7_wouldCreateBlockingGap
    by_cases h5 : c.rank ≤ 5
    · rw [if_pos h5]
      simp [hlow h5]
    · rw [if_neg h5]
      by_cases h9 : c.rank ≥ 9
      · rw [if_pos h9]
        simp [hhigh h9]
      · rw [if_neg h9]
  refine ⟨hC, hS, fun b => ?_⟩
  rw [hC, hS]
  cases b <;> exact ⟨rfl, rfl⟩

theorem seven_eight_runs (s : Nat) :
    (∀ r, isOn (markPlayed read_game 2 8) s r = false) ∨
      ∃ lo hi : Nat, lo ≤ 7 ∧ 7 ≤ hi ∧
        ∀ r, isOn (markPlayed read_game 2 8) s r = true ↔ lo ≤ r ∧ r ≤ hi := by
  have hon : ∀ a b, isOn (markPlayed read_game 2 8) a b =
      ((decide (a = 2) && decide (b = 7)) || (decide (a = 2) && decide (b = 8))) := by
    intro a b
    unfold read_game
    rw [isOn_markPlayed, isOn_markPlayed]
    have : isOn (UMap.empty : Table) a b = false := rfl
    rw [this, Bool.false_or]
  by_cases hs : s = 2
  · right
    refine ⟨7, 8, by omega, by omega, fun r => ?_⟩
    rw [hon, hs]
    simp
    omega
  · left
    intro r
    rw [hon]
    simp [hs]

theorem blocking_gap_inert_witness :
    Calculative_wouldCreateBlockingGap ⟨2, 9⟩ (markPlayed read_game 2 8) = false ∧
    Sentinel7_wouldCreateBlockingGap ⟨2, 9⟩ (markPlayed read_game 2 8) = false ∧
    ∀ isSuitStrengthForOpponent : Bool,
      blockingBonus isSuitStrengthForOpponent
        (Calculative_wouldCreateBlockingGap ⟨2, 9⟩ (markPlayed read_game 2 8)) = 0 ∧
      blockingBonus isSuitStrengthForOpponent
        (Sentinel7_wouldCreateBlockingGap ⟨2, 9⟩ (markPlayed read_game 2 8)) = 0 :=
  blocking_gap_inert (markPlayed read_game 2 8) ⟨2, 9⟩ seven_eight_runs (by decide)
    (by decide) (by decide)


/-! ## Contiguous runs -/

theorem standardDeck_valid (c : Card) (hc : c ∈ standardDeck) :
    0 ≤ c.suit ∧ c.suit ≤ 3 ∧ 1 ≤ c.rank ∧ c.rank ≤ 13 := by
  have h : ∀ x, x ∈ standardDeck → 0 ≤ x.suit ∧ x.suit ≤ 3 ∧ 1 ≤ x.rank ∧ x.rank ≤ 13 := by
    decide
  exact h c hc

theorem mem_removeOpening (hands : List (List Card)) :
    ∀ hand, hand ∈ removeOpening hands → ∀ c, c ∈ hand →
      ∃ hand0, hand0 ∈ hands ∧ c ∈ hand0 := by
  induction hands with
  | nil =>
    intro hand h
    cases h
  | cons x xs ih =>
    intro hand h c hc
    simp only [removeOpening] at h
    split at h
    · rcases List.mem_cons.1 h with h1 | h1
      · subst h1
        exact ⟨x, List.mem_cons_self x xs, (List.eraseP_subset _) hc⟩
      · exact ⟨hand, List.mem_cons_of_mem x h1, hc⟩
    · rcases List.mem_cons.1 h with h1 | h1
      · subst h1
        exact ⟨hand, List.mem_cons_self hand xs, hc⟩
      · obtain ⟨hand0, h0, hc0⟩ := ih hand h1 c hc
        exact ⟨hand0, List.mem_cons_of_mem x h0, hc0⟩

theorem dealtRound_standard (nP : Nat) (deck : List Card) (r : Nat) (hnP : 0 < nP)
    (hd : deck.Perm standardDeck) : HandsStandard (dealtRound nP deck r) := by
  intro hand hh c hc
  have hh2 : hand ∈ removeOpening (deal nP (startPlayer nP r) deck) := hh
  obtain ⟨hand0, h0, hc0⟩ := mem_removeOpening _ hand hh2 c hc
  exact hd.mem_iff.1 (mem_deck_of_dealt nP _ deck hnP hand0 h0 c hc0)

theorem mem_of_mem_set_eraseIdx (hands : List (List Card)) (p i : Nat) (hand : List Card)
    (hh : hand ∈ hands.set p ((hands.getD p []).eraseIdx i)) (c : Card) (hc : c ∈ hand) :
    ∃ hand0, hand0 ∈ hands ∧ c ∈ hand0 := by
  rcases List.mem_or_eq_of_mem_set hh with h | h
  · exact ⟨hand, h, hc⟩
  · subst h
    have hc2 : c ∈ hands.getD p [] := (List.eraseIdx_subset _ _) hc
    by_cases hp : p < hands.length
    · rw [List.getD_eq_getElem _ _ hp] at hc2
      exact ⟨hands[p], List.getElem_mem hp, hc2⟩
    · rw [List.getD_eq_default _ _ (by omega)] at hc2
      cases hc2

theorem resolve_standard (nP : Nat) (idx : Int) (st : RoundState)
    (h : HandsStandard st) : HandsStandard (resolve nP idx st) := by
  cases hacc : accepted (st.hands.getD st.current_player []) idx st.table with
  | false =>
    rw [resolve_pass nP idx st hacc]
    exact h
  | true =>
    obtain ⟨_, _, c, hc, _⟩ := (accepted_iff _ _ _).1 hacc
    rw [resolve_accept nP idx st c hacc hc]
    intro hand hh x hx
    obtain ⟨hand0, h0, hx0⟩ := mem_of_mem_set_eraseIdx st.hands _ _ hand hh x hx
    exact h hand0 h0 x hx0

theorem read_game_isOn (a b : Nat) :
    isOn read_game a b = (decide (a = 2) && decide (b = 7)) := by
  unfold read_game
  rw [isOn_markPlayed]
  have : isOn (UMap.empty : Table) a b = false := rfl
  rw [this, Bool.false_or]

theorem read_game_contiguous : ContiguousRuns read_game := by
  intro s
  by_cases hs : s = 2
  · right
    refine ⟨7, 7, by omega, by omega, by omega, by omega, fun r => ?_⟩
    rw [read_game_isOn, hs]
    simp
    omega
  · left
    intro r
    rw [read_game_isOn]
    simp [hs]

theorem markPlayed_contiguous (T : Table) (c : Card) (hT : ContiguousRuns T)
    (hr : 1 ≤ c.rank ∧ c.rank ≤ 13) (hplay : isPlayable c T = true) :
    ContiguousRuns (markPlayed T (u64 c.suit) (u64 c.rank)) := by
  obtain ⟨n, hn, h1, h13, e0, e1, e2⟩ := u64_rank_facts c.rank hr.1 hr.2
  rw [e0]
  intro s
  by_cases hs : s = u64 c.suit
  · subst hs
    have hon : ∀ r, isOn (markPlayed T (u64 c.suit) n) (u64 c.suit) r = true ↔
        (isOn T (u64 c.suit) r = true ∨ r = n) := by
      intro r
      rw [isOn_markPlayed]
      simp
    right
    by_cases h7 : c.rank = 7
    · have hn7 : n = 7 := by omega
      subst hn7
      rw [isPlayable_seven T c h7] at hplay
      have h7off : isOn T (u64 c.suit) 7 = false := by simpa using hplay
      rcases hT (u64 c.suit) with hempty | ⟨lo, hi, _, hlo, hhi, _, hiff⟩
      · refine ⟨7, 7, by omega, by omega, by omega, by omega, fun r => ?_⟩
        rw [hon, hempty]
        simp
        omega
      · rw [(hiff 7).2 ⟨hlo, hhi⟩] at h7off
        exact absurd h7off (by simp)
    · rw [isPlayable_other T c h7, e1, e2, Bool.or_eq_true, Bool.and_eq_true,
        Bool.and_eq_true] at hplay
      rcases hT (u64 c.suit) with hempty | ⟨lo, hi, hlo1, hlo, hhi, hhi13, hiff⟩
      · rw [hempty, hempty] at hplay
        simp at hplay
      · have hnear : lo ≤ n + 1 ∧ n ≤ hi + 1 := by
          rcases hplay with ⟨_, h⟩ | ⟨_, h⟩
          · have := (hiff (n - 1)).1 h
            omega
          · have := (hiff (n + 1)).1 h
            omega
        by_cases hlt : n < lo
        · refine ⟨n, hi, h1, by omega, hhi, hhi13, fun r => ?_⟩
          rw [hon, hiff]
          omega
        · by_cases hgt : hi < n
          · refine ⟨lo, n, hlo1, hlo, by omega, h13, fun r => ?_⟩
            rw [hon, hiff]
            omega
          · refine ⟨lo, hi, hlo1, hlo, hhi, hhi13, fun r => ?_⟩
            rw [hon, hiff]
            omega
  · have hon : ∀ r, isOn (markPlayed T (u64 c.suit) n) s r = isOn T s r := by
      intro r
      rw [isOn_markPlayed]
      simp [hs]
    rcases hT s with hempty | ⟨lo, hi, hlo1, hlo, hhi, hhi13, hiff⟩
    · left
      intro r
      rw [hon, hempty]
    · right
      refine ⟨lo, hi, hlo1, hlo, hhi, hhi13, fun r => ?_⟩
      rw [hon, hiff]

theorem resolve_contiguous (nP : Nat) (idx : Int) (st : RoundState) (hwf : WF nP st)
    (h : ContiguousRuns st.table ∧ HandsStandard st) :
    ContiguousRuns (resolve nP idx st).table ∧ HandsStandard (resolve nP idx st) := by
  refine ⟨?_, resolve_standard nP idx st h.2⟩
  cases hacc : accepted (st.hands.getD st.current_player []) idx st.table with
  | false =>
    rw [resolve_pass nP idx st hacc]
    exact h.1
  | true =>
    obtain ⟨_, _, c, hc, hplay⟩ := (accepted_iff _ _ _).1 hacc
    rw [resolve_accept nP idx st c hacc hc]
    have hin : c ∈ st.hands.getD st.current_player [] := List.mem_iff_getElem?.2 ⟨_, hc⟩
    have hhand : st.hands.getD st.current_player [] ∈ st.hands :=
      List.mem_iff_getElem?.2 ⟨_, hand_of_WF hwf⟩
    exact markPlayed_contiguous st.table c h.1
      (standardDeck_valid c (h.2 _ hhand c hin)).2.2 hplay

/-- C33: in a round dealt from a shuffled standard deck, at the start of the turn
loop and after every number `k` of turns, whatever the strategies return, for every
suit the ranks marked played on the table are none or exactly those of an interval
`lo..hi` with `1 ≤ lo ≤ 7 ≤ hi ≤ 13`. -/
theorem contiguous_runs (nP : Nat) (deck : List Card) (r : Nat) (sel : Nat → Int)
    (k : Nat) (hnP : 1 ≤ nP) (hd : deck.Perm standardDeck) :
    ∀ s : Nat,
      (∀ rank, isOn (stateAfter nP sel (dealtRound nP deck r) k).table s rank = false) ∨
      ∃ lo hi : Nat, 1 ≤ lo ∧ lo ≤ 7 ∧ 7 ≤ hi ∧ hi ≤ 13 ∧
        ∀ rank, isOn (stateAfter nP sel (dealtRound nP deck r) k).table s rank = true ↔
          lo ≤ rank ∧ rank ≤ hi :=
  (stateAfter_induction nP sel (dealtRound nP deck r)
    (fun st => ContiguousRuns st.table ∧ HandsStandard st)
    (dealtRound_WF nP deck r (by omega))
    ⟨read_game_contiguous, dealtRound_standard nP deck r (by omega) hd⟩
    (fun st idx hwf _ hP => resolve_contiguous nP idx st hwf hP) k).2.1

theorem contiguous_runs_witness :
    (1 ≤ 2 ∧ standardDeck.Perm standardDeck) ∧
    ((∀ rank, isOn (stateAfter 2 (fun k => if k = 0 then 16 else -1)
        (dealtRound 2 standardDeck 0) 3).table 2 rank = false) ∨
      ∃ lo hi : Nat, 1 ≤ lo ∧ lo ≤ 7 ∧ 7 ≤ hi ∧ hi ≤ 13 ∧
        ∀ rank, isOn (stateAfter 2 (fun k => if k = 0 then 16 else -1)
          (dealtRound 2 standardDeck 0) 3).table 2 rank = true ↔ lo ≤ rank ∧ rank ≤ hi) :=
  ⟨⟨by decide, List.Perm.refl standardDeck⟩,
    contiguous_runs 2 standardDeck 0 (fun k => if k = 0 then 16 else -1) 3 (by decide)
      (List.Perm.refl standardDeck) 2⟩

/-! ## Card partition -/

theorem perm_cons_eraseIdx (c : Card) :
    ∀ (l : List Card) (i : Nat), l[i]? = some c → l.Perm (c :: l.eraseIdx i) := by
  intro l
  induction l with
  | nil =>
    intro i h
    simp at h
  | cons x xs ih =>
    intro i h
    cases i with
    | zero =>
      rw [List.getElem?_cons_zero] at h
      injection h with h
      subst h
      rw [List.eraseIdx_cons_zero]
    | succ i =>
      rw [List.getElem?_cons_succ] at h
      rw [List.eraseIdx_cons_succ]
      exact ((ih i h).cons x).trans (List.Perm.swap c x _)

theorem flatten_set_perm (c : Card) (hand2 : List Card) :
    ∀ (hands : List (List Card)) (p : Nat) (hand : List Card), hands[p]? = some hand →
      hand.Perm (c :: hand2) → hands.flatten.Perm (c :: (hands.set p hand2).flatten) := by
  intro hands
  induction hands with
  | nil =>
    intro p hand h
    simp at h
  | cons x xs ih =>
    intro p hand h hperm
    cases p with
    | zero =>
      rw [List.getElem?_cons_zero] at h
      injection h with h
      subst h
      rw [List.set_cons_zero, List.flatten_cons, List.flatten_cons]
      exact hperm.append_right _
    | succ p =>
      rw [List.getElem?_cons_succ] at h
      rw [List.set_cons_succ, List.flatten_cons, List.flatten_cons]
      exact ((ih p hand h hperm).append_left x).trans List.perm_middle

theorem u64_small (x : Int) (h0 : 0 ≤ x) (h : x ≤ 13) : u64 x = x.toNat := by
  have h2 := u64_ofNat x.toNat (by omega)
  rwa [Int.toNat_of_nonneg h0] at h2

theorem standard_key_inj (x y : Card) (hx : x ∈ standardDeck) (hy : y ∈ standardDeck) :
    (u64 x.suit = u64 y.suit ∧ u64 x.rank = u64 y.rank) ↔ x = y := by
  obtain ⟨a0, a3, a1, a13⟩ := standardDeck_valid x hx
  obtain ⟨b0, b3, b1, b13⟩ := standardDeck_valid y hy
  rw [u64_small x.suit a0 (by omega), u64_small y.suit b0 (by omega),
    u64_small x.rank (by omega) a13, u64_small y.rank (by omega) b13]
  constructor
  · rintro ⟨h1, h2⟩
    have e1 : x.suit = y.suit := by omega
    have e2 : x.rank = y.rank := by omega
    cases x
    cases y
    simp only at e1 e2
    rw [e1, e2]
  · intro h
    rw [h]
    exact ⟨rfl, rfl⟩

theorem dealtRound_partition (nP : Nat) (deck : List Card) (r : Nat) (hnP : 0 < nP)
    (hd : deck.Perm standardDeck) : CardPartition (dealtRound nP deck r) := by
  have hflat : (deal nP (startPlayer nP r) deck).flatten.Perm standardDeck :=
    (deal_spec nP _ deck hnP).2.trans hd
  have hopen : ∃ hand ∈ deal nP (startPlayer nP r) deck, (⟨2, 7⟩ : Card) ∈ hand :=
    List.mem_flatten.1 (hflat.mem_iff.2 opening_mem_standardDeck)
  obtain ⟨p, hand, hp, hmem, hrem⟩ := removeOpening_spec _ hopen
  have hperm := flatten_set_perm ⟨2, 7⟩ (hand.erase ⟨2, 7⟩) _ p hand hp
    (List.perm_cons_erase hmem)
  rw [← hrem] at hperm
  have hstd : standardDeck.Perm
      (⟨2, 7⟩ :: (removeOpening (deal nP (startPlayer nP r) deck)).flatten) :=
    hflat.symm.trans hperm
  have hnd := (hstd.nodup_iff.1 standardDeck_nodup)
  rw [List.nodup_cons] at hnd
  refine ⟨hnd.2, dealtRound_standard nP deck r hnP hd, ?_⟩
  intro c hc
  show c ∈ (removeOpening (deal nP (startPlayer nP r) deck)).flatten ↔
    isOn read_game (u64 c.suit) (u64 c.rank) = false
  have h27 : (u64 c.suit = u64 (2 : Int) ∧ u64 c.rank = u64 (7 : Int)) ↔ c = ⟨2, 7⟩ :=
    standard_key_inj c ⟨2, 7⟩ hc opening_mem_standardDeck
  have e2 : u64 (2 : Int) = 2 := by decide
  have e7 : u64 (7 : Int) = 7 := by decide
  rw [e2, e7] at h27
  rw [read_game_isOn]
  have hmem2 := hstd.mem_iff (a := c)
  rw [List.mem_cons] at hmem2
  constructor
  · intro hin
    have hne : c ≠ ⟨2, 7⟩ := fun h => hnd.1 (h ▸ hin)
    have : ¬ (u64 c.suit = 2 ∧ u64 c.rank = 7) := fun h => hne (h27.1 h)
    simpa using this
  · intro hoff
    have : ¬ (u64 c.suit = 2 ∧ u64 c.rank = 7) := by simpa using hoff
    rcases hmem2.1 hc with h | h
    · exact absurd (h27.2 h) this
    · exact h

theorem resolve_partition (nP : Nat) (idx : Int) (st : RoundState) (hwf : WF nP st)
    (h : CardPartition st) : CardPartition (resolve nP idx st) := by
  cases hacc : accepted (st.hands.getD st.current_player []) idx st.table with
  | false =>
    rw [resolve_pass nP idx st hacc]
    exact h
  | true =>
    obtain ⟨_, _, c0, hc0, _⟩ := (accepted_iff _ _ _).1 hacc
    have hstd2 := resolve_standard nP idx st h.2.1
    rw [resolve_accept nP idx st c0 hacc hc0] at hstd2 ⊢
    have hperm := flatten_set_perm c0
      ((st.hands.getD st.current_player []).eraseIdx idx.toNat) st.hands
      st.current_player _ (hand_of_WF hwf) (perm_cons_eraseIdx c0 _ _ hc0)
    have hnd := hperm.nodup_iff.1 h.1
    rw [List.nodup_cons] at hnd
    have hc0std : c0 ∈ standardDeck :=
      h.2.1 _ (List.mem_iff_getElem?.2 ⟨_, hand_of_WF hwf⟩) c0
        (List.mem_iff_getElem?.2 ⟨_, hc0⟩)
    refine ⟨hnd.2, hstd2, ?_⟩
    intro c hc
    show c ∈ (st.hands.set st.current_player
        ((st.hands.getD st.current_player []).eraseIdx idx.toNat)).flatten ↔
      isOn (markPlayed st.table (u64 c0.suit) (u64 c0.rank)) (u64 c.suit) (u64 c.rank) =
        false
    have hkey := standard_key_inj c c0 hc hc0std
    have hold := h.2.2 c hc
    have hmem2 := hperm.mem_iff (a := c)
    rw [List.mem_cons] at hmem2
    rw [isOn_markPlayed]
    constructor
    · intro hin
      have hne : c ≠ c0 := fun e => hnd.1 (e ▸ hin)
      have hoff : isOn st.table (u64 c.suit) (u64 c.rank) = false :=
        hold.1 (hmem2.2 (Or.inr hin))
      have : ¬ (u64 c.suit = u64 c0.suit ∧ u64 c.rank = u64 c0.rank) :=
        fun e => hne (hkey.1 e)
      rw [hoff]
      simpa using this
    · intro hoff
      rw [Bool.or_eq_false_iff] at hoff
      have hne : ¬ (u64 c.suit = u64 c0.suit ∧ u64 c.rank = u64 c0.rank) := by
        simpa using hoff.2
      rcases hmem2.1 (hold.2 hoff.1) with e | e
      · exact absurd (hkey.2 e) hne
      · exact e

/-- C32: in a round dealt from a shuffled standard deck, at the start of the turn
loop and after every number `k` of turns, each card of the standard deck is either
not marked played and held exactly once over all the hands, or marked played and
held in no hand; no hand contains a card that is marked played, every card held is
a card of the deck, and no card is held twice. -/
theorem card_partition (nP : Nat) (deck : List Card) (r : Nat) (sel : Nat → Int) (k : Nat)
    (hnP : 1 ≤ nP) (hd : deck.Perm standardDeck) :
    (∀ c, c ∈ standardDeck →
      (isOn (stateAfter nP sel (dealtRound nP deck r) k).table (u64 c.suit) (u64 c.rank)
          = false ∧
        ((stateAfter nP sel (dealtRound nP deck r) k).hands.map
          (fun hand => hand.count c)).sum = 1) ∨
      (isOn (stateAfter nP sel (dealtRound nP deck r) k).table (u64 c.suit) (u64 c.rank)
          = true ∧
        ∀ hand, hand ∈ (stateAfter nP sel (dealtRound nP deck r) k).hands → c ∉ hand)) ∧
    (∀ hand, hand ∈ (stateAfter nP sel (dealtRound nP deck r) k).hands →
      ∀ c, c ∈ hand → c ∈ standardDeck ∧
        isOn (stateAfter nP sel (dealtRound nP deck r) k).table (u64 c.suit) (u64 c.rank)
          = false) ∧
    (stateAfter nP sel (dealtRound nP deck r) k).hands.flatten.Nodup := by
  obtain ⟨hnd, hstd, hex⟩ := (stateAfter_induction nP sel (dealtRound nP deck r)
    CardPartition (dealtRound_WF nP deck r (by omega))
    (dealtRound_partition nP deck r (by omega) hd)
    (fun st idx hwf _ hP => resolve_partition nP idx st hwf hP) k).2
  refine ⟨?_, ?_, hnd⟩
  · intro c hc
    cases hon : isOn (stateAfter nP sel (dealtRound nP deck r) k).table (u64 c.suit)
        (u64 c.rank) with
    | false =>
      left
      refine ⟨rfl, ?_⟩
      rw [← List.count_flatten]
      exact List.count_eq_one_of_mem hnd ((hex c hc).2 hon)
    | true =>
      right
      refine ⟨rfl, ?_⟩
      intro hand hh hin
      have := (hex c hc).1 (List.mem_flatten.2 ⟨hand, hh, hin⟩)
      rw [hon] at this
      exact absurd this (by simp)
  · intro hand hh c hin
    have hc := hstd hand hh c hin
    exact ⟨hc, (hex c hc).1 (List.mem_flatten.2 ⟨hand, hh, hin⟩)⟩

theorem card_partition_witness :
    1 ≤ 2 ∧ standardDeck.Perm standardDeck ∧
    (∀ c, c ∈ standardDeck →
      (isOn (stateAfter 2 (fun k => if k = 0 then 16 else -1)
          (dealtRound 2 standardDeck 0) 3).table (u64 c.suit) (u64 c.rank) = false ∧
        ((stateAfter 2 (fun k => if k = 0 then 16 else -1)
          (dealtRound 2 standardDeck 0) 3).hands.map (fun hand => hand.count c)).sum = 1) ∨
      (isOn (stateAfter 2 (fun k => if k = 0 then 16 else -1)
          (dealtRound 2 standardDeck 0) 3).table (u64 c.suit) (u64 c.rank) = true ∧
        ∀ hand, hand ∈ (stateAfter 2 (fun k => if k = 0 then 16 else -1)
          (dealtRound 2 standardDeck 0) 3).hands → c ∉ hand)) :=
  ⟨by decide, List.Perm.refl standardDeck,
    (card_partition 2 standardDeck 0 (fun k => if k = 0 then 16 else -1) 3 (by decide)
      (List.Perm.refl standardDeck)).1⟩


/-! ## Single finisher -/

theorem dealt_hand_ge_two (nP s : Nat) (deck : List Card) (h1 : 1 ≤ nP) (h26 : nP ≤ 26)
    (hs : s < nP) (hlen : deck.length = 52) (hand : List Card)
    (hh : hand ∈ deal nP s deck) : 2 ≤ hand.length := by
  obtain ⟨p, hp⟩ := List.mem_iff_getElem?.1 hh
  have hplt : p < nP := by
    have := (List.getElem?_eq_some_iff.1 hp).1
    rwa [(deal_spec nP s deck (by omega)).1] at this
  rw [deal_getElem? nP s deck p hplt] at hp
  injection hp with hp
  rw [← hp, dealt_hand_length, count_positions nP s p hs hplt, hlen]
  have : 2 ≤ 52 / nP := (Nat.le_div_iff_mul_le (by omega)).2 (by omega)
  omega

theorem dealtRound_no_empty (nP : Nat) (deck : List Card) (r : Nat) (h1 : 1 ≤ nP)
    (h26 : nP ≤ 26) (hd : deck.Perm standardDeck) :
    ∀ hand, hand ∈ (dealtRound nP deck r).hands → hand ≠ [] := by
  have hlen : deck.length = 52 := by rw [hd.length_eq, standardDeck_length]
  have hs : startPlayer nP r < nP := Nat.mod_lt _ (by omega)
  have hge := dealt_hand_ge_two nP (startPlayer nP r) deck h1 h26 hs hlen
  have hflat : (deal nP (startPlayer nP r) deck).flatten.Perm standardDeck :=
    (deal_spec nP _ deck (by omega)).2.trans hd
  have hopen : ∃ hand ∈ deal nP (startPlayer nP r) deck, (⟨2, 7⟩ : Card) ∈ hand :=
    List.mem_flatten.1 (hflat.mem_iff.2 opening_mem_standardDeck)
  obtain ⟨p, hand0, hp, hmem, hrem⟩ := removeOpening_spec _ hopen
  intro hand hh
  have hh2 : hand ∈ removeOpening (deal nP (startPlayer nP r) deck) := hh
  rw [hrem] at hh2
  have h0 : 2 ≤ hand0.length := hge hand0 (List.mem_iff_getElem?.2 ⟨p, hp⟩)
  have hl : 1 ≤ hand.length := by
    rcases List.mem_or_eq_of_mem_set hh2 with h | h
    · have := hge hand h
      omega
    · rw [h, List.length_erase_of_mem hmem]
      omega
  intro he
  rw [he] at hl
  simp at hl

theorem resolve_no_empty (nP : Nat) (idx : Int) (st : RoundState)
    (hgo : st.game_over = false) (h : NoEmptyHand st) : NoEmptyHand (resolve nP idx st) := by
  cases hacc : accepted (st.hands.getD st.current_player []) idx st.table with
  | false =>
    rw [resolve_pass nP idx st hacc]
    intro _
    exact h hgo
  | true =>
    obtain ⟨_, _, c, hc, _⟩ := (accepted_iff _ _ _).1 hacc
    rw [resolve_accept nP idx st c hacc hc]
    intro hover hand hh
    have hover2 : ((st.game_over ||
        ((st.hands.getD st.current_player []).eraseIdx idx.toNat).isEmpty) ||
        (st.passed.set st.current_player false).all (fun b => b)) = false := hover
    rw [Bool.or_eq_false_iff, Bool.or_eq_false_iff] at hover2
    have hh2 : hand ∈ st.hands.set st.current_player
        ((st.hands.getD st.current_player []).eraseIdx idx.toNat) := hh
    rcases List.mem_or_eq_of_mem_set hh2 with h1 | h1
    · exact h hgo hand h1
    · intro he
      rw [h1] at he
      rw [he] at hover2
      exact absurd hover2.1.2 (by simp)

theorem last_turn_zero (nP : Nat) (idx : Int) (st : RoundState) (hwf : WF nP st)
    (hne : ∀ hand, hand ∈ st.hands → hand ≠ []) (i : Nat) (hi : i < nP)
    (h0 : (resolve nP idx st).scores.getD i 0 = 0) :
    i = st.current_player ∧
      accepted (st.hands.getD st.current_player []) idx st.table = true := by
  have hold : st.scores.getD i 0 ≠ 0 := by
    rw [hwf.scores_eq, List.getD_eq_getElem?_getD, List.getElem?_map]
    have hil : i < st.hands.length := by rw [hwf.hands_len]; exact hi
    rw [List.getElem?_eq_getElem hil]
    simp only [Option.map_some', Option.getD_some]
    have := hne _ (List.getElem_mem hil)
    intro hz
    exact this (List.length_eq_zero.1 hz)
  cases hacc : accepted (st.hands.getD st.current_player []) idx st.table with
  | false =>
    rw [resolve_pass nP idx st hacc] at h0
    exact absurd h0 hold
  | true =>
    refine ⟨?_, rfl⟩
    obtain ⟨_, _, c, hc, _⟩ := (accepted_iff _ _ _).1 hacc
    rw [resolve_accept nP idx st c hacc hc] at h0
    by_contra hne2
    have h1 : (st.scores.set st.current_player
        ((st.hands.getD st.current_player []).eraseIdx idx.toNat).length).getD i 0 =
        st.scores.getD i 0 := by
      rw [List.getD_eq_getElem?_getD, List.getElem?_set_ne (fun e => hne2 e.symm),
        ← List.getD_eq_getElem?_getD]
    have h2 : st.scores.getD i 0 = 0 := h1.symm.trans h0
    exact hold h2

/-- C36: for `1 ≤ nP ≤ 26` and a shuffled standard deck, whatever the strategies
return, no hand is empty as long as the round is not over; in the ranking returned
at most one entry has count 0, and the player of such an entry is the current player
of the last turn, whose move was accepted. -/
theorem single_finisher (srt : StdSort (Nat × Nat) scoreLess) (nP : Nat) (deck : List Card)
    (r : Nat) (sel : Nat → Int) (h1 : 1 ≤ nP) (h26 : nP ≤ 26)
    (hd : deck.Perm standardDeck) :
    (∀ k, (stateAfter nP sel (dealtRound nP deck r) k).game_over = false →
      ∀ i, i < nP → ∃ hand,
        (stateAfter nP sel (dealtRound nP deck r) k).hands[i]? = some hand ∧ hand ≠ []) ∧
    ∀ fuel, roundFuel nP deck.length ≤ fuel →
      ∃ res K, compute_game_progress srt fuel nP deck r sel = some res ∧
        (stateAfter nP sel (dealtRound nP deck r) K).game_over = false ∧
        (stateAfter nP sel (dealtRound nP deck r) (K + 1)).game_over = true ∧
        (∀ e1 e2, e1 ∈ res → e2 ∈ res → e1.2 = 0 → e2.2 = 0 → e1 = e2) ∧
        (∀ e, e ∈ res → e.2 = 0 →
          (stateAfter nP sel (dealtRound nP deck r) K).current_player = e.1 ∧
          accepted ((stateAfter nP sel (dealtRound nP deck r) K).hands.getD e.1 [])
            (sel (stateAfter nP sel (dealtRound nP deck r) K).turns)
            (stateAfter nP sel (dealtRound nP deck r) K).table = true) := by
  have hwf0 := dealtRound_WF nP deck r (by omega)
  have hinv : ∀ k, WF nP (stateAfter nP sel (dealtRound nP deck r) k) ∧
      NoEmptyHand (stateAfter nP sel (dealtRound nP deck r) k) := fun k =>
    stateAfter_induction nP sel (dealtRound nP deck r) NoEmptyHand hwf0
      (fun _ => dealtRound_no_empty nP deck r h1 h26 hd)
      (fun st idx _ hgo hP => resolve_no_empty nP idx st hgo hP) k
  refine ⟨?_, ?_⟩
  · intro k hgo i hi
    have hil : i < (stateAfter nP sel (dealtRound nP deck r) k).hands.length := by
      rw [(hinv k).1.hands_len]; exact hi
    exact ⟨_, List.getElem?_eq_getElem hil, (hinv k).2 hgo _ (List.getElem_mem hil)⟩
  · intro fuel hf
    obtain ⟨k, _, hover, hbefore, hplay⟩ := playRound_result nP deck r sel (by omega)
    obtain ⟨K, rfl⟩ : ∃ K, k = K + 1 := by
      rcases Nat.eq_zero_or_pos k with h | h
      · subst h
        have h0 : (dealtRound nP deck r).game_over = false := rfl
        have h2 : (dealtRound nP deck r).game_over = true := hover
        rw [h0] at h2
        exact absurd h2 Bool.false_ne_true
      · exact ⟨k - 1, by omega⟩
    have hgoK := hbefore K (Nat.lt_succ_self K)
    have hstep := stateAfter_succ_of_WF nP sel (dealtRound nP deck r) K (hinv K).1 hgoK
    have hzero : ∀ e, e ∈ srt.run (scoreWithId nP
        (stateAfter nP sel (dealtRound nP deck r) (K + 1)).scores) → e.2 = 0 →
        e.1 = (stateAfter nP sel (dealtRound nP deck r) K).current_player ∧
        accepted ((stateAfter nP sel (dealtRound nP deck r) K).hands.getD
            (stateAfter nP sel (dealtRound nP deck r) K).current_player [])
          (sel (stateAfter nP sel (dealtRound nP deck r) K).turns)
          (stateAfter nP sel (dealtRound nP deck r) K).table = true := by
      intro e he h0
      obtain ⟨i, hi, rfl⟩ := (mem_scoreWithId _ _ e).1 ((srt.perm _).mem_iff.1 he)
      rw [hstep] at h0
      exact last_turn_zero nP _ _ (hinv K).1 ((hinv K).2 hgoK) i hi h0
    refine ⟨srt.run (scoreWithId nP
      (stateAfter nP sel (dealtRound nP deck r) (K + 1)).scores), K, ?_, hgoK, hover, ?_, ?_⟩
    · unfold compute_game_progress
      rw [hplay fuel hf]
      rfl
    · intro e1 e2 he1 he2 h1z h2z
      have a1 := (hzero e1 he1 h1z).1
      have a2 := (hzero e2 he2 h2z).1
      exact Prod.ext (a1.trans a2.symm) (h1z.trans h2z.symm)
    · intro e he hz
      obtain ⟨a1, a2⟩ := hzero e he hz
      rw [a1]
      exact ⟨rfl, a2⟩

theorem single_finisher_witness :
    (1 ≤ 4 ∧ 4 ≤ 26 ∧ standardDeck.Perm standardDeck) ∧
    (∀ k, (stateAfter 4 (fun _ => 0) (dealtRound 4 standardDeck 1) k).game_over = false →
      ∀ i, i < 4 → ∃ hand,
        (stateAfter 4 (fun _ => 0) (dealtRound 4 standardDeck 1) k).hands[i]? = some hand ∧
          hand ≠ []) ∧
    ∀ fuel, roundFuel 4 standardDeck.length ≤ fuel →
      ∃ res K, compute_game_progress insertionStdSort fuel 4 standardDeck 1 (fun _ => 0) =
          some res ∧
        (stateAfter 4 (fun _ => 0) (dealtRound 4 standardDeck 1) K).game_over = false ∧
        (stateAfter 4 (fun _ => 0) (dealtRound 4 standardDeck 1) (K + 1)).game_over = true ∧
        (∀ e1 e2, e1 ∈ res → e2 ∈ res → e1.2 = 0 → e2.2 = 0 → e1 = e2) ∧
        (∀ e, e ∈ res → e.2 = 0 →
          (stateAfter 4 (fun _ => 0) (dealtRound 4 standardDeck 1) K).current_player = e.1 ∧
          accepted ((stateAfter 4 (fun _ => 0) (dealtRound 4 standardDeck 1) K).hands.getD
              e.1 [])
            ((fun _ => 0) (stateAfter 4 (fun _ => 0) (dealtRound 4 standardDeck 1) K).turns)
            (stateAfter 4 (fun _ => 0) (dealtRound 4 standardDeck 1) K).table = true) :=
  ⟨⟨by decide, by decide, List.Perm.refl standardDeck⟩,
    single_finisher insertionStdSort 4 standardDeck 1 (fun _ => 0) (by decide) (by decide)
      (List.Perm.refl standardDeck)⟩

/-! ## Termination of the tournament -/

theorem round_outcome (nP : Nat) (deck : List Card) (r : Nat) (sel : Nat → Int)
    (fuel : Nat) (h1 : 1 ≤ nP) (h26 : nP ≤ 26) (hd : deck.Perm standardDeck)
    (hf : roundFuel nP 52 ≤ fuel) :
    ∃ st, playRound fuel nP deck r sel = some st ∧ st.scores.length = nP ∧
      (∀ x, x ∈ st.scores → x ≤ 51) ∧
      (∀ i j, i < nP → j < nP → st.scores.getD i 0 = 0 → st.scores.getD j 0 = 0 →
        i = j) := by
  have hlen : deck.length = 52 := by rw [hd.length_eq, standardDeck_length]
  obtain ⟨k, _, hover, hbefore, hplay⟩ := playRound_result nP deck r sel (by omega)
  rw [hlen] at hplay
  have hinv : ∀ k, WF nP (stateAfter nP sel (dealtRound nP deck r) k) ∧
      (NoEmptyHand (stateAfter nP sel (dealtRound nP deck r) k) ∧
        cardsHeld (stateAfter nP sel (dealtRound nP deck r) k) +
          (stateAfter nP sel (dealtRound nP deck r) k).moves = 51) := fun k =>
    stateAfter_induction nP sel (dealtRound nP deck r)
      (fun st => NoEmptyHand st ∧ cardsHeld st + st.moves = 51)
      (dealtRound_WF nP deck r (by omega))
      ⟨fun _ => dealtRound_no_empty nP deck r h1 h26 hd, by
        show cardsHeld (dealtRound nP deck r) + 0 = 51
        rw [dealtRound_cards nP deck r (by omega) hd]⟩
      (fun st idx hwf hgo hP =>
        ⟨resolve_no_empty nP idx st hgo hP.1, (resolve_conserves nP idx st hwf).trans hP.2⟩)
      k
  obtain ⟨K, rfl⟩ : ∃ K, k = K + 1 := by
    rcases Nat.eq_zero_or_pos k with h | h
    · subst h
      have h0 : (dealtRound nP deck r).game_over = false := rfl
      have h2 : (dealtRound nP deck r).game_over = true := hover
      rw [h0] at h2
      exact absurd h2 Bool.false_ne_true
    · exact ⟨k - 1, by omega⟩
  have hgoK := hbefore K (Nat.lt_succ_self K)
  have hstep := stateAfter_succ_of_WF nP sel (dealtRound nP deck r) K (hinv K).1 hgoK
  refine ⟨_, hplay fuel hf, (hinv (K + 1)).1.scores_len, ?_, ?_⟩
  · intro x hx
    rw [(hinv (K + 1)).1.scores_eq] at hx
    have hle := List.single_le_sum (fun _ _ => Nat.zero_le _) x hx
    have := (hinv (K + 1)).2.2
    unfold cardsHeld at this
    omega
  · intro i j hi hj hzi hzj
    rw [hstep] at hzi hzj
    have a := (last_turn_zero nP _ _ (hinv K).1 ((hinv K).2.1 hgoK) i hi hzi).1
    have b := (last_turn_zero nP _ _ (hinv K).1 ((hinv K).2.1 hgoK) j hj hzj).1
    exact a.trans b.symm

theorem length_le_sum_of_pos (l : List Nat) (h : ∀ x, x ∈ l → 1 ≤ x) : l.length ≤ l.sum := by
  induction l with
  | nil => simp
  | cons x xs ih =>
    have hx := h x (List.mem_cons_self x xs)
    have := ih (fun y hy => h y (List.mem_cons_of_mem x hy))
    rw [List.length_cons, List.sum_cons]
    omega

theorem length_le_sum_succ (l : List Nat)
    (h : ∀ i j, i < l.length → j < l.length → l.getD i 0 = 0 → l.getD j 0 = 0 → i = j) :
    l.length ≤ l.sum + 1 := by
  induction l with
  | nil => simp
  | cons x xs ih =>
    rw [List.length_cons, List.sum_cons]
    by_cases hx : x = 0
    · have hpos : ∀ y, y ∈ xs → 1 ≤ y := by
        intro y hy
        obtain ⟨j, hj, hyj⟩ := mem_getD xs y hy
        by_contra hlt
        have hy0 : y = 0 := by omega
        have := h 0 (j + 1) (by simp) (by simp; omega) (by simpa using hx)
          (by
            rw [List.getD_cons_succ, ← hyj]
            exact hy0)
        omega
      have := length_le_sum_of_pos xs hpos
      omega
    · have := ih (fun i j hi hj hzi hzj => by
        have := h (i + 1) (j + 1) (by simp; omega) (by simp; omega)
          (by rw [List.getD_cons_succ]; exact hzi) (by rw [List.getD_cons_succ]; exact hzj)
        omega)
      omega

theorem sum_getD_range (l : List Nat) :
    ((List.range l.length).map (fun p => l.getD p 0)).sum = l.sum := by
  have : (List.range l.length).map (fun p => l.getD p 0) = l := by
    apply List.ext_getElem
    · simp
    · intro i h1 h2
      simp only [List.getElem_map, List.getElem_range]
      exact List.getD_eq_getElem _ _ h2
  rw [this]

theorem totalSum_succ (nP : Nat) (sc : Nat → List Nat) (k : Nat)
    (hl : (sc (k + 1)).length = nP) :
    totalSum nP sc (k + 1) = totalSum nP sc k + (sc (k + 1)).sum := by
  unfold totalSum
  have : (fun p => cumulativeTotal sc p (k + 1)) =
      fun p => cumulativeTotal sc p k + (sc (k + 1)).getD p 0 := by
    funext p
    rfl
  rw [this, List.sum_map_add, ← hl, sum_getD_range]

theorem totalSum_ge (nP : Nat) (sc : Nat → List Nat)
    (h : ∀ k, (sc (k + 1)).length = nP ∧ nP ≤ (sc (k + 1)).sum + 1) :
    ∀ K, K * (nP - 1) ≤ totalSum nP sc K := by
  intro K
  induction K with
  | zero => simp
  | succ K ih =>
    rw [totalSum_succ nP sc K (h K).1, Nat.succ_mul]
    have := (h K).2
    omega

theorem stop_within (nP maxScore : Nat) (sc : Nat → List Nat) (h2 : 2 ≤ nP)
    (h : ∀ k, (sc (k + 1)).length = nP ∧ nP ≤ (sc (k + 1)).sum + 1) :
    ∃ p, p < nP ∧ cumulativeTotal sc p (max 1 (2 * maxScore)) ≥ maxScore := by
  by_contra hno
  have hlt : ∀ p, p < nP → cumulativeTotal sc p (max 1 (2 * maxScore)) < maxScore := by
    intro p hp
    by_contra hge
    exact hno ⟨p, hp, by omega⟩
  have hm : 1 ≤ maxScore := by
    have := hlt 0 (by omega)
    omega
  have hK : max 1 (2 * maxScore) = 2 * maxScore := by omega
  rw [hK] at hlt
  have hlow := totalSum_ge nP sc h (2 * maxScore)
  have hup : totalSum nP sc (2 * maxScore) ≤ nP * (maxScore - 1) := by
    unfold totalSum
    have := List.sum_le_card_nsmul ((List.range nP).map
      (fun p => cumulativeTotal sc p (2 * maxScore))) (maxScore - 1)
      (by
        intro x hx
        obtain ⟨p, hp, rfl⟩ := List.mem_map.1 hx
        have := hlt p (List.mem_range.1 hp)
        omega)
    simpa using this
  obtain ⟨n, rfl⟩ : ∃ n, nP = n + 2 := ⟨nP - 2, by omega⟩
  obtain ⟨m, rfl⟩ : ∃ m, maxScore = m + 1 := ⟨maxScore - 1, by omega⟩
  have e1 : n + 2 - 1 = n + 1 := by omega
  have e2 : m + 1 - 1 = m := by omega
  rw [e1] at hlow
  rw [e2] at hup
  have hle : 2 * (m + 1) * (n + 1) ≤ (n + 2) * m := le_trans hlow hup
  nlinarith [Nat.zero_le (m * n)]

theorem rounds_ok (srt : StdSort (Nat × Nat) scoreLess) (fuelR nP : Nat)
    (decks : Nat → List Card) (rs : Nat → Nat) (sels : Nat → Nat → Int)
    (h1 : 1 ≤ nP) (h26 : nP ≤ 26) (hd : ∀ k, (decks k).Perm standardDeck)
    (hf : roundFuel nP 52 ≤ fuelR) (k : Nat) :
    ∃ res, roundsOf srt fuelR nP decks rs sels k = some res ∧
      res.Perm (scoreWithId nP (roundScoresOf fuelR nP decks rs sels k)) ∧
      (roundScoresOf fuelR nP decks rs sels k).length = nP ∧
      (∀ x, x ∈ roundScoresOf fuelR nP decks rs sels k → x < 2 ^ 64) ∧
      nP ≤ (roundScoresOf fuelR nP decks rs sels k).sum + 1 ∧
      (res.map Prod.snd).sum = (roundScoresOf fuelR nP decks rs sels k).sum ∧
      ∀ x, x ∈ roundScoresOf fuelR nP decks rs sels k → x ≤ 51 := by
  obtain ⟨st, hplay, hlen, hle, hz⟩ :=
    round_outcome nP (decks k) (rs k) (sels k) fuelR h1 h26 (hd k) hf
  have hsc : roundScoresOf fuelR nP decks rs sels k = st.scores := by
    unfold roundScoresOf
    rw [hplay]
  rw [hsc]
  refine ⟨srt.run (scoreWithId nP st.scores), ?_, srt.perm _, hlen, ?_, ?_, ?_, hle⟩
  · unfold roundsOf compute_game_progress
    rw [hplay]
    rfl
  · intro x hx
    have := hle x hx
    have : (51 : Nat) < 2 ^ 64 := by norm_num
    omega
  · have := length_le_sum_succ st.scores (by rw [hlen]; exact hz)
    omega
  · rw [((srt.perm _).map Prod.snd).sum_eq, scoreWithId_snd _ _ hlen]


theorem cumulativeTotal_step_le (sc : Nat → List Nat) (p k : Nat)
    (h : ∀ x, x ∈ sc (k + 1) → x ≤ 51) :
    cumulativeTotal sc p (k + 1) ≤ cumulativeTotal sc p k + 51 := by
  have e : cumulativeTotal sc p (k + 1) =
      cumulativeTotal sc p k + (sc (k + 1)).getD p 0 := rfl
  have hx : (sc (k + 1)).getD p 0 ≤ 51 := by
    by_cases hp : p < (sc (k + 1)).length
    · exact h _ (getD_mem _ p hp)
    · rw [List.getD_eq_default _ _ (by omega)]
      omega
  omega

theorem evenRound_result (k : Nat) :
    roundsOf insertionStdSort 200 2 (fun _ => standardDeck) (fun _ => 0)
      (fun _ => evenSel) k = some [(0, 24), (1, 26)] := by
  show compute_game_progress insertionStdSort 200 2 standardDeck 0 evenSel = _
  decide

theorem evenLoop_none (rounds : Nat → Option (List (Nat × Nat)))
    (hr : ∀ k, rounds k = some [(0, 24), (1, 26)]) :
    ∀ (fuel : Nat) (st : TournamentState), st.gameOver = false →
      (∃ a b, st.totalScores = [a, b] ∧ a % 2 = 0 ∧ b % 2 = 0) →
      tournamentLoop 2 (2 ^ 64 - 1) rounds fuel st = none := by
  intro fuel
  induction fuel with
  | zero =>
    intro st hgo _
    simp [tournamentLoop, hgo]
  | succ fuel ih =>
    intro st hgo hev
    obtain ⟨a, b, hab, ha, hb⟩ := hev
    have hloop : tournamentLoop 2 (2 ^ 64 - 1) rounds (fuel + 1) st =
        tournamentLoop 2 (2 ^ 64 - 1) rounds fuel
          (roundStep 2 (2 ^ 64 - 1) [(0, 24), (1, 26)] st) := by
      simp [tournamentLoop, hgo, hr]
    have htot : (roundStep 2 (2 ^ 64 - 1) [(0, 24), (1, 26)] st).totalScores =
        [(a + 24) % 2 ^ 64, (b + 26) % 2 ^ 64] := by
      show (creditRound _ [(0, 24), (1, 26)] st.totalScores st.winCounts).1 = _
      rw [hab]
      rfl
    have hx : ¬ (a + 24) % 2 ^ 64 ≥ 2 ^ 64 - 1 := by omega
    have hy : ¬ (b + 26) % 2 ^ 64 ≥ 2 ^ 64 - 1 := by omega
    have hover : (roundStep 2 (2 ^ 64 - 1) [(0, 24), (1, 26)] st).gameOver = false := by
      show (st.gameOver || thresholdReached 2 (2 ^ 64 - 1)
        (roundStep 2 (2 ^ 64 - 1) [(0, 24), (1, 26)] st).totalScores) = false
      rw [hgo, htot, Bool.false_or]
      unfold thresholdReached
      rw [List.any_eq_false]
      intro p hp
      have hp2 : p < 2 := List.mem_range.1 hp
      interval_cases p
      · simpa using hx
      · simpa using hy
    rw [hloop]
    exact ih _ hover ⟨_, _, htot, by omega, by omega⟩

/-- C37, counterexample: two players, the standard deck, starting player 1 and
strategies such that player 1 passes, player 0 plays the seven of spades and every
later turn is a pass: every round returns the counts 24 and 26. With
`maxScore = 2 ^ 64 - 1` the stored totals, which are even after every round, are
never at least `maxScore`: whatever the number of rounds allowed, the loop of the
tournament has not ended and no ranking is returned. -/
theorem tournament_may_not_stop :
    (2 ≤ 2 ∧ 2 ≤ 26 ∧ standardDeck.Perm standardDeck ∧ roundFuel 2 52 ≤ 200) ∧
    (∀ k, roundsOf insertionStdSort 200 2 (fun _ => standardDeck) (fun _ => 0)
      (fun _ => evenSel) k = some [(0, 24), (1, 26)]) ∧
    ∀ fuel,
      playTournament fuel 2 (2 ^ 64 - 1)
        (roundsOf insertionStdSort 200 2 (fun _ => standardDeck) (fun _ => 0)
          (fun _ => evenSel)) = none ∧
      compute_multiple_rounds_to_score insertionStatsSort insertionIdSort fuel 2
        (2 ^ 64 - 1)
        (roundsOf insertionStdSort 200 2 (fun _ => standardDeck) (fun _ => 0)
          (fun _ => evenSel)) = none := by
  refine ⟨⟨by decide, by decide, List.Perm.refl _, by decide⟩, evenRound_result, ?_⟩
  intro fuel
  have h : playTournament fuel 2 (2 ^ 64 - 1)
      (roundsOf insertionStdSort 200 2 (fun _ => standardDeck) (fun _ => 0)
        (fun _ => evenSel)) = none :=
    evenLoop_none _ evenRound_result fuel (initTournament 2) rfl ⟨0, 0, rfl, rfl, rfl⟩
  refine ⟨h, ?_⟩
  unfold compute_multiple_rounds_to_score
  rw [h]
  rfl

/-- C37, amended: for `2 ≤ nP ≤ 26`, shuffled standard decks, every `maxScore` with
`maxScore + 51 ≤ 2 ^ 64` and whatever the strategies return, every round returns a
result whose counts sum to at least `nP - 1`, so that the sum of the cumulative totals
grows by at least `nP - 1` per round, and the tournament stops after a number `R` of
rounds with `1 ≤ R ≤ max 1 (2 * maxScore)`: with fuel for `R` rounds the loop ends
after round `R` with the cumulative totals, none of which has reached `2 ^ 64`, and
the final ranking is returned. -/
theorem tournament_terminates (srt : StdSort (Nat × Nat) scoreLess)
    (srtP : StdSort PlayerStats statsLess) (srtR : StdSort (Nat × Nat) idLess)
    (nP maxScore fuelR : Nat) (decks : Nat → List Card) (rs : Nat → Nat)
    (sels : Nat → Nat → Int) (h2 : 2 ≤ nP) (h26 : nP ≤ 26)
    (hd : ∀ k, (decks k).Perm standardDeck) (hf : roundFuel nP 52 ≤ fuelR)
    (hmax : maxScore + 51 ≤ 2 ^ 64) :
    (∀ k, ∃ res, roundsOf srt fuelR nP decks rs sels k = some res ∧
      nP - 1 ≤ (res.map Prod.snd).sum) ∧
    (∀ k, totalSum nP (roundScoresOf fuelR nP decks rs sels) k + (nP - 1) ≤
      totalSum nP (roundScoresOf fuelR nP decks rs sels) (k + 1)) ∧
    ∃ R, 1 ≤ R ∧ R ≤ max 1 (2 * maxScore) ∧
      ∀ fuel, R ≤ fuel →
        ∃ st ranking,
          playTournament fuel nP maxScore (roundsOf srt fuelR nP decks rs sels) = some st ∧
          st.roundNumber = R + 1 ∧ st.gameOver = true ∧
          (∀ p, p < nP → st.totalScores.getD p 0 =
            cumulativeTotal (roundScoresOf fuelR nP decks rs sels) p R) ∧
          (∀ p, p < nP →
            cumulativeTotal (roundScoresOf fuelR nP decks rs sels) p R < 2 ^ 64) ∧
          compute_multiple_rounds_to_score srtP srtR fuel nP maxScore
            (roundsOf srt fuelR nP decks rs sels) = some ranking := by
  classical
  have hok := rounds_ok srt fuelR nP decks rs sels (by omega) h26 hd hf
  have hsc : ∀ k, (roundScoresOf fuelR nP decks rs sels (k + 1)).length = nP ∧
      nP ≤ (roundScoresOf fuelR nP decks rs sels (k + 1)).sum + 1 := by
    intro k
    obtain ⟨_, _, _, hl, _, hs, _⟩ := hok (k + 1)
    exact ⟨hl, hs⟩
  refine ⟨?_, ?_, ?_⟩
  · intro k
    obtain ⟨res, hres, _, _, _, hs, hsum, _⟩ := hok k
    exact ⟨res, hres, by rw [hsum]; omega⟩
  · intro k
    rw [totalSum_succ nP _ k (hsc k).1]
    have := (hsc k).2
    omega
  · obtain ⟨p0, hp0, hstop0⟩ := stop_within nP maxScore _ h2 hsc
    have hex : ∃ R, 1 ≤ R ∧ ∃ p, p < nP ∧
        cumulativeTotal (roundScoresOf fuelR nP decks rs sels) p R ≥ maxScore :=
      ⟨max 1 (2 * maxScore), by omega, p0, hp0, hstop0⟩
    have hspec := Nat.find_spec hex
    have hle : Nat.find hex ≤ max 1 (2 * maxScore) :=
      Nat.find_min' hex ⟨by omega, p0, hp0, hstop0⟩
    have hmin : ∀ k, 1 ≤ k → k < Nat.find hex → ∀ p, p < nP →
        cumulativeTotal (roundScoresOf fuelR nP decks rs sels) p k < maxScore := by
      intro k hk1 hk p hp
      by_contra hge
      exact Nat.find_min hex hk ⟨hk1, p, hp, by omega⟩
    have hrok : RoundsOk nP (roundsOf srt fuelR nP decks rs sels)
        (roundScoresOf fuelR nP decks rs sels) (Nat.find hex) := by
      intro k _ _
      obtain ⟨res, hres, hperm, hl, hb, _, _⟩ := hok k
      exact ⟨res, hres, hperm, hl, hb⟩
    have hb : ∀ p, p < nP →
        cumulativeTotal (roundScoresOf fuelR nP decks rs sels) p (Nat.find hex) < 2 ^ 64 := by
      intro p hp
      obtain ⟨K, hK⟩ : ∃ K, Nat.find hex = K + 1 := ⟨Nat.find hex - 1, by omega⟩
      rw [hK]
      have hstep := cumulativeTotal_step_le (roundScoresOf fuelR nP decks rs sels) p K
        (hok (K + 1)).choose_spec.2.2.2.2.2.2
      rcases Nat.eq_zero_or_pos K with h0 | hpos
      · subst h0
        have e0 : cumulativeTotal (roundScoresOf fuelR nP decks rs sels) p 0 = 0 := rfl
        omega
      · have := hmin K hpos (by omega) p hp
        omega
    refine ⟨Nat.find hex, hspec.1, hle, ?_⟩
    intro fuel hfuel
    obtain ⟨st, hst, hinv, hover, htot⟩ := playTournament_nowrap nP maxScore _ _
      (Nat.find hex) fuel (by omega) hrok hspec.1 hb hspec.2 hmin hfuel
    refine ⟨st, finalRanking srtP srtR nP st.totalScores st.winCounts, hst, hinv.round_eq,
      hover, htot, hb, ?_⟩
    unfold compute_multiple_rounds_to_score
    rw [hst]
    rfl

/-- Witness of C37: two players, the standard deck in every round, strategies that
always pass, threshold 30. -/
theorem tournament_terminates_witness :
    (2 ≤ 2 ∧ 2 ≤ 26 ∧ roundFuel 2 52 ≤ 200 ∧ 30 + 51 ≤ 2 ^ 64) ∧
    (∀ k, ∃ res, roundsOf insertionStdSort 200 2 (fun _ => standardDeck) (fun k => k)
        (fun _ _ => -1) k = some res ∧ 2 - 1 ≤ (res.map Prod.snd).sum) ∧
    (∀ k, totalSum 2 (roundScoresOf 200 2 (fun _ => standardDeck) (fun k => k)
        (fun _ _ => -1)) k + (2 - 1) ≤
      totalSum 2 (roundScoresOf 200 2 (fun _ => standardDeck) (fun k => k)
        (fun _ _ => -1)) (k + 1)) ∧
    ∃ R, 1 ≤ R ∧ R ≤ max 1 (2 * 30) ∧
      ∀ fuel, R ≤ fuel →
        ∃ st ranking,
          playTournament fuel 2 30 (roundsOf insertionStdSort 200 2
            (fun _ => standardDeck) (fun k => k) (fun _ _ => -1)) = some st ∧
          st.roundNumber = R + 1 ∧ st.gameOver = true ∧
          (∀ p, p < 2 → st.totalScores.getD p 0 =
            cumulativeTotal (roundScoresOf 200 2 (fun _ => standardDeck) (fun k => k)
              (fun _ _ => -1)) p R) ∧
          (∀ p, p < 2 →
            cumulativeTotal (roundScoresOf 200 2 (fun _ => standardDeck) (fun k => k)
              (fun _ _ => -1)) p R < 2 ^ 64) ∧
          compute_multiple_rounds_to_score insertionStatsSort insertionIdSort fuel 2 30
            (roundsOf insertionStdSort 200 2 (fun _ => standardDeck) (fun k => k)
              (fun _ _ => -1)) = some ranking :=
  ⟨⟨by decide, by decide, by decide, by decide⟩,
    tournament_terminates insertionStdSort insertionStatsSort insertionIdSort 2 30 200
      (fun _ => standardDeck) (fun k => k) (fun _ _ => -1) (by decide) (by decide)
      (fun _ => List.Perm.refl standardDeck) (by decide) (by decide)⟩


/-! ## Verbose round -/

theorem printCard_some (c : Card) (h : 0 ≤ c.suit ∧ c.suit ≤ 3) :
    ∃ t, printCard c = some t := by
  unfold printCard
  rw [if_neg (by omega)]
  have hlt : c.suit.toNat < SUIT_SYM.length := by
    have : SUIT_SYM.length = 4 := rfl
    omega
  rw [List.getElem?_eq_getElem hlt]
  exact ⟨_, rfl⟩

theorem printCards_some (l : List Card) (h : ∀ c, c ∈ l → 0 ≤ c.suit ∧ c.suit ≤ 3) :
    ∃ t, printCards l = some t := by
  induction l with
  | nil => exact ⟨"", rfl⟩
  | cons c rest ih =>
    obtain ⟨t, ht⟩ := printCard_some c (h c (List.mem_cons_self c rest))
    obtain ⟨m, hm⟩ := ih (fun x hx => h x (List.mem_cons_of_mem c hx))
    unfold printCards
    rw [ht, hm]
    exact ⟨_, rfl⟩

theorem printHandsFrom_some (H : List (List Card))
    (h : ∀ hand, hand ∈ H → ∀ c, c ∈ hand → 0 ≤ c.suit ∧ c.suit ≤ 3) :
    ∀ p, ∃ t, printHandsFrom p H = some t := by
  induction H with
  | nil => intro p; exact ⟨"", rfl⟩
  | cons x rest ih =>
    intro p
    obtain ⟨t, ht⟩ := printCards_some x (h x (List.mem_cons_self x rest))
    obtain ⟨m, hm⟩ := ih (fun y hy => h y (List.mem_cons_of_mem x hy)) (p + 1)
    unfold printHandsFrom printHand
    rw [ht]
    simp only
    rw [hm]
    exact ⟨_, rfl⟩

theorem printAllHands_some (st : RoundState) (h : HandsStandard st) :
    ∃ t, printAllHands st.hands = some t := by
  obtain ⟨t, ht⟩ := printHandsFrom_some st.hands
    (fun hand hh c hc =>
      ⟨(standardDeck_valid c (h hand hh c hc)).1, (standardDeck_valid c (h hand hh c hc)).2.1⟩)
    0
  unfold printAllHands
  rw [ht]
  exact ⟨_, rfl⟩

theorem displayTurn_eq (nP : Nat) (registered : List Nat) (idx : Int) (st : RoundState)
    (hwf : WF nP st) (hstd : HandsStandard st) (hp : st.current_player ∈ registered) :
    ∃ calls out, turnEvents registered idx st = some calls ∧
      displayTurn nP registered idx st = some (resolve nP idx st, calls, out) := by
  obtain ⟨t, ht⟩ := printAllHands_some st hstd
  unfold displayTurn
  rw [ht]
  simp only
  rw [if_neg (not_not.2 hp)]
  cases hacc : accepted (st.hands.getD st.current_player []) idx st.table with
  | false =>
    rw [resolve_pass nP idx st hacc]
    simp only [Bool.false_eq_true, if_false]
    exact ⟨_, _, turnEvents_pass registered idx st hp hacc, rfl⟩
  | true =>
    obtain ⟨_, _, c, hc, _⟩ := (accepted_iff _ _ _).1 hacc
    have hin : c ∈ st.hands.getD st.current_player [] := List.mem_iff_getElem?.2 ⟨_, hc⟩
    have hhand : st.hands.getD st.current_player [] ∈ st.hands :=
      List.mem_iff_getElem?.2 ⟨_, hand_of_WF hwf⟩
    have hv := standardDeck_valid c (hstd _ hhand c hin)
    obtain ⟨ct, hct⟩ := printCard_some c ⟨hv.1, hv.2.1⟩
    rw [resolve_accept nP idx st c hacc hc]
    simp only [if_true, hc, hct]
    exact ⟨_, _, turnEvents_accept registered idx st c hp hacc hc, rfl⟩

theorem displayTurn_unregistered (nP : Nat) (registered : List Nat) (idx : Int)
    (st : RoundState) (hp : st.current_player ∉ registered) :
    displayTurn nP registered idx st = none := by
  unfold displayTurn
  cases printAllHands st.hands with
  | none => rfl
  | some t =>
    simp only
    rw [if_pos hp]

/-- The verbose loop against the quiet loop and its calls: when the quiet loop
returns `stf`, the verbose loop is undefined exactly when the calls of the quiet
loop are, and otherwise it returns `stf` after the same calls. -/
theorem displayLoop_spec (nP : Nat) (registered : List Nat) (sel : Nat → Int) :
    ∀ (fuel : Nat) (st : RoundState) (ev : List Event) (out : String),
      WF nP st → HandsStandard st →
      ∀ stf, turnLoop nP sel fuel st = some stf →
        (loopEvents registered nP sel fuel st = none →
          displayLoop nP registered sel fuel (st, ev, out) = none) ∧
        (∀ calls, loopEvents registered nP sel fuel st = some calls →
          ∃ outf, displayLoop nP registered sel fuel (st, ev, out) =
            some (stf, ev ++ calls, outf)) := by
  intro fuel
  induction fuel with
  | zero =>
    intro st ev out _ _ stf h
    unfold turnLoop at h
    by_cases hgo : st.game_over = true
    · rw [if_pos hgo] at h
      injection h with h
      subst h
      refine ⟨(fun hn => by cases hn), fun calls hc => ⟨out, ?_⟩⟩
      have hc2 : calls = [] := (Option.some.inj hc).symm
      unfold displayLoop
      rw [if_pos hgo, hc2, List.append_nil]
    · rw [if_neg hgo] at h
      cases h
  | succ f ih =>
    intro st ev out hwf hstd stf h
    by_cases hgo : st.game_over = true
    · rw [turnLoop_of_game_over nP sel (f + 1) st hgo] at h
      injection h with h
      subst h
      have hle : loopEvents registered nP sel (f + 1) st = some [] := by
        unfold loopEvents
        rw [if_pos hgo]
      refine ⟨fun hn => ?_, fun calls hc => ⟨out, ?_⟩⟩
      · rw [hle] at hn
        cases hn
      · rw [hle] at hc
        have hc2 : calls = [] := (Option.some.inj hc).symm
        unfold displayLoop
        rw [if_pos hgo, hc2, List.append_nil]
    · have hgo2 : st.game_over = false := by simpa using hgo
      rw [turnLoop_step nP sel f st hwf hgo2] at h
      by_cases hp : st.current_player ∈ registered
      · obtain ⟨t, o1, ht, ho1⟩ :=
          displayTurn_eq nP registered (sel st.turns) st hwf hstd hp
        obtain ⟨ih1, ih2⟩ := ih (resolve nP (sel st.turns) st) (ev ++ t) (out ++ o1)
          (resolve_WF nP _ st hwf) (resolve_standard nP _ st hstd) stf h
        have hle : loopEvents registered nP sel (f + 1) st =
            match loopEvents registered nP sel f (resolve nP (sel st.turns) st) with
            | none => none
            | some rest => some (t ++ rest) := by
          rw [loopEvents, if_neg hgo, ht, turn_of_inBounds _ _ _ hwf.inBounds]
        have hdl : displayLoop nP registered sel (f + 1) (st, ev, out) =
            displayLoop nP registered sel f
              (resolve nP (sel st.turns) st, ev ++ t, out ++ o1) := by
          rw [displayLoop]
          simp only
          rw [if_neg hgo, if_pos hwf.inBounds, ho1]
        rw [hle, hdl]
        cases hrest : loopEvents registered nP sel f (resolve nP (sel st.turns) st) with
        | none =>
          refine ⟨fun _ => ih1 hrest, fun calls hc => ?_⟩
          cases hc
        | some rest =>
          refine ⟨(fun hn => by cases hn), fun calls hc => ?_⟩
          obtain ⟨outf, hout⟩ := ih2 rest hrest
          have hc2 : calls = t ++ rest := (Option.some.inj hc).symm
          exact ⟨outf, by rw [hout, hc2, List.append_assoc]⟩
      · have hle : loopEvents registered nP sel (f + 1) st = none := by
          rw [loopEvents, if_neg hgo, turnEvents_unregistered registered _ st hp]
        have hdl : displayLoop nP registered sel (f + 1) (st, ev, out) = none := by
          rw [displayLoop]
          simp only
          rw [if_neg hgo, if_pos hwf.inBounds,
            displayTurn_unregistered nP registered _ st hp]
        refine ⟨fun _ => hdl, fun calls hc => ?_⟩
        rw [hle] at hc
        cases hc

/-- C38: for `nP ≥ 1`, a shuffled standard deck, the same generator output and the
same answers of the strategies, every iteration of the verbose loop started in a
state of the quiet round is undefined when the current player has no strategy, as
the iteration of the quiet loop is, and otherwise gives the next state of the quiet
round and makes the same calls to the strategies; with enough fuel
`compute_and_display_game` is undefined when the calls of the quiet round are, and
otherwise returns the ranking of `compute_game_progress` after the same calls; it
adds only printed text. When every player has a registered strategy both functions
return. -/
theorem quiet_verbose_agree (srt : StdSort (Nat × Nat) scoreLess) (nP : Nat)
    (deck : List Card) (r : Nat) (sel : Nat → Int) (registered : List Nat) (fuel : Nat)
    (hnP : 1 ≤ nP) (hd : deck.Perm standardDeck) (hf : roundFuel nP deck.length ≤ fuel) :
    (∀ k, (stateAfter nP sel (dealtRound nP deck r) k).game_over = false →
      (turnEvents registered (sel (stateAfter nP sel (dealtRound nP deck r) k).turns)
          (stateAfter nP sel (dealtRound nP deck r) k) = none →
        displayTurn nP registered (sel (stateAfter nP sel (dealtRound nP deck r) k).turns)
          (stateAfter nP sel (dealtRound nP deck r) k) = none) ∧
      (∀ calls,
        turnEvents registered (sel (stateAfter nP sel (dealtRound nP deck r) k).turns)
          (stateAfter nP sel (dealtRound nP deck r) k) = some calls →
        ∃ out,
          displayTurn nP registered (sel (stateAfter nP sel (dealtRound nP deck r) k).turns)
            (stateAfter nP sel (dealtRound nP deck r) k) =
          some (stateAfter nP sel (dealtRound nP deck r) (k + 1), calls, out))) ∧
    (roundEvents registered nP deck r sel fuel = none →
      compute_and_display_game srt fuel nP deck r sel registered = none) ∧
    (∀ calls, roundEvents registered nP deck r sel fuel = some calls →
      ∃ res out, compute_game_progress srt fuel nP deck r sel = some res ∧
        compute_and_display_game srt fuel nP deck r sel registered =
          some (res, calls, out)) ∧
    ((∀ i, i < nP → i ∈ registered) →
      ∃ res calls out, compute_game_progress srt fuel nP deck r sel = some res ∧
        roundEvents registered nP deck r sel fuel = some calls ∧
        compute_and_display_game srt fuel nP deck r sel registered =
          some (res, calls, out)) := by
  have hwf0 := dealtRound_WF nP deck r (by omega)
  have hstd0 := dealtRound_standard nP deck r (by omega) hd
  have hinv : ∀ k, WF nP (stateAfter nP sel (dealtRound nP deck r) k) ∧
      HandsStandard (stateAfter nP sel (dealtRound nP deck r) k) := fun k =>
    stateAfter_induction nP sel (dealtRound nP deck r) HandsStandard hwf0 hstd0
      (fun st idx _ _ hP => resolve_standard nP idx st hP) k
  obtain ⟨k, _, _, _, hplay⟩ := playRound_result nP deck r sel (by omega)
  have hp := hplay fuel hf
  have hloop : turnLoop nP sel fuel (dealtRound nP deck r) =
      some (stateAfter nP sel (dealtRound nP deck r) k) := by
    unfold playRound at hp
    rwa [if_neg (by omega)] at hp
  obtain ⟨ht, hht⟩ := printAllHands_some (dealtRound nP deck r) hstd0
  obtain ⟨hd1, hd2⟩ := displayLoop_spec nP registered sel fuel (dealtRound nP deck r)
    (initLoop registered (dealtRound nP deck r).hands nP).2
    ("\n7♦ is on the table at the start of the game.\n" ++ ht ++
      printTable (dealtRound nP deck r).table) hwf0 hstd0 _ hloop
  have hquiet : compute_game_progress srt fuel nP deck r sel =
      some (srt.run (scoreWithId nP (stateAfter nP sel (dealtRound nP deck r) k).scores)) := by
    unfold compute_game_progress
    rw [hp]
    rfl
  have hsome : ∀ calls, roundEvents registered nP deck r sel fuel = some calls →
      ∃ res out, compute_game_progress srt fuel nP deck r sel = some res ∧
        compute_and_display_game srt fuel nP deck r sel registered =
          some (res, calls, out) := by
    intro calls hc
    unfold roundEvents at hc
    cases hl : loopEvents registered nP sel fuel (dealtRound nP deck r) with
    | none => rw [hl] at hc; cases hc
    | some loopCalls =>
      rw [hl] at hc
      have hc2 : calls =
          (initLoop registered (dealtRound nP deck r).hands nP).2 ++ loopCalls :=
        (Option.some.inj hc).symm
      obtain ⟨outf, houtf⟩ := hd2 loopCalls hl
      refine ⟨srt.run (scoreWithId nP (stateAfter nP sel (dealtRound nP deck r) k).scores),
        outf ++ printScores
          (srt.run (scoreWithId nP (stateAfter nP sel (dealtRound nP deck r) k).scores)),
        hquiet, ?_⟩
      unfold compute_and_display_game
      rw [if_neg (by omega), hht]
      simp only
      rw [houtf, hc2]
  refine ⟨?_, ?_, hsome, ?_⟩
  · intro j hgo
    constructor
    · intro hn
      by_cases hreg : (stateAfter nP sel (dealtRound nP deck r) j).current_player ∈ registered
      · obtain ⟨c, hc⟩ := turnEvents_registered registered
          (sel (stateAfter nP sel (dealtRound nP deck r) j).turns) _ hreg
        rw [hc] at hn
        cases hn
      · exact displayTurn_unregistered nP registered _ _ hreg
    · intro calls hc
      have hreg : (stateAfter nP sel (dealtRound nP deck r) j).current_player ∈ registered := by
        by_contra hno
        rw [turnEvents_unregistered registered _ _ hno] at hc
        cases hc
      obtain ⟨c2, out, hc2, hout⟩ := displayTurn_eq nP registered
        (sel (stateAfter nP sel (dealtRound nP deck r) j).turns) _ (hinv j).1 (hinv j).2 hreg
      refine ⟨out, ?_⟩
      rw [hout, stateAfter_succ_of_WF nP sel (dealtRound nP deck r) j (hinv j).1 hgo,
        Option.some.inj (hc2.symm.trans hc)]
  · intro hn
    have hl : loopEvents registered nP sel fuel (dealtRound nP deck r) = none := by
      unfold roundEvents at hn
      cases hl : loopEvents registered nP sel fuel (dealtRound nP deck r) with
      | none => rfl
      | some c => rw [hl] at hn; cases hn
    unfold compute_and_display_game
    rw [if_neg (by omega), hht]
    simp only
    rw [hd1 hl]
  · intro hreg
    obtain ⟨loopCalls, hl⟩ := loopEvents_some registered nP sel hreg fuel _ hwf0
    have hre : roundEvents registered nP deck r sel fuel =
        some ((initLoop registered (dealtRound nP deck r).hands nP).2 ++ loopCalls) := by
      unfold roundEvents
      rw [hl]
    obtain ⟨res, out, h1, h2⟩ := hsome _ hre
    exact ⟨res, _, out, h1, hre, h2⟩

/-- Witness of C38: two players with registered strategies on the standard deck,
the first answer being the index 16 and the others passes. -/
theorem quiet_verbose_agree_witness :
    (1 ≤ 2 ∧ standardDeck.Perm standardDeck ∧ roundFuel 2 standardDeck.length ≤ 200 ∧
      ∀ i, i < 2 → i ∈ ([0, 1] : List Nat)) ∧
    ∃ res calls out,
      compute_game_progress insertionStdSort 200 2 standardDeck 0
        (fun k => if k = 0 then 16 else -1) = some res ∧
      roundEvents [0, 1] 2 standardDeck 0 (fun k => if k = 0 then 16 else -1) 200 =
        some calls ∧
      compute_and_display_game insertionStdSort 200 2 standardDeck 0
        (fun k => if k = 0 then 16 else -1) [0, 1] = some (res, calls, out) :=
  ⟨⟨by decide, List.Perm.refl standardDeck, by decide, by decide⟩,
    (quiet_verbose_agree insertionStdSort 2 standardDeck 0
      (fun k => if k = 0 then 16 else -1) [0, 1] 200 (by decide)
      (List.Perm.refl standardDeck) (by decide)).2.2.2 (by decide)⟩

end Sevens
